import Mathlib

/-!
Shallow embedding of the PyRepos crawler (src/repos.py, src/GithubCrawler.py,
src/GitlabCrawler.py).

The shared mutable `networkx.Graph` is modelled as an association list of
nodes (key, attributes) plus a list of undirected edges (u, v, relation).
All graph mutations in the source happen inside `with graph_lock:` critical
sections, so a concurrent execution of the import tasks is serialized here
as a sequential fold over the repositories of a page / result stream.
Python `None` is `Option.none`; Python `or` on strings is modelled with its
truthiness (the empty string is falsy).
-/

/-- Attributes of a networkx node as used by the crawler: repository nodes
get `bipartite=0, language, weight`, person nodes get `bipartite=1`.
A node auto-added by `add_edge` would carry no attributes (all `none`). -/
structure NodeAttrs where
  bipartite : Option Nat := none
  language : Option String := none
  weight : Option Int := none
deriving DecidableEq, Repr

/-- The graph: nodes as (key, attributes) with unique keys, edges as
(u, v, relation) stored once per undirected pair, as in networkx. -/
structure PGraph where
  nodes : List (String × NodeAttrs) := []
  edges : List (String × String × Option String) := []
deriving DecidableEq, Repr

def PGraph.hasNode (g : PGraph) (k : String) : Bool :=
  g.nodes.any (fun p => p.1 = k)

def PGraph.lookupN (g : PGraph) (k : String) : Option NodeAttrs :=
  (g.nodes.find? (fun p => p.1 = k)).map Prod.snd

/-- `g.add_node(k, **attrs)`: insert if absent, replace attributes if present
(the crawler only ever calls it guarded by a non-membership check). -/
def PGraph.addNode (g : PGraph) (k : String) (a : NodeAttrs) : PGraph :=
  if g.hasNode k then
    { g with nodes := g.nodes.map (fun p => if p.1 = k then (k, a) else p) }
  else
    { g with nodes := g.nodes ++ [(k, a)] }

/-- Do two stored edges join the same unordered pair of endpoints? -/
def sameEnds (u v : String) (e : String × String × Option String) : Bool :=
  (e.1 = u && e.2.1 = v) || (e.1 = v && e.2.1 = u)

/-- Is the stored edge incident to node `k`? -/
def incident (k : String) (e : String × String × Option String) : Bool :=
  e.1 = k || e.2.1 = k

/-- `g.add_edge(u, v, relation=rel)`: auto-add missing endpoints (with no
attributes, as networkx does), then update the relation of an existing
(u,v)/(v,u) edge or append a new one. -/
def PGraph.addEdge (g : PGraph) (u v : String) (rel : Option String) : PGraph :=
  let g1 := if g.hasNode u then g else g.addNode u {}
  let g2 := if g1.hasNode v then g1 else g1.addNode v {}
  if g2.edges.any (sameEnds u v) then
    { g2 with edges := g2.edges.map (fun e => if sameEnds u v e then (e.1, e.2.1, rel) else e) }
  else
    { g2 with edges := g2.edges ++ [(u, v, rel)] }

/-- `g.remove_node(k)`: drop the node and every incident edge. -/
def PGraph.removeNode (g : PGraph) (k : String) : PGraph :=
  { nodes := g.nodes.filter (fun p => p.1 ≠ k),
    edges := g.edges.filter (fun e => ¬ incident k e) }

def PGraph.nodeCount (g : PGraph) : Nat := g.nodes.length

/-- Number of repository nodes (`bipartite=0`), as in `analize_graph`. -/
def PGraph.repoCount (g : PGraph) : Nat :=
  (g.nodes.filter (fun p => p.2.bipartite = some 0)).length

/-- Is there an edge between `u` and `v` carrying relation `rel`? -/
def PGraph.edgeBetween (g : PGraph) (u v : String) (rel : Option String) : Bool :=
  g.edges.any (fun e => sameEnds u v e && e.2.2 = rel)

/-! ## Remote data model -/

/-- A GitHub user object (`NamedUser`): the crawler reads `login` and
`email`; either may be Python `None`. -/
structure Person where
  login : Option String := none
  email : Option String := none
deriving DecidableEq, Repr

/-- A commit: the crawler reads `commit.author`, which may be `None`
(commits whose author has no platform account). -/
structure Commit where
  author : Option Person := none
deriving DecidableEq, Repr

/-- The exceptions distinguished by the crawler's handlers.
`rateLimit` = `RateLimitExceededException`, `github` = any other
`GithubException`, `http` = `urllib.error.HTTPError`,
`gitlab c` = `GitlabGetError` with `response_code = c`,
`other` = any other `Exception` (e.g. `AttributeError`). -/
inductive ApiErr where
  | rateLimit
  | github
  | http
  | gitlab (code : Nat)
  | other
deriving DecidableEq, Repr

/-- A lazy remote listing: the items the iterator yields before it either
finishes (`err = none`) or raises (`err = some e`). -/
structure FetchList (α : Type) where
  items : List α := []
  err : Option ApiErr := none
deriving DecidableEq, Repr

/-- A GitHub repository object as read by the crawler; `parent` is the fork
parent, recursively another repository. -/
inductive Repo : Type where
  | mk (full_name : Option String) (language : Option String) (watchers_count : Option Int)
       (fork : Bool) (parent : Option Repo) (owner : Option Person)
       (contributors : FetchList Person) (commits : FetchList Commit) : Repo

def Repo.full_name : Repo → Option String
  | .mk fn _ _ _ _ _ _ _ => fn

def Repo.language : Repo → Option String
  | .mk _ l _ _ _ _ _ _ => l

def Repo.watchers_count : Repo → Option Int
  | .mk _ _ w _ _ _ _ _ => w

def Repo.fork : Repo → Bool
  | .mk _ _ _ f _ _ _ _ => f

def Repo.parent : Repo → Option Repo
  | .mk _ _ _ _ p _ _ _ => p

def Repo.owner : Repo → Option Person
  | .mk _ _ _ _ _ o _ _ => o

def Repo.contributors : Repo → FetchList Person
  | .mk _ _ _ _ _ _ c _ => c

def Repo.commits : Repo → FetchList Commit
  | .mk _ _ _ _ _ _ _ c => c

/-- Python `a or b` on two optional strings: `None` and `''` are falsy. -/
def pyOrS (a b : Option String) : Option String :=
  match a with
  | some s => if s = "" then b else some s
  | none => b

/-- Python `s or '?'` for `repo.language or '?'`. -/
def langOr (a : Option String) : String :=
  match a with
  | some s => if s = "" then "?" else s
  | none => "?"

/-- Python `n or 0` for `repo.watchers_count or 0` / `repo.star_count or 0`
(0 is falsy, so the result is unchanged for integers). -/
def intOr (a : Option Int) : Int :=
  match a with
  | some n => if n = 0 then 0 else n
  | none => 0

/-! ## repos.py: `GithubCrawler.find` / `find_all` and their nested helpers -/

/-- repos.py `link_user(user, relation)`: reads `user.login` (an
`AttributeError`, modelled `ApiErr.other`, when `user` is Python `None`),
returns silently on a `None` login, otherwise adds the person node when
missing and the edge to the repository (one lock-protected block). -/
def linkUserR (g : PGraph) (repo_id : String) (user : Option Person)
    (rel : Option String) : PGraph × Option ApiErr :=
  match user with
  | none => (g, some .other)
  | some u =>
    match u.login with
    | none => (g, none)
    | some uid =>
      let g1 := if g.hasNode uid then g else g.addNode uid { bipartite := some 1 }
      (g1.addEdge uid repo_id rel, none)

/-- Link a sequence of users (repos.py), stopping at the first raise. -/
def linkAllR (repo_id : String) (rel : Option String) :
    PGraph → List (Option Person) → PGraph × Option ApiErr
  | g, [] => (g, none)
  | g, u :: us =>
    match linkUserR g repo_id u rel with
    | (g1, none) => linkAllR repo_id rel g1 us
    | (g1, some e) => (g1, some e)

/-- The `try:` body of repos.py `import_repo`: owner + contributors when
`since` is unset, commit authors when it is set; a fetch error surfaces
after the yielded items were linked. -/
def enrichR (g : PGraph) (since : Option Nat) (repo_id : String)
    (owner : Option Person) (contribs : FetchList Person)
    (commits : FetchList Commit) : PGraph × Option ApiErr :=
  match since with
  | none =>
    let g1 := match owner with
      | some o => (linkUserR g repo_id (some o) (some "owner")).1
      | none => g
    match linkAllR repo_id (some "contributor") g1 (contribs.items.map some) with
    | (g2, none) => (g2, contribs.err)
    | (g2, some e) => (g2, some e)
  | some _ =>
    match linkAllR repo_id (some "committer") g (commits.items.map (·.author)) with
    | (g2, none) => (g2, commits.err)
    | (g2, some e) => (g2, some e)

/-- The rollback handler of repos.py `import_repo`: `except Exception`
removes the repository node and re-raises, whatever the exception. -/
def finishR (since : Option Nat) (repo_id : String) (owner : Option Person)
    (contribs : FetchList Person) (commits : FetchList Commit) (g : PGraph) :
    PGraph × Except ApiErr (Option String) :=
  match enrichR g since repo_id owner contribs commits with
  | (g1, none) => (g1, Except.ok (some repo_id))
  | (g1, some e) => (g1.removeNode repo_id, Except.error e)

/-- repos.py `import_repo`: skip on a `None` full name or an existing node
(check and insert in one lock-protected block), add the repository node,
recursively import a fork parent first, enrich, roll back on any failure. -/
def importRepoR (since : Option Nat) : PGraph → Repo → PGraph × Except ApiErr (Option String)
  | g, .mk fn lang w fork parent owner contribs commits =>
    match fn with
    | none => (g, .ok none)
    | some repo_id =>
      if g.hasNode repo_id then (g, .ok none)
      else
        let g1 := g.addNode repo_id
          { bipartite := some 0, language := some (langOr lang), weight := some (intOr w) }
        match parent, fork with
        | some p, true =>
          match importRepoR since g1 p with
          | (g2, .error e) => (g2, .error e)
          | (g2, .ok _) => finishR since repo_id owner contribs commits g2
        | some _, false => finishR since repo_id owner contribs commits g1
        | none, _ => finishR since repo_id owner contribs commits g1

/-- Python slicing in repos.py `find`: `repos[self.offset:]` only when the
offset is truthy, then `repos[:limit]` only when the limit is truthy —
a limit of 0 therefore slices nothing and behaves like no limit. -/
def sliceRepos (off : Nat) (lim : Option Nat) (stream : List Repo) : List Repo :=
  let r1 := if off = 0 then stream else stream.drop off
  match lim with
  | none => r1
  | some 0 => r1
  | some k => r1.take k

/-- The `executor.map(import_repo, repos)` consumption loop of repos.py
`find`, serialized: the offset advances once per consumed result and the
first raising task aborts the iteration. -/
def processStreamR (since : Option Nat) : PGraph → Nat → List Repo → PGraph × Nat × Option ApiErr
  | g, off, [] => (g, off, none)
  | g, off, r :: rs =>
    match importRepoR since g r with
    | (g1, .ok _) => processStreamR since g1 (off + 1) rs
    | (g1, .error e) => (g1, off, some e)

/-- Result of one repos.py `find` pass: the graph, the advanced session
offset, whether the pass finished exhaustively, and an exception that
escaped `find` (page-level `HTTPError` / `RateLimitExceededException` /
`GithubException` are caught and swallowed there). -/
structure FindRes where
  g : PGraph
  offset : Nat
  completed : Bool
  raised : Option ApiErr
deriving DecidableEq, Repr

/-- repos.py `find`: slice the stream by offset and limit, import
sequentially, catch the three page-level handlers (returning the graph),
let any other exception propagate; `completed` is set only when the map
loop finishes without an exception. -/
def findR (g : PGraph) (off : Nat) (lim : Option Nat) (since : Option Nat)
    (stream : List Repo) : FindRes :=
  match processStreamR since g off (sliceRepos off lim stream) with
  | (g1, off1, none) => ⟨g1, off1, true, none⟩
  | (g1, off1, some e) =>
    if e = ApiErr.http ∨ e = ApiErr.rateLimit ∨ e = ApiErr.github then ⟨g1, off1, false, none⟩
    else ⟨g1, off1, false, some e⟩

/-- repos.py `find_all`, unrolled for `fuel` passes: after each pass the
limit becomes `max(0, limit - (number_of_nodes(g) - previous_count))`
where `previous_count` is the node count of the graph when `find_all`
started; one `(graph, updated limit)` snapshot is yielded per pass; the
loop exits once a pass completes, and an exception raised out of `find`
kills the generator before any further yield. -/
def findAllGo (since : Option Nat) (stream : List Repo) (prevCount : Nat) :
    Nat → PGraph → Nat → Option Nat → List (PGraph × Option Nat)
  | 0, _, _, _ => []
  | fuel + 1, g, off, lim =>
    let r := findR g off lim since stream
    match r.raised with
    | some _ => []
    | none =>
      let lim' := lim.map (fun (l : Nat) =>
        (max 0 ((l : Int) - ((r.g.nodeCount : Int) - (prevCount : Int)))).toNat)
      if r.completed then [(r.g, lim')]
      else (r.g, lim') :: findAllGo since stream prevCount fuel r.g r.offset lim'

/-- repos.py `find_all` on a fresh crawler (offset 0, `previous_count`
taken from the initial graph). -/
def findAllR (fuel : Nat) (g : PGraph) (lim : Option Nat) (since : Option Nat)
    (stream : List Repo) : List (PGraph × Option Nat) :=
  findAllGo since stream g.nodeCount fuel g 0 lim

/-! ## src/GithubCrawler.py: the generator-based crawler -/

/-- GithubCrawler.py `link_user(user_id, relation)`: the identity key is
computed by the caller; a Python `None` key returns silently, otherwise the
person node is added when missing and the edge to the repository is added,
in one lock-protected block. -/
def linkUserG (g : PGraph) (repo_id : String) (user_id : Option String)
    (rel : Option String) : PGraph :=
  match user_id with
  | none => g
  | some uid =>
    let g1 := if g.hasNode uid then g else g.addNode uid { bipartite := some 1 }
    g1.addEdge uid repo_id rel

/-- The commit loop of GithubCrawler.py: `commit.author.login or
commit.author.email` raises `AttributeError` (`ApiErr.other`) when the
author is `None`, before `link_user` is reached. -/
def linkCommitsG (repo_id : String) : PGraph → List Commit → PGraph × Option ApiErr
  | g, [] => (g, none)
  | g, c :: cs =>
    match c.author with
    | none => (g, some .other)
    | some a => linkCommitsG repo_id (linkUserG g repo_id (pyOrS a.login a.email) (some "committer")) cs

/-- The `try:` body of GithubCrawler.py `import_repo`: the owner is linked
by login only, contributors by `login or email`, commit authors by
`login or email`; a fetch error surfaces after its yielded items. -/
def enrichG (g : PGraph) (since : Option Nat) (repo_id : String)
    (owner : Option Person) (contribs : FetchList Person)
    (commits : FetchList Commit) : PGraph × Option ApiErr :=
  match since with
  | none =>
    let g1 := match owner with
      | some o => linkUserG g repo_id o.login (some "owner")
      | none => g
    let g2 := contribs.items.foldl
      (fun gg p => linkUserG gg repo_id (pyOrS p.login p.email) (some "contributor")) g1
    (g2, contribs.err)
  | some _ =>
    match linkCommitsG repo_id g commits.items with
    | (g2, none) => (g2, commits.err)
    | (g2, some e) => (g2, some e)

/-- The handler chain of GithubCrawler.py `import_repo`:
`RateLimitExceededException` → remove the node and re-raise;
`GithubException` → remove the node and swallow;
any other exception → re-raise with **no** rollback. -/
def finishG (since : Option Nat) (repo_id : String) (owner : Option Person)
    (contribs : FetchList Person) (commits : FetchList Commit) (g : PGraph) :
    PGraph × Except ApiErr Unit :=
  match enrichG g since repo_id owner contribs commits with
  | (g1, none) => (g1, Except.ok ())
  | (g1, some ApiErr.rateLimit) => (g1.removeNode repo_id, Except.error ApiErr.rateLimit)
  | (g1, some ApiErr.github) => (g1.removeNode repo_id, Except.ok ())
  | (g1, some e) => (g1, Except.error e)

/-- GithubCrawler.py `import_repo`: skip on a `None` full name or an
existing node (one atomic check-and-return / check-and-insert), add the
repository node, recursively import a fork parent, enrich, and apply the
three-way exception handler. `.ok` means the worker returned its repo. -/
def importRepoG (since : Option Nat) : PGraph → Repo → PGraph × Except ApiErr Unit
  | g, .mk fn lang w fork parent owner contribs commits =>
    match fn with
    | none => (g, .ok ())
    | some repo_id =>
      if g.hasNode repo_id then (g, .ok ())
      else
        let g1 := g.addNode repo_id
          { bipartite := some 0, language := some (langOr lang), weight := some (intOr w) }
        match parent, fork with
        | some p, true =>
          match importRepoG since g1 p with
          | (g2, .error e) => (g2, .error e)
          | (g2, .ok _) => finishG since repo_id owner contribs commits g2
        | some _, false => finishG since repo_id owner contribs commits g1
        | none, _ => finishG since repo_id owner contribs commits g1

/-- One submitted batch of GithubCrawler.py `find`, serialized in
completion order: each worker that returns bumps `count` by one (the
worker returns its repo whether it imported or skipped it); the first
worker whose exception reaches `worker.result()` aborts the loop and the
remaining workers' results are never consumed. -/
def processPageG (since : Option Nat) : PGraph → List Repo → PGraph × Nat × Option ApiErr
  | g, [] => (g, 0, none)
  | g, r :: rs =>
    match importRepoG since g r with
    | (g1, .ok _) =>
      match processPageG since g1 rs with
      | (g2, n, e) => (g2, n + 1, e)
    | (g1, .error e) => (g1, 0, some e)

/-! ## src/GitlabCrawler.py -/

/-- A GitLab project as read by GitlabCrawler.py: `path_with_namespace`,
the `languages()` mapping, `star_count`, `namespace['path']` (`none` when
`namespace` is `None`), contributor `email` fields, and commits.
`repo.languages()` is itself an HTTP GET: `languages_err = some c` models
it raising `GitlabGetError` with `response_code = c` — that call happens
before `add_node` and OUTSIDE the `try:` of `import_repo`. -/
structure LRepo where
  path_with_namespace : Option String := none
  languages : List (String × Int) := []
  languages_err : Option Nat := none
  star_count : Option Int := none
  namespacePath : Option String := none
  contributors : FetchList (Option String) := {}
  commits : FetchList Commit := {}

/-- `sorted(languages.items(), key=lambda t: t[1], reverse=True)[0][0]` when
non-empty, else `'?'`: the first key of maximal count (Python's sort is
stable, so ties keep the original order). -/
def topLanguage : List (String × Int) → String
  | [] => "?"
  | l :: rest => (rest.foldl (fun best cur => if cur.2 > best.2 then cur else best) l).1

/-- GitlabCrawler.py `link_user(repo_id, user_id, **attr)`: same shape as
the GithubCrawler.py variant. -/
def linkUserL (g : PGraph) (repo_id : String) (user_id : Option String)
    (rel : Option String) : PGraph :=
  match user_id with
  | none => g
  | some uid =>
    let g1 := if g.hasNode uid then g else g.addNode uid { bipartite := some 1 }
    g1.addEdge uid repo_id rel

/-- The `try:` body of GitlabCrawler.py `import_repo`: the namespace path is
linked as owner, contributors by their `email` field, commit authors by
`login or email` (`AttributeError` on a `None` author). -/
def enrichL (g : PGraph) (since : Option Nat) (repo_id : String)
    (nsPath : Option String) (contribs : FetchList (Option String))
    (commits : FetchList Commit) : PGraph × Option ApiErr :=
  match since with
  | none =>
    let g1 := match nsPath with
      | some ns => linkUserL g repo_id (some ns) (some "owner")
      | none => g
    let g2 := contribs.items.foldl (fun gg em => linkUserL gg repo_id em (some "contributor")) g1
    (g2, contribs.err)
  | some _ =>
    match linkCommitsG repo_id g commits.items with
    | (g2, none) => (g2, commits.err)
    | (g2, some e) => (g2, some e)

/-- GitlabCrawler.py `import_repo`: skip on a `None` path or existing node;
then `repo.languages()` runs before `add_node` and outside the `try:`, so a
`GitlabGetError` raised there propagates out of the task with NO rollback
(no node was added yet) whatever its response code; otherwise add the
repository node and enrich; on a `GitlabGetError` inside the `try:` the
node is removed and the error re-raised only when `response_code == 429`;
any other exception re-raises with no rollback. -/
def importRepoL (since : Option Nat) (g : PGraph) (r : LRepo) : PGraph × Except ApiErr Unit :=
  match r.path_with_namespace with
  | none => (g, .ok ())
  | some repo_id =>
    if g.hasNode repo_id then (g, .ok ())
    else
      match r.languages_err with
      | some c => (g, Except.error (ApiErr.gitlab c))
      | none =>
        let g1 := g.addNode repo_id
          { bipartite := some 0, language := some (topLanguage r.languages),
            weight := some (intOr r.star_count) }
        match enrichL g1 since repo_id r.namespacePath r.contributors r.commits with
        | (g2, none) => (g2, Except.ok ())
        | (g2, some (ApiErr.gitlab c)) =>
          let g3 := g2.removeNode repo_id
          if c = 429 then (g3, Except.error (ApiErr.gitlab c)) else (g3, Except.ok ())
        | (g2, some e) => (g2, Except.error e)

/-- One submitted batch of GitlabCrawler.py `find`, serialized like
`processPageG`. -/
def processPageL (since : Option Nat) : PGraph → List LRepo → PGraph × Nat × Option ApiErr
  | g, [] => (g, 0, none)
  | g, r :: rs =>
    match importRepoL since g r with
    | (g1, .ok _) =>
      match processPageL since g1 rs with
      | (g2, n, e) => (g2, n + 1, e)
    | (g1, .error e) => (g1, 0, some e)

/-! ## Graph predicates -/

/-- Node keys are unique (the networkx invariant the dedup gate preserves). -/
def NodupKeys (g : PGraph) : Prop := (g.nodes.map Prod.fst).Nodup

/-- No two stored edges join the same unordered pair. -/
def NodupEdges (g : PGraph) : Prop :=
  g.edges.Pairwise (fun a b => sameEnds a.1 a.2.1 b = false)

/-- Every stored edge's endpoints are nodes of the graph. -/
def Closed (g : PGraph) : Prop :=
  ∀ e ∈ g.edges, g.hasNode e.1 = true ∧ g.hasNode e.2.1 = true

/-- The endpoints of `e` are nodes of `g` of opposite `bipartite` class. -/
def edgeOk (g : PGraph) (e : String × String × Option String) : Bool :=
  match g.lookupN e.1, g.lookupN e.2.1 with
  | some a, some b =>
    (a.bipartite == some 0 && b.bipartite == some 1)
      || (a.bipartite == some 1 && b.bipartite == some 0)
  | _, _ => false

/-- Bipartite well-formedness: every node is tagged `bipartite` 0 or 1 and
every edge joins a 0-node to a 1-node. -/
def WFBip (g : PGraph) : Prop :=
  (∀ p ∈ g.nodes, p.2.bipartite = some 0 ∨ p.2.bipartite = some 1)
    ∧ ∀ e ∈ g.edges, edgeOk g e = true

/-- The key `k` is either not a node of `g` or a person node of it. -/
def freshOrPerson (g : PGraph) (k : String) : Prop :=
  (g.lookupN k).map NodeAttrs.bipartite = none
    ∨ (g.lookupN k).map NodeAttrs.bipartite = some (some 1)

/-- Attributes every person node is created with. -/
def personAttrs : NodeAttrs := { bipartite := some 1 }

/-- All identity keys GithubCrawler.py `import_repo` may pass to
`link_user` for this repository or (recursively) its fork parent. -/
def collectPersonKeysG : Repo → List String
  | .mk _ _ _ fork parent owner contribs commits =>
    (match owner with | some o => o.login.toList | none => [])
      ++ contribs.items.filterMap (fun p => pyOrS p.login p.email)
      ++ commits.items.filterMap (fun c => match c.author with
          | some a => pyOrS a.login a.email
          | none => none)
      ++ (match parent, fork with
          | some p, true => collectPersonKeysG p
          | _, _ => [])

/-- The repository keys `import_repo` may add for this repository or
(recursively) its fork parent. -/
def repoNames : Repo → List String
  | .mk fn _ _ fork parent _ _ _ =>
    fn.toList ++ (match parent, fork with
      | some p, true => repoNames p
      | _, _ => [])

/-! ## Helper list lemmas -/

theorem map_id_of {α : Type} (f : α → α) :
    ∀ (l : List α), (∀ a ∈ l, f a = a) → l.map f = l := by
  intro l
  induction l with
  | nil => intro _; rfl
  | cons x xs ih =>
    intro h
    simp only [List.map_cons, h x (List.mem_cons_self x xs),
      ih (fun a ha => h a (List.mem_cons_of_mem x ha))]

theorem filter_eq_self_of {α : Type} (p : α → Bool) :
    ∀ (l : List α), (∀ a ∈ l, p a = true) → l.filter p = l := by
  intro l
  induction l with
  | nil => intro _; rfl
  | cons x xs ih =>
    intro h
    simp only [List.filter_cons, h x (List.mem_cons_self x xs), if_true,
      ih (fun a ha => h a (List.mem_cons_of_mem x ha))]

theorem filter_eq_nil_of {α : Type} (p : α → Bool) :
    ∀ (l : List α), (∀ a ∈ l, p a = false) → l.filter p = [] := by
  intro l
  induction l with
  | nil => intro _; rfl
  | cons x xs ih =>
    intro h
    simp only [List.filter_cons, h x (List.mem_cons_self x xs),
      ih (fun a ha => h a (List.mem_cons_of_mem x ha))]
    simp

/-! ## Basic operation lemmas -/

theorem hasNode_iff (g : PGraph) (k : String) :
    g.hasNode k = true ↔ ∃ a, (k, a) ∈ g.nodes := by
  simp only [PGraph.hasNode, List.any_eq_true, decide_eq_true_eq]
  constructor
  · rintro ⟨⟨k', a⟩, hm, he⟩
    simp only at he
    subst he
    exact ⟨a, hm⟩
  · rintro ⟨a, hm⟩
    exact ⟨(k, a), hm, rfl⟩

theorem hasNode_of_mem {g : PGraph} {k : String} {a : NodeAttrs}
    (h : (k, a) ∈ g.nodes) : g.hasNode k = true :=
  (hasNode_iff g k).2 ⟨a, h⟩

theorem addNode_fresh_nodes {g : PGraph} {k : String} (a : NodeAttrs)
    (h : g.hasNode k = false) : (g.addNode k a).nodes = g.nodes ++ [(k, a)] := by
  simp [PGraph.addNode, h]

theorem addNode_edges (g : PGraph) (k : String) (a : NodeAttrs) :
    (g.addNode k a).edges = g.edges := by
  unfold PGraph.addNode
  split <;> rfl

theorem removeNode_nodes (g : PGraph) (k : String) :
    (g.removeNode k).nodes = g.nodes.filter (fun p => p.1 ≠ k) := rfl

theorem removeNode_edges (g : PGraph) (k : String) :
    (g.removeNode k).edges = g.edges.filter (fun e => ¬ incident k e) := rfl

theorem find?_append_some {α : Type} (p : α → Bool) {x : α} :
    ∀ (l1 : List α) (l2 : List α), l1.find? p = some x → (l1 ++ l2).find? p = some x := by
  intro l1 l2 h
  induction l1 with
  | nil => simp [List.find?] at h
  | cons y ys ih =>
    rw [List.cons_append]
    by_cases hy : p y = true
    · rw [List.find?_cons_of_pos _ hy] at h ⊢; exact h
    · rw [List.find?_cons_of_neg _ (by simpa using hy)] at h ⊢; exact ih h

theorem find?_append_none {α : Type} (p : α → Bool) :
    ∀ (l1 : List α) (l2 : List α), l1.find? p = none → (l1 ++ l2).find? p = l2.find? p := by
  intro l1 l2 h
  induction l1 with
  | nil => simp
  | cons y ys ih =>
    rw [List.cons_append]
    by_cases hy : p y = true
    · rw [List.find?_cons_of_pos _ hy] at h; exact absurd h (by simp)
    · rw [List.find?_cons_of_neg _ (by simpa using hy)] at h ⊢; exact ih h

theorem hasNode_append {g g' : PGraph} (added : List (String × NodeAttrs))
    (h : g'.nodes = g.nodes ++ added) (k : String) (hk : g.hasNode k = true) :
    g'.hasNode k = true := by
  obtain ⟨a, ha⟩ := (hasNode_iff g k).1 hk
  exact (hasNode_iff g' k).2 ⟨a, by rw [h]; exact List.mem_append_left _ ha⟩

theorem lookup_append {g g' : PGraph} (added : List (String × NodeAttrs))
    (h : g'.nodes = g.nodes ++ added) {k : String} {a : NodeAttrs}
    (ha : g.lookupN k = some a) : g'.lookupN k = some a := by
  unfold PGraph.lookupN at ha ⊢
  rw [h]
  obtain ⟨q, hq, hq2⟩ := Option.map_eq_some'.1 ha
  rw [find?_append_some _ _ _ hq]
  simpa using hq2

theorem lookupN_none_of_hasNode_false {g : PGraph} {k : String}
    (h : g.hasNode k = false) : g.lookupN k = none := by
  unfold PGraph.lookupN
  unfold PGraph.hasNode at h
  rw [List.find?_eq_none.2]
  · rfl
  · intro p hp
    intro hc
    have : g.nodes.any (fun p => p.1 = k) = true := List.any_eq_true.2 ⟨p, hp, hc⟩
    rw [h] at this; exact absurd this (by simp)

theorem hasNode_false_of_lookupN_none {g : PGraph} {k : String}
    (h : g.lookupN k = none) : g.hasNode k = false := by
  unfold PGraph.lookupN at h
  have hf : g.nodes.find? (fun p => p.1 = k) = none := by
    rcases ho : g.nodes.find? (fun p => p.1 = k) with _ | b
    · exact ho
    · rw [ho] at h; simp at h
  rw [List.find?_eq_none] at hf
  unfold PGraph.hasNode
  rw [List.any_eq_false]
  intro p hp
  simpa using hf p hp

theorem lookup_mem {g : PGraph} {k : String} {a : NodeAttrs}
    (h : g.lookupN k = some a) : (k, a) ∈ g.nodes := by
  unfold PGraph.lookupN at h
  obtain ⟨q, hq, hq2⟩ := Option.map_eq_some'.1 h
  have hmem := List.mem_of_find?_eq_some hq
  have hkey := List.find?_some hq
  simp only [decide_eq_true_eq] at hkey
  obtain ⟨k', a'⟩ := q
  simp only at hkey hq2
  subst hkey
  subst hq2
  exact hmem

theorem hasNode_addNode_self (g : PGraph) (k : String) (a : NodeAttrs) :
    (g.addNode k a).hasNode k = true := by
  unfold PGraph.addNode
  by_cases h : g.hasNode k = true
  · simp only [h, if_true]
    unfold PGraph.hasNode at h ⊢
    obtain ⟨p, hp, he⟩ := List.any_eq_true.1 h
    refine List.any_eq_true.2 ⟨(k, a), List.mem_map.2 ⟨p, hp, ?_⟩, by simp⟩
    simp only [decide_eq_true_eq] at he
    simp [he]
  · simp only [Bool.not_eq_true] at h
    simp only [h, Bool.false_eq_true, if_false]
    exact (hasNode_iff _ _).2 ⟨a, by simp⟩

theorem hasNode_addNode_mono {g : PGraph} {j : String} (k : String) (a : NodeAttrs)
    (h : g.hasNode j = true) : (g.addNode k a).hasNode j = true := by
  unfold PGraph.addNode
  by_cases hk : g.hasNode k = true
  · simp only [hk, if_true]
    unfold PGraph.hasNode at h ⊢
    obtain ⟨p, hp, he⟩ := List.any_eq_true.1 h
    by_cases hpk : p.1 = k
    · refine List.any_eq_true.2 ⟨(k, a), List.mem_map.2 ⟨p, hp, by simp [hpk]⟩, ?_⟩
      simp only [decide_eq_true_eq] at he
      simp [← he, hpk]
    · exact List.any_eq_true.2 ⟨p, List.mem_map.2 ⟨p, hp, by simp [hpk]⟩, he⟩
  · simp only [Bool.not_eq_true] at hk
    simp only [hk, Bool.false_eq_true, if_false]
    exact hasNode_append [(k, a)] rfl j h

theorem linkUserG_none (g : PGraph) (rid : String) (rel : Option String) :
    linkUserG g rid none rel = g := rfl

theorem linkG_eq_some (g : PGraph) (rid u : String) (rel : Option String)
    (hrid : g.hasNode rid = true) :
    linkUserG g rid (some u) rel =
      (let g1 := if g.hasNode u then g else g.addNode u personAttrs
       if g1.edges.any (sameEnds u rid) then
         { g1 with edges := g1.edges.map (fun e => if sameEnds u rid e then (e.1, e.2.1, rel) else e) }
       else { g1 with edges := g1.edges ++ [(u, rid, rel)] }) := by
  by_cases hu : g.hasNode u = true
  · simp only [linkUserG, PGraph.addEdge, personAttrs, hu, if_true, hrid]
  · simp only [Bool.not_eq_true] at hu
    simp only [linkUserG, PGraph.addEdge, personAttrs, hu, Bool.false_eq_true, if_false,
      hasNode_addNode_self, if_true, hasNode_addNode_mono _ _ hrid]

theorem linkG_nodes_shape (g : PGraph) (rid : String) (uid rel : Option String)
    (hrid : g.hasNode rid = true) :
    (linkUserG g rid uid rel).nodes = g.nodes ∨
      ∃ u, uid = some u ∧ g.hasNode u = false ∧ u ≠ rid ∧
        (linkUserG g rid uid rel).nodes = g.nodes ++ [(u, personAttrs)] := by
  rcases uid with _ | u
  · exact Or.inl rfl
  · rw [linkG_eq_some g rid u rel hrid]
    by_cases hu : g.hasNode u = true
    · simp only [hu, if_true]
      left
      by_cases hany : g.edges.any (sameEnds u rid) = true <;> simp [hany]
    · simp only [Bool.not_eq_true] at hu
      simp only [hu, Bool.false_eq_true, if_false]
      right
      refine ⟨u, rfl, hu, ?_, ?_⟩
      · intro he; rw [he] at hu; rw [hrid] at hu; exact absurd hu (by simp)
      · have hn := addNode_fresh_nodes (g := g) (k := u) personAttrs hu
        by_cases hany : (g.addNode u personAttrs).edges.any (sameEnds u rid) = true <;>
          simp [hany, hn]

theorem linkG_edges_shape (g : PGraph) (rid : String) (uid rel : Option String)
    (hrid : g.hasNode rid = true) :
    (linkUserG g rid uid rel).edges = g.edges ∨
      ∃ u, uid = some u ∧
        ((linkUserG g rid uid rel).edges
            = g.edges.map (fun e => if sameEnds u rid e then (e.1, e.2.1, rel) else e) ∨
          (linkUserG g rid uid rel).edges = g.edges ++ [(u, rid, rel)]) := by
  rcases uid with _ | u
  · exact Or.inl rfl
  · rw [linkG_eq_some g rid u rel hrid]
    right
    refine ⟨u, rfl, ?_⟩
    by_cases hu : g.hasNode u = true
    · simp only [hu, if_true]
      by_cases hany : g.edges.any (sameEnds u rid) = true <;> simp [hany]
    · simp only [Bool.not_eq_true] at hu
      simp only [hu, Bool.false_eq_true, if_false]
      have he := addNode_edges g u personAttrs
      by_cases hany : g.edges.any (sameEnds u rid) = true
      · left; simp [he, hany]
      · right; simp [he, hany]

theorem sameEnds_incident {u v : String} {e : String × String × Option String}
    (h : sameEnds u v e = true) : incident v e = true := by
  simp only [sameEnds, Bool.or_eq_true, Bool.and_eq_true, decide_eq_true_eq] at h
  simp only [incident, Bool.or_eq_true, decide_eq_true_eq]
  rcases h with ⟨_, h2⟩ | ⟨h1, _⟩
  · exact Or.inr h2
  · exact Or.inl h1

theorem lookup_append_fresh {g g' : PGraph} {k : String} {a : NodeAttrs}
    (hk : g.hasNode k = false) (h : g'.nodes = g.nodes ++ [(k, a)]) :
    g'.lookupN k = some a := by
  unfold PGraph.lookupN
  rw [h]
  have hn : g.nodes.find? (fun p => p.1 = k) = none := by
    rcases ho : g.nodes.find? (fun p => p.1 = k) with _ | b
    · exact ho
    · have hmem := List.mem_of_find?_eq_some ho
      have hkey := List.find?_some ho
      simp only [decide_eq_true_eq] at hkey
      have := hasNode_of_mem (g := g) (k := k) (a := b.2) (by
        have : b = (k, b.2) := by
          obtain ⟨b1, b2⟩ := b
          simp only at hkey
          simp [hkey]
        rw [← this]; exact hmem)
      rw [hk] at this; exact absurd this (by simp)
  rw [find?_append_none _ _ _ hn]
  simp [List.find?]

theorem lookup_append_cases {g g' : PGraph} {k u : String} {pa a : NodeAttrs}
    (h : g'.nodes = g.nodes ++ [(u, pa)]) (ha : g'.lookupN k = some a) :
    g.lookupN k = some a ∨ (k = u ∧ a = pa) := by
  unfold PGraph.lookupN at ha ⊢
  rw [h] at ha
  rcases ho : g.nodes.find? (fun p => p.1 = k) with _ | b
  · rw [find?_append_none _ _ _ ho] at ha
    right
    by_cases hk : u = k
    · subst hk
      simp [List.find?] at ha
      exact ⟨rfl, ha.symm⟩
    · simp [List.find?, hk] at ha
  · rw [find?_append_some _ _ _ ho] at ha
    left
    rw [ho]
    exact ha

theorem linkG_hasNode_uid (g : PGraph) (rid u : String) (rel : Option String)
    (hrid : g.hasNode rid = true) :
    (linkUserG g rid (some u) rel).hasNode u = true := by
  rw [linkG_eq_some g rid u rel hrid]
  by_cases hu : g.hasNode u = true
  · simp only [hu, if_true]
    by_cases hany : g.edges.any (sameEnds u rid) = true <;> simp [hany, PGraph.hasNode] at hu ⊢ <;>
      exact hu
  · simp only [Bool.not_eq_true] at hu
    simp only [hu, Bool.false_eq_true, if_false]
    have hself := hasNode_addNode_self g u personAttrs
    have he := addNode_edges g u personAttrs
    by_cases hany : g.edges.any (sameEnds u rid) = true <;>
      simp [he, hany, PGraph.hasNode] at hself ⊢ <;> exact hself

theorem linkG_nodes_pres (g : PGraph) (rid : String) (uid rel : Option String)
    (hrid : g.hasNode rid = true) {p : String × NodeAttrs} (hp : p ∈ g.nodes) :
    p ∈ (linkUserG g rid uid rel).nodes := by
  rcases linkG_nodes_shape g rid uid rel hrid with h | ⟨u, _, _, _, h⟩
  · rw [h]; exact hp
  · rw [h]; exact List.mem_append_left _ hp

theorem linkG_hasNode_mono (g : PGraph) (rid : String) (uid rel : Option String)
    (hrid : g.hasNode rid = true) {k : String} (hk : g.hasNode k = true) :
    (linkUserG g rid uid rel).hasNode k = true := by
  obtain ⟨a, ha⟩ := (hasNode_iff g k).1 hk
  exact (hasNode_iff _ k).2 ⟨a, linkG_nodes_pres g rid uid rel hrid ha⟩

theorem linkG_lookup_pres (g : PGraph) (rid : String) (uid rel : Option String)
    (hrid : g.hasNode rid = true) {k : String} {a : NodeAttrs}
    (hk : g.lookupN k = some a) : (linkUserG g rid uid rel).lookupN k = some a := by
  rcases linkG_nodes_shape g rid uid rel hrid with h | ⟨u, _, _, _, h⟩
  · unfold PGraph.lookupN at hk ⊢; rw [h]; exact hk
  · exact lookup_append _ h hk

theorem linkG_edges_pres (g : PGraph) (rid : String) (uid rel : Option String)
    (hrid : g.hasNode rid = true) {e : String × String × Option String}
    (he : e ∈ g.edges) (hni : incident rid e = false) :
    e ∈ (linkUserG g rid uid rel).edges := by
  rcases linkG_edges_shape g rid uid rel hrid with h | ⟨u, _, h | h⟩
  · rw [h]; exact he
  · rw [h]
    refine List.mem_map.2 ⟨e, he, ?_⟩
    have hse : sameEnds u rid e = false := by
      rcases hs : sameEnds u rid e with _ | _
      · rfl
      · rw [sameEnds_incident hs] at hni; exact absurd hni (by simp)
    simp [hse]
  · rw [h]; exact List.mem_append_left _ he

theorem linkG_edges_new (g : PGraph) (rid : String) (uid rel : Option String)
    (hrid : g.hasNode rid = true) {e : String × String × Option String}
    (he : e ∈ (linkUserG g rid uid rel).edges) :
    e ∈ g.edges ∨ (incident rid e = true ∧ e.2.2 = rel) := by
  rcases linkG_edges_shape g rid uid rel hrid with h | ⟨u, _, h | h⟩
  · rw [h] at he; exact Or.inl he
  · rw [h] at he
    obtain ⟨e0, he0, hmap⟩ := List.mem_map.1 he
    by_cases hs : sameEnds u rid e0 = true
    · right
      rw [if_pos hs] at hmap
      have hinc : incident rid e0 = true := sameEnds_incident hs
      constructor
      · rw [← hmap]
        simpa [incident] using hinc
      · rw [← hmap]
    · rw [if_neg hs] at hmap
      rw [← hmap]; exact Or.inl he0
  · rw [h] at he
    rcases List.mem_append.1 he with h1 | h1
    · exact Or.inl h1
    · right
      have : e = (u, rid, rel) := by simpa using h1
      rw [this]
      exact ⟨by simp [incident], rfl⟩

theorem linkG_closed (g : PGraph) (rid : String) (uid rel : Option String)
    (hrid : g.hasNode rid = true) (hc : Closed g) :
    Closed (linkUserG g rid uid rel) := by
  rcases uid with _ | u
  · exact hc
  · intro e he
    have huid := linkG_hasNode_uid g rid u rel hrid
    have hridm := linkG_hasNode_mono g rid (some u) rel hrid hrid
    rcases linkG_edges_shape g rid (some u) rel hrid with h | ⟨u', hu', h | h⟩
    · rw [h] at he
      obtain ⟨h1, h2⟩ := hc e he
      exact ⟨linkG_hasNode_mono g rid (some u) rel hrid h1,
        linkG_hasNode_mono g rid (some u) rel hrid h2⟩
    · rw [h] at he
      obtain ⟨e0, he0, hmap⟩ := List.mem_map.1 he
      obtain ⟨h1, h2⟩ := hc e0 he0
      have hends : e.1 = e0.1 ∧ e.2.1 = e0.2.1 := by
        by_cases hs : sameEnds u' rid e0 = true
        · rw [if_pos hs] at hmap; rw [← hmap]; exact ⟨rfl, rfl⟩
        · rw [if_neg hs] at hmap; rw [← hmap]; exact ⟨rfl, rfl⟩
      rw [hends.1, hends.2]
      exact ⟨linkG_hasNode_mono g rid (some u) rel hrid h1,
        linkG_hasNode_mono g rid (some u) rel hrid h2⟩
    · rw [h] at he
      rcases List.mem_append.1 he with h1 | h1
      · obtain ⟨ha, hb⟩ := hc e h1
        exact ⟨linkG_hasNode_mono g rid (some u) rel hrid ha,
          linkG_hasNode_mono g rid (some u) rel hrid hb⟩
      · have : e = (u', rid, rel) := by simpa using h1
        rw [this]
        have : u' = u := by injection hu' with hh; exact hh.symm
        rw [this]
        exact ⟨huid, hridm⟩

/-- A serialized sequence of `link_user` critical sections against the same
repository node `rid`, whose identity keys satisfy `U` and whose relations
satisfy `R`. Every enrichment body in the three crawlers produces such a
sequence. -/
inductive LinkSeq (rid : String) (U : String → Prop) (R : Option String → Prop) :
    PGraph → PGraph → Prop
  | refl (g : PGraph) : LinkSeq rid U R g g
  | step (g : PGraph) (uid rel : Option String) (g' : PGraph)
      (hU : ∀ u, uid = some u → U u) (hR : R rel)
      (htail : LinkSeq rid U R (linkUserG g rid uid rel) g') : LinkSeq rid U R g g'

theorem LinkSeq.trans {rid : String} {U : String → Prop} {R : Option String → Prop}
    {g1 g2 g3 : PGraph} (h12 : LinkSeq rid U R g1 g2) (h23 : LinkSeq rid U R g2 g3) :
    LinkSeq rid U R g1 g3 := by
  induction h12 with
  | refl g => exact h23
  | step g uid rel g' hU hR htail ih => exact LinkSeq.step g uid rel g3 hU hR (ih h23)

theorem LinkSeq.single {rid : String} {U : String → Prop} {R : Option String → Prop}
    {g : PGraph} (uid rel : Option String)
    (hU : ∀ u, uid = some u → U u) (hR : R rel) :
    LinkSeq rid U R g (linkUserG g rid uid rel) :=
  LinkSeq.step g uid rel _ hU hR (LinkSeq.refl _)

theorem LinkSeq.mono {rid : String} {U U' : String → Prop} {R R' : Option String → Prop}
    {g g' : PGraph} (hUU : ∀ u, U u → U' u) (hRR : ∀ r, R r → R' r)
    (h : LinkSeq rid U R g g') : LinkSeq rid U' R' g g' := by
  induction h with
  | refl g => exact LinkSeq.refl g
  | step g uid rel gz hU hR htail ih =>
    exact LinkSeq.step g uid rel gz (fun u hu => hUU u (hU u hu)) (hRR rel hR) ih

theorem seq_hasNode_mono {rid : String} {U : String → Prop} {R : Option String → Prop}
    {g g' : PGraph} (h : LinkSeq rid U R g g') (hrid : g.hasNode rid = true)
    {k : String} (hk : g.hasNode k = true) : g'.hasNode k = true := by
  induction h with
  | refl g => exact hk
  | step g uid rel gz hU hR htail ih =>
    exact ih (linkG_hasNode_mono g rid uid rel hrid hrid)
      (linkG_hasNode_mono g rid uid rel hrid hk)

theorem seq_nodes_pres {rid : String} {U : String → Prop} {R : Option String → Prop}
    {g g' : PGraph} (h : LinkSeq rid U R g g') (hrid : g.hasNode rid = true)
    {p : String × NodeAttrs} (hp : p ∈ g.nodes) : p ∈ g'.nodes := by
  induction h with
  | refl g => exact hp
  | step g uid rel gz hU hR htail ih =>
    exact ih (linkG_hasNode_mono g rid uid rel hrid hrid)
      (linkG_nodes_pres g rid uid rel hrid hp)

theorem seq_lookup_pres {rid : String} {U : String → Prop} {R : Option String → Prop}
    {g g' : PGraph} (h : LinkSeq rid U R g g') (hrid : g.hasNode rid = true)
    {k : String} {a : NodeAttrs} (hk : g.lookupN k = some a) : g'.lookupN k = some a := by
  induction h with
  | refl g => exact hk
  | step g uid rel gz hU hR htail ih =>
    exact ih (linkG_hasNode_mono g rid uid rel hrid hrid)
      (linkG_lookup_pres g rid uid rel hrid hk)

theorem seq_edges_pres {rid : String} {U : String → Prop} {R : Option String → Prop}
    {g g' : PGraph} (h : LinkSeq rid U R g g') (hrid : g.hasNode rid = true)
    {e : String × String × Option String} (he : e ∈ g.edges)
    (hni : incident rid e = false) : e ∈ g'.edges := by
  induction h with
  | refl g => exact he
  | step g uid rel gz hU hR htail ih =>
    exact ih (linkG_hasNode_mono g rid uid rel hrid hrid)
      (linkG_edges_pres g rid uid rel hrid he hni)

theorem seq_edges_new {rid : String} {U : String → Prop} {R : Option String → Prop}
    {g g' : PGraph} (h : LinkSeq rid U R g g') (hrid : g.hasNode rid = true)
    {e : String × String × Option String} (he : e ∈ g'.edges) :
    e ∈ g.edges ∨ (incident rid e = true ∧ R e.2.2) := by
  induction h with
  | refl g => exact Or.inl he
  | step g uid rel gz hU hR htail ih =>
    rcases ih (linkG_hasNode_mono g rid uid rel hrid hrid) he with h1 | h1
    · rcases linkG_edges_new g rid uid rel hrid h1 with h2 | h2
      · exact Or.inl h2
      · exact Or.inr ⟨h2.1, h2.2 ▸ hR⟩
    · exact Or.inr h1

theorem seq_closed {rid : String} {U : String → Prop} {R : Option String → Prop}
    {g g' : PGraph} (h : LinkSeq rid U R g g') (hrid : g.hasNode rid = true)
    (hc : Closed g) : Closed g' := by
  induction h with
  | refl g => exact hc
  | step g uid rel gz hU hR htail ih =>
    exact ih (linkG_hasNode_mono g rid uid rel hrid hrid)
      (linkG_closed g rid uid rel hrid hc)

theorem linkUserR_none (g : PGraph) (rid : String) (rel : Option String) :
    linkUserR g rid none rel = (g, some ApiErr.other) := rfl

theorem linkUserR_some (g : PGraph) (rid : String) (u : Person) (rel : Option String) :
    linkUserR g rid (some u) rel = (linkUserG g rid u.login rel, none) := by
  rcases hl : u.login with _ | uid
  · simp [linkUserR, linkUserG, hl]
  · simp [linkUserR, linkUserG, hl]

theorem linkUserL_eq_linkUserG (g : PGraph) (rid : String) (uid rel : Option String) :
    linkUserL g rid uid rel = linkUserG g rid uid rel := by
  rcases uid with _ | u <;> rfl

/-- The mid-enrichment graph states of the three crawlers are link
sequences; here for the generic fold used by the contributor loops. -/
theorem foldl_linkG_seq {α : Type} {i : String} {U : String → Prop}
    {R : Option String → Prop} (keyf : α → Option String) (rel : Option String)
    (hR : R rel) :
    ∀ (items : List α) (g : PGraph),
      (∀ x ∈ items, ∀ u, keyf x = some u → U u) →
      LinkSeq i U R g (items.foldl (fun gg x => linkUserG gg i (keyf x) rel) g) := by
  intro items
  induction items with
  | nil => intro g _; exact LinkSeq.refl g
  | cons x xs ih =>
    intro g hk
    simp only [List.foldl_cons]
    refine LinkSeq.step g (keyf x) rel _ (hk x (List.mem_cons_self x xs)) hR ?_
    exact ih _ (fun y hy => hk y (List.mem_cons_of_mem x hy))

theorem linkAllR_seq {i : String} {U : String → Prop} {R : Option String → Prop}
    (rel : Option String) (hR : R rel) :
    ∀ (us : List (Option Person)) (g : PGraph),
      (∀ x ∈ us, ∀ p, x = some p → ∀ u, p.login = some u → U u) →
      LinkSeq i U R g (linkAllR i rel g us).1 := by
  intro us
  induction us with
  | nil => intro g _; exact LinkSeq.refl g
  | cons x xs ih =>
    intro g hk
    rcases x with _ | p
    · rw [linkAllR]
      simp only [linkUserR_none]
      exact LinkSeq.refl g
    · rw [linkAllR]
      simp only [linkUserR_some]
      refine LinkSeq.step g p.login rel _
        (fun u hu => hk (some p) (List.mem_cons_self _ xs) p rfl u hu) hR ?_
      exact ih _ (fun y hy => hk y (List.mem_cons_of_mem _ hy))

theorem linkCommitsG_seq {i : String} {U : String → Prop} {R : Option String → Prop}
    (hR : R (some "committer")) :
    ∀ (cs : List Commit) (g : PGraph),
      (∀ c ∈ cs, ∀ a, c.author = some a → ∀ u, pyOrS a.login a.email = some u → U u) →
      LinkSeq i U R g (linkCommitsG i g cs).1 := by
  intro cs
  induction cs with
  | nil => intro g _; exact LinkSeq.refl g
  | cons c cs ih =>
    intro g hk
    rw [linkCommitsG]
    rcases hc : c.author with _ | a
    · exact LinkSeq.refl g
    · refine LinkSeq.step g (pyOrS a.login a.email) (some "committer") _
        (fun u hu => hk c (List.mem_cons_self _ cs) a hc u hu) hR ?_
      exact ih _ (fun y hy => hk y (List.mem_cons_of_mem _ hy))

theorem enrichR_seq {i : String} {U : String → Prop} {R : Option String → Prop}
    (g : PGraph) (since : Option Nat) (owner : Option Person)
    (contribs : FetchList Person) (commits : FetchList Commit)
    (hRo : R (some "owner")) (hRc : R (some "contributor")) (hRk : R (some "committer"))
    (hUo : ∀ p, owner = some p → ∀ u, p.login = some u → U u)
    (hUc : ∀ p ∈ contribs.items, ∀ u, p.login = some u → U u)
    (hUk : ∀ c ∈ commits.items, ∀ a, c.author = some a → ∀ u, a.login = some u → U u) :
    LinkSeq i U R g (enrichR g since i owner contribs commits).1 := by
  rcases since with _ | t
  · rcases owner with _ | o
    · unfold enrichR
      dsimp only
      have hseq := linkAllR_seq (i := i) (U := U) (R := R) (some "contributor") hRc
        (contribs.items.map some) g
        (by
          intro x hx p hxp u hu
          obtain ⟨q, hq, hq2⟩ := List.mem_map.1 hx
          rw [← hq2] at hxp
          injection hxp with he
          exact hUc q hq u (he ▸ hu))
      rcases hres : linkAllR i (some "contributor") g (contribs.items.map some) with ⟨g2, err⟩
      rw [hres] at hseq
      rcases err with _ | e <;> simpa using hseq
    · unfold enrichR
      dsimp only
      have h1 : LinkSeq i U R g (linkUserG g i o.login (some "owner")) :=
        LinkSeq.single _ _ (fun u hu => hUo o rfl u hu) hRo
      have hseq := linkAllR_seq (i := i) (U := U) (R := R) (some "contributor") hRc
        (contribs.items.map some) (linkUserG g i o.login (some "owner"))
        (by
          intro x hx p hxp u hu
          obtain ⟨q, hq, hq2⟩ := List.mem_map.1 hx
          rw [← hq2] at hxp
          injection hxp with he
          exact hUc q hq u (he ▸ hu))
      simp only [linkUserR_some]
      rcases hres : linkAllR i (some "contributor")
          (linkUserG g i o.login (some "owner")) (contribs.items.map some) with ⟨g2, err⟩
      rw [hres] at hseq
      rcases err with _ | e <;> simpa using LinkSeq.trans h1 hseq
  · unfold enrichR
    dsimp only
    have hseq := linkAllR_seq (i := i) (U := U) (R := R) (some "committer") hRk
      (commits.items.map (·.author)) g
      (by
        intro x hx p hxp u hu
        obtain ⟨c, hc, hc2⟩ := List.mem_map.1 hx
        exact hUk c hc p (hc2 ▸ hxp) u hu)
    rcases hres : linkAllR i (some "committer") g (commits.items.map (·.author)) with ⟨g2, err⟩
    rw [hres] at hseq
    rw [hres]
    rcases err with _ | e <;> simpa using hseq

theorem enrichG_seq {i : String} {U : String → Prop} {R : Option String → Prop}
    (g : PGraph) (since : Option Nat) (owner : Option Person)
    (contribs : FetchList Person) (commits : FetchList Commit)
    (hRo : R (some "owner")) (hRc : R (some "contributor")) (hRk : R (some "committer"))
    (hUo : ∀ p, owner = some p → ∀ u, p.login = some u → U u)
    (hUc : ∀ p ∈ contribs.items, ∀ u, pyOrS p.login p.email = some u → U u)
    (hUk : ∀ c ∈ commits.items, ∀ a, c.author = some a → ∀ u, pyOrS a.login a.email = some u → U u) :
    LinkSeq i U R g (enrichG g since i owner contribs commits).1 := by
  rcases since with _ | t
  · rcases owner with _ | o
    · unfold enrichG
      dsimp only
      exact foldl_linkG_seq (fun p => pyOrS p.login p.email) (some "contributor") hRc
        contribs.items g hUc
    · unfold enrichG
      dsimp only
      refine LinkSeq.trans
        (LinkSeq.single (g := g) o.login (some "owner") (fun u hu => hUo o rfl u hu) hRo) ?_
      exact foldl_linkG_seq (fun p => pyOrS p.login p.email) (some "contributor") hRc
        contribs.items _ hUc
  · unfold enrichG
    dsimp only
    have hseq := linkCommitsG_seq (i := i) (U := U) (R := R) hRk commits.items g hUk
    rcases hres : linkCommitsG i g commits.items with ⟨g2, err⟩
    rw [hres] at hseq
    rcases err with _ | e <;> simpa using hseq

theorem enrichL_seq {rid : String} {U : String → Prop} {R : Option String → Prop}
    (g : PGraph) (since : Option Nat) (nsPath : Option String)
    (contribs : FetchList (Option String)) (commits : FetchList Commit)
    (hRo : R (some "owner")) (hRc : R (some "contributor")) (hRk : R (some "committer"))
    (hUo : ∀ u, nsPath = some u → U u)
    (hUc : ∀ em ∈ contribs.items, ∀ u, em = some u → U u)
    (hUk : ∀ c ∈ commits.items, ∀ a, c.author = some a → ∀ u, pyOrS a.login a.email = some u → U u) :
    LinkSeq rid U R g (enrichL g since rid nsPath contribs commits).1 := by
  rcases since with _ | t
  · rcases nsPath with _ | ns
    · unfold enrichL
      dsimp only
      simp only [linkUserL_eq_linkUserG]
      exact foldl_linkG_seq (fun em => em) (some "contributor") hRc contribs.items g hUc
    · unfold enrichL
      dsimp only
      simp only [linkUserL_eq_linkUserG]
      refine LinkSeq.trans
        (LinkSeq.single (g := g) (some ns) (some "owner")
          (fun u hu => hUo u (by injection hu with h; rw [h])) hRo) ?_
      exact foldl_linkG_seq (fun em => em) (some "contributor") hRc contribs.items _ hUc
  · unfold enrichL
    dsimp only
    have hseq := linkCommitsG_seq (i := rid) (U := U) (R := R) hRk commits.items g hUk
    rcases hres : linkCommitsG rid g commits.items with ⟨g2, err⟩
    rw [hres] at hseq
    rcases err with _ | e <;> simpa using hseq

/-- Invariant describing the graph during one repository's enrichment,
relative to the state `g0` right after its node was inserted: the new
nodes are person nodes distinct from the repository, and the new edges are
all incident to the repository. -/
def EnrichInv (g0 : PGraph) (rid : String) (g : PGraph) : Prop :=
  g.hasNode rid = true ∧
    (∃ added, g.nodes = g0.nodes ++ added ∧ ∀ q ∈ added, q.2 = personAttrs ∧ q.1 ≠ rid) ∧
    (∃ ext, g.edges = g0.edges ++ ext ∧ ∀ e ∈ ext, incident rid e = true)

theorem inv_step {g0 g : PGraph} {rid : String} (uid rel : Option String)
    (hE : ∀ e ∈ g0.edges, incident rid e = false)
    (h : EnrichInv g0 rid g) : EnrichInv g0 rid (linkUserG g rid uid rel) := by
  obtain ⟨hrid, ⟨added, hn, hadd⟩, ⟨ext, he, hext⟩⟩ := h
  refine ⟨linkG_hasNode_mono g rid uid rel hrid hrid, ?_, ?_⟩
  · rcases linkG_nodes_shape g rid uid rel hrid with hs | ⟨u, _, hufresh, hne, hs⟩
    · exact ⟨added, by rw [hs, hn], hadd⟩
    · refine ⟨added ++ [(u, personAttrs)], by rw [hs, hn, List.append_assoc], ?_⟩
      intro q hq
      rcases List.mem_append.1 hq with h1 | h1
      · exact hadd q h1
      · have : q = (u, personAttrs) := by simpa using h1
        rw [this]
        exact ⟨rfl, hne⟩
  · rcases linkG_edges_shape g rid uid rel hrid with hs | ⟨u, _, hs | hs⟩
    · exact ⟨ext, by rw [hs, he], hext⟩
    · refine ⟨ext.map (fun e => if sameEnds u rid e then (e.1, e.2.1, rel) else e), ?_, ?_⟩
      · rw [hs, he, List.map_append]
        congr 1
        apply map_id_of
        intro e hee
        have : sameEnds u rid e = false := by
          rcases hc : sameEnds u rid e with _ | _
          · rfl
          · have := sameEnds_incident hc
            rw [hE e hee] at this
            exact absurd this (by simp)
        simp [this]
      · intro e' he'
        obtain ⟨e, hee, hmap⟩ := List.mem_map.1 he'
        by_cases hc : sameEnds u rid e = true
        · rw [if_pos hc] at hmap
          rw [← hmap]
          simpa [incident] using hext e hee
        · rw [if_neg hc] at hmap
          rw [← hmap]
          exact hext e hee
    · refine ⟨ext ++ [(u, rid, rel)], by rw [hs, he, List.append_assoc], ?_⟩
      intro e' he'
      rcases List.mem_append.1 he' with h1 | h1
      · exact hext e' h1
      · have : e' = (u, rid, rel) := by simpa using h1
        rw [this]
        simp [incident]

theorem seq_inv {q : PGraph} {rid : String} {U : String → Prop} {R : Option String → Prop}
    {g g' : PGraph} (hseq : LinkSeq rid U R g g')
    (hE : ∀ e ∈ q.edges, incident rid e = false)
    (h : EnrichInv q rid g) : EnrichInv q rid g' := by
  induction hseq with
  | refl g => exact h
  | step g uid rel gz hU hR htail ih => exact ih (inv_step uid rel hE h)

theorem not_incident_of_closed {g : PGraph} {rid : String}
    (hc : Closed g) (hfresh : g.hasNode rid = false) :
    ∀ e ∈ g.edges, incident rid e = false := by
  intro e he
  rcases hi : incident rid e with _ | _
  · rfl
  · obtain ⟨h1, h2⟩ := hc e he
    simp only [incident, Bool.or_eq_true, decide_eq_true_eq] at hi
    rcases hi with hi | hi
    · rw [hi] at h1; rw [h1] at hfresh; exact absurd hfresh (by simp)
    · rw [hi] at h2; rw [h2] at hfresh; exact absurd hfresh (by simp)

theorem importRepoR_skip (since : Option Nat) (g : PGraph) (rid : String)
    (lang : Option String) (w : Option Int) (fork : Bool) (parent : Option Repo)
    (owner : Option Person) (contribs : FetchList Person) (commits : FetchList Commit)
    (hmem : g.hasNode rid = true) :
    importRepoR since g (.mk (some rid) lang w fork parent owner contribs commits)
      = (g, Except.ok none) := by
  unfold importRepoR
  simp [hmem]

theorem importRepoG_skip (since : Option Nat) (g : PGraph) (rid : String)
    (lang : Option String) (w : Option Int) (fork : Bool) (parent : Option Repo)
    (owner : Option Person) (contribs : FetchList Person) (commits : FetchList Commit)
    (hmem : g.hasNode rid = true) :
    importRepoG since g (.mk (some rid) lang w fork parent owner contribs commits)
      = (g, Except.ok ()) := by
  unfold importRepoG
  simp [hmem]

theorem importRepoL_skip (since : Option Nat) (g : PGraph) (r : LRepo) (rid : String)
    (hfn : r.path_with_namespace = some rid) (hmem : g.hasNode rid = true) :
    importRepoL since g r = (g, Except.ok ()) := by
  unfold importRepoL
  rw [hfn]
  simp [hmem]

theorem importRepoR_fresh (since : Option Nat) (g : PGraph) (rid : String)
    (lang : Option String) (w : Option Int) (parent : Option Repo)
    (owner : Option Person) (contribs : FetchList Person) (commits : FetchList Commit)
    (hfresh : g.hasNode rid = false) :
    importRepoR since g (.mk (some rid) lang w false parent owner contribs commits)
      = finishR since rid owner contribs commits
          (g.addNode rid
            { bipartite := some 0, language := some (langOr lang), weight := some (intOr w) })
      := by
  unfold importRepoR
  rcases parent with _ | p <;> simp [hfresh]

theorem importRepoG_fresh (since : Option Nat) (g : PGraph) (rid : String)
    (lang : Option String) (w : Option Int) (parent : Option Repo)
    (owner : Option Person) (contribs : FetchList Person) (commits : FetchList Commit)
    (hfresh : g.hasNode rid = false) :
    importRepoG since g (.mk (some rid) lang w false parent owner contribs commits)
      = finishG since rid owner contribs commits
          (g.addNode rid
            { bipartite := some 0, language := some (langOr lang), weight := some (intOr w) })
      := by
  unfold importRepoG
  rcases parent with _ | p <;> simp [hfresh]

theorem importRepoL_fresh (since : Option Nat) (g : PGraph) (r : LRepo) (rid : String)
    (hfn : r.path_with_namespace = some rid) (hfresh : g.hasNode rid = false)
    (hl : r.languages_err = none) :
    importRepoL since g r =
      (match enrichL
          (g.addNode rid
            { bipartite := some 0, language := some (topLanguage r.languages), weight := some (intOr r.star_count) })
          since rid r.namespacePath r.contributors r.commits with
        | (g2, none) => (g2, Except.ok ())
        | (g2, some (ApiErr.gitlab c)) =>
          let g3 := g2.removeNode rid
          if c = 429 then (g3, Except.error (ApiErr.gitlab c)) else (g3, Except.ok ())
        | (g2, some e) => (g2, Except.error e)) := by
  unfold importRepoL
  rw [hfn, hl]
  simp [hfresh]

/-- The `repo.languages()` HTTP call of GitlabCrawler.py `import_repo` runs
before `add_node` and outside the `try:`: a `GitlabGetError` raised there —
whatever its response code — leaves the graph untouched (nothing to roll
back) and propagates out of the task. -/
theorem importRepoL_langerr (since : Option Nat) (g : PGraph) (r : LRepo) (rid : String)
    (c : Nat) (hfn : r.path_with_namespace = some rid) (hfresh : g.hasNode rid = false)
    (hl : r.languages_err = some c) :
    importRepoL since g r = (g, Except.error (ApiErr.gitlab c)) := by
  unfold importRepoL
  rw [hfn, hl]
  simp [hfresh]

/-- Base of the enrichment invariant: right after the repository node was
inserted nothing else has changed yet. -/
theorem enrichInv_base {g : PGraph} {rid : String} (a : NodeAttrs) :
    EnrichInv (g.addNode rid a) rid (g.addNode rid a) :=
  ⟨hasNode_addNode_self g rid a, ⟨[], by simp, by simp⟩, ⟨[], by simp, by simp⟩⟩

theorem enrichR_inv {g : PGraph} {rid : String} (since : Option Nat) (a : NodeAttrs)
    (owner : Option Person) (contribs : FetchList Person) (commits : FetchList Commit)
    (hE : ∀ e ∈ g.edges, incident rid e = false) :
    EnrichInv (g.addNode rid a) rid
      (enrichR (g.addNode rid a) since rid owner contribs commits).1 := by
  refine seq_inv (q := g.addNode rid a)
    (enrichR_seq (U := fun _ => True) (R := fun _ => True) _ since owner contribs commits
      trivial trivial trivial (fun _ _ _ _ => trivial) (fun _ _ _ _ => trivial)
      (fun _ _ _ _ _ _ => trivial)) ?_ (enrichInv_base a)
  intro e he
  rw [addNode_edges] at he
  exact hE e he

theorem enrichG_inv {g : PGraph} {rid : String} (since : Option Nat) (a : NodeAttrs)
    (owner : Option Person) (contribs : FetchList Person) (commits : FetchList Commit)
    (hE : ∀ e ∈ g.edges, incident rid e = false) :
    EnrichInv (g.addNode rid a) rid
      (enrichG (g.addNode rid a) since rid owner contribs commits).1 := by
  refine seq_inv (q := g.addNode rid a)
    (enrichG_seq (U := fun _ => True) (R := fun _ => True) _ since owner contribs commits
      trivial trivial trivial (fun _ _ _ _ => trivial) (fun _ _ _ _ => trivial)
      (fun _ _ _ _ _ _ => trivial)) ?_ (enrichInv_base a)
  intro e he
  rw [addNode_edges] at he
  exact hE e he

theorem enrichL_inv {g : PGraph} {rid : String} (since : Option Nat) (a : NodeAttrs)
    (nsPath : Option String) (contribs : FetchList (Option String))
    (commits : FetchList Commit)
    (hE : ∀ e ∈ g.edges, incident rid e = false) :
    EnrichInv (g.addNode rid a) rid
      (enrichL (g.addNode rid a) since rid nsPath contribs commits).1 := by
  refine seq_inv (q := g.addNode rid a)
    (enrichL_seq (U := fun _ => True) (R := fun _ => True) _ since nsPath contribs commits
      trivial trivial trivial (fun _ _ => trivial) (fun _ _ _ _ => trivial)
      (fun _ _ _ _ _ _ => trivial)) ?_ (enrichInv_base a)
  intro e he
  rw [addNode_edges] at he
  exact hE e he

theorem removeNode_hasNode_self (g : PGraph) (k : String) :
    (g.removeNode k).hasNode k = false := by
  unfold PGraph.removeNode PGraph.hasNode
  rcases ha : ((g.nodes.filter (fun p => p.1 ≠ k)).any (fun p => p.1 = k)) with _ | _
  · exact ha
  · obtain ⟨p, hp, he⟩ := List.any_eq_true.1 ha
    have := (List.mem_filter.1 hp).2
    simp only [decide_eq_true_eq] at he
    simp only [he] at this
    simp at this

theorem removeNode_not_incident (g : PGraph) (k : String) :
    ∀ e ∈ (g.removeNode k).edges, incident k e = false := by
  intro e he
  rw [removeNode_edges] at he
  have := (List.mem_filter.1 he).2
  rcases hi : incident k e with _ | _
  · rfl
  · simp [hi] at this

theorem removeNode_nodes_pres {g : PGraph} {k : String} {p : String × NodeAttrs}
    (hp : p ∈ g.nodes) (hne : p.1 ≠ k) : p ∈ (g.removeNode k).nodes := by
  rw [removeNode_nodes]
  exact List.mem_filter.2 ⟨hp, by simpa using hne⟩

theorem removeNode_edges_pres {g : PGraph} {k : String} {e : String × String × Option String}
    (he : e ∈ g.edges) (hni : incident k e = false) : e ∈ (g.removeNode k).edges := by
  rw [removeNode_edges]
  exact List.mem_filter.2 ⟨he, by simp [hni]⟩

/-- The rollback `g.remove_node(repo_id)` at the end of a failed enrichment
undoes exactly the repository node and its edges: what is left is the
original graph plus the person nodes created meanwhile. -/
theorem rollback_shape {g : PGraph} {rid : String} {a : NodeAttrs} {gmid : PGraph}
    (hfresh : g.hasNode rid = false)
    (hE : ∀ e ∈ g.edges, incident rid e = false)
    (hinv : EnrichInv (g.addNode rid a) rid gmid) :
    ∃ added, (gmid.removeNode rid).nodes = g.nodes ++ added ∧
      (∀ q ∈ added, q.2 = personAttrs) ∧
      (gmid.removeNode rid).edges = g.edges := by
  obtain ⟨hrid, ⟨added, hn, hadd⟩, ⟨ext, he, hext⟩⟩ := hinv
  rw [addNode_fresh_nodes a hfresh] at hn
  rw [addNode_edges] at he
  refine ⟨added, ?_, fun q hq => (hadd q hq).1, ?_⟩
  · rw [removeNode_nodes, hn, List.append_assoc, List.filter_append, List.filter_append]
    have h1 : g.nodes.filter (fun p => p.1 ≠ rid) = g.nodes := by
      apply filter_eq_self_of
      intro p hp
      have : p.1 ≠ rid := by
        intro hc
        have := hasNode_of_mem (g := g) (k := rid) (a := p.2) (by
          have : p = (rid, p.2) := by
            obtain ⟨p1, p2⟩ := p
            simp only at hc
            simp [hc]
          rw [← this]
          exact hp)
        rw [hfresh] at this
        exact absurd this (by simp)
      simpa using this
    have h2 : ([((rid : String), a)].filter (fun p => p.1 ≠ rid)) = [] := by simp
    have h3 : added.filter (fun p => p.1 ≠ rid) = added := by
      apply filter_eq_self_of
      intro q hq
      simpa using (hadd q hq).2
    rw [h1, h2, h3]
    simp
  · rw [removeNode_edges, he, List.filter_append]
    have h1 : g.edges.filter (fun e => ¬ incident rid e) = g.edges := by
      apply filter_eq_self_of
      intro e hee
      simp [hE e hee]
    have h2 : ext.filter (fun e => ¬ incident rid e) = [] := by
      apply filter_eq_nil_of
      intro e hee
      simp [hext e hee]
    rw [h1, h2]
    simp

theorem finishR_cases (since : Option Nat) (rid : String) (owner : Option Person)
    (contribs : FetchList Person) (commits : FetchList Commit) (gA : PGraph) :
    (∃ gmid, enrichR gA since rid owner contribs commits = (gmid, none) ∧
      finishR since rid owner contribs commits gA = (gmid, Except.ok (some rid))) ∨
    (∃ gmid e, enrichR gA since rid owner contribs commits = (gmid, some e) ∧
      finishR since rid owner contribs commits gA = (gmid.removeNode rid, Except.error e)) := by
  unfold finishR
  rcases henr : enrichR gA since rid owner contribs commits with ⟨gmid, err⟩
  rcases err with _ | e
  · exact Or.inl ⟨gmid, rfl, rfl⟩
  · exact Or.inr ⟨gmid, e, rfl, rfl⟩

theorem finishG_cases (since : Option Nat) (rid : String) (owner : Option Person)
    (contribs : FetchList Person) (commits : FetchList Commit) (gA : PGraph) :
    (∃ gmid, enrichG gA since rid owner contribs commits = (gmid, none) ∧
      finishG since rid owner contribs commits gA = (gmid, Except.ok ())) ∨
    (∃ gmid, enrichG gA since rid owner contribs commits = (gmid, some ApiErr.rateLimit) ∧
      finishG since rid owner contribs commits gA
        = (gmid.removeNode rid, Except.error ApiErr.rateLimit)) ∨
    (∃ gmid, enrichG gA since rid owner contribs commits = (gmid, some ApiErr.github) ∧
      finishG since rid owner contribs commits gA = (gmid.removeNode rid, Except.ok ())) ∨
    (∃ gmid e, enrichG gA since rid owner contribs commits = (gmid, some e) ∧
      e ≠ ApiErr.rateLimit ∧ e ≠ ApiErr.github ∧
      finishG since rid owner contribs commits gA = (gmid, Except.error e)) := by
  unfold finishG
  rcases henr : enrichG gA since rid owner contribs commits with ⟨gmid, err⟩
  rcases err with _ | e
  · exact Or.inl ⟨gmid, rfl, rfl⟩
  · rcases e with _ | _ | _ | c | _
    · exact Or.inr (Or.inl ⟨gmid, rfl, rfl⟩)
    · exact Or.inr (Or.inr (Or.inl ⟨gmid, rfl, rfl⟩))
    · exact Or.inr (Or.inr (Or.inr ⟨gmid, ApiErr.http, rfl, by simp, by simp, rfl⟩))
    · exact Or.inr (Or.inr (Or.inr ⟨gmid, ApiErr.gitlab c, rfl, by simp, by simp, rfl⟩))
    · exact Or.inr (Or.inr (Or.inr ⟨gmid, ApiErr.other, rfl, by simp, by simp, rfl⟩))

/-- With `since` unset the GithubCrawler.py enrichment body can only raise
out of the contributors fetch, so the raised error is `contribs.err`. -/
theorem enrichG_none_err (g : PGraph) (rid : String) (owner : Option Person)
    (contribs : FetchList Person) (commits : FetchList Commit) :
    (enrichG g none rid owner contribs commits).2 = contribs.err := by
  unfold enrichG
  rcases owner with _ | o <;> dsimp only

/-- With `since` unset the repos.py enrichment body can only raise out of
the contributors fetch (contributor objects are never `None`). -/
theorem enrichR_none_err (g : PGraph) (rid : String) (owner : Option Person)
    (contribs : FetchList Person) (commits : FetchList Commit) :
    (enrichR g none rid owner contribs commits).2 = contribs.err := by
  unfold enrichR
  have hall : ∀ (us : List Person) (gg : PGraph),
      ∃ gz, linkAllR rid (some "contributor") gg (us.map some) = (gz, none) := by
    intro us
    induction us with
    | nil => intro gg; exact ⟨gg, rfl⟩
    | cons p ps ih =>
      intro gg
      rw [List.map_cons, linkAllR, linkUserR_some]
      exact ih _
  rcases owner with _ | o <;> dsimp only <;>
    · obtain ⟨gz, hz⟩ := hall contribs.items _
      rw [hz]

/-! ## Claim C3 -/

/-- C3: idempotent dedup — when the repository's key is already a node of
the graph, `import_repo` (both in repos.py and in GithubCrawler.py) returns
its skip sentinel and leaves the graph exactly unchanged, so feeding the
same repository twice never produces a duplicate node or edge; the
membership check and the early return are one serialized critical section. -/
theorem C3_dedup_noop (since : Option Nat) (g : PGraph) (rid : String)
    (lang : Option String) (w : Option Int) (fork : Bool) (parent : Option Repo)
    (owner : Option Person) (contribs : FetchList Person) (commits : FetchList Commit)
    (hmem : g.hasNode rid = true) :
    importRepoR since g (.mk (some rid) lang w fork parent owner contribs commits)
        = (g, Except.ok none)
      ∧ importRepoG since g (.mk (some rid) lang w fork parent owner contribs commits)
        = (g, Except.ok ()) :=
  ⟨importRepoR_skip since g rid lang w fork parent owner contribs commits hmem,
   importRepoG_skip since g rid lang w fork parent owner contribs commits hmem⟩

/-- Witness for C3 at a concrete graph already holding `a/x`. -/
theorem C3_dedup_noop_witness :
    importRepoR none
        { nodes := [("a/x", { bipartite := some 0, language := some "?", weight := some 0 })] }
        (.mk (some "a/x") none none false none none {} {})
      = ({ nodes := [("a/x", { bipartite := some 0, language := some "?", weight := some 0 })] },
          Except.ok none)
    ∧ importRepoG none
        { nodes := [("a/x", { bipartite := some 0, language := some "?", weight := some 0 })] }
        (.mk (some "a/x") none none false none none {} {})
      = ({ nodes := [("a/x", { bipartite := some 0, language := some "?", weight := some 0 })] },
          Except.ok ()) :=
  C3_dedup_noop none _ "a/x" none none false none none {} {} (by decide)

/-! ## Claim C1 -/

/-- C1 counterexample: in GithubCrawler.py, with `since` set, a commit whose
author is `None` raises an `AttributeError` that only the bare
`except Exception: raise` arm catches — the error propagates but the
repository node `o/r` is left in the graph, so a failing enrichment does
not always remove the node. -/
theorem C1_counterexample :
    (importRepoG (some 0) {}
        (.mk (some "o/r") none none false none none {}
          { items := [{ author := none }], err := none })).2 = Except.error ApiErr.other
    ∧ (importRepoG (some 0) {}
        (.mk (some "o/r") none none false none none {}
          { items := [{ author := none }], err := none })).1.hasNode "o/r" = true := by
  constructor <;> rfl

/-- C1 amended: rollback removes the node and every incident edge whenever
the handler that removes the node runs — in repos.py for every enrichment
exception, in GithubCrawler.py for `RateLimitExceededException` (re-raised)
and `GithubException` (swallowed); any other exception in GithubCrawler.py
propagates while the half-populated node stays in the graph. -/
theorem C1_rollback_amended :
    (∀ (since : Option Nat) (g : PGraph) (rid : String) (lang : Option String)
      (w : Option Int) (parent : Option Repo) (owner : Option Person)
      (contribs : FetchList Person) (commits : FetchList Commit) (g' : PGraph) (e : ApiErr),
      importRepoR since g (.mk (some rid) lang w false parent owner contribs commits)
          = (g', Except.error e) →
      g'.hasNode rid = false ∧ ∀ e' ∈ g'.edges, incident rid e' = false)
    ∧ (∀ (since : Option Nat) (g : PGraph) (rid : String) (lang : Option String)
      (w : Option Int) (parent : Option Repo) (owner : Option Person)
      (contribs : FetchList Person) (commits : FetchList Commit) (g' : PGraph),
      importRepoG since g (.mk (some rid) lang w false parent owner contribs commits)
          = (g', Except.error ApiErr.rateLimit) →
      g'.hasNode rid = false ∧ ∀ e' ∈ g'.edges, incident rid e' = false)
    ∧ (∀ (g : PGraph) (rid : String) (lang : Option String) (w : Option Int)
      (parent : Option Repo) (owner : Option Person)
      (contribs : FetchList Person) (commits : FetchList Commit),
      g.hasNode rid = false → contribs.err = some ApiErr.github →
      (importRepoG none g (.mk (some rid) lang w false parent owner contribs commits)).2
          = Except.ok ()
        ∧ (importRepoG none g
            (.mk (some rid) lang w false parent owner contribs commits)).1.hasNode rid = false
        ∧ ∀ e' ∈ (importRepoG none g
            (.mk (some rid) lang w false parent owner contribs commits)).1.edges,
            incident rid e' = false) := by
  refine ⟨?_, ?_, ?_⟩
  · intro since g rid lang w parent owner contribs commits g' e himp
    by_cases hmem : g.hasNode rid = true
    · rw [importRepoR_skip since g rid lang w false parent owner contribs commits hmem] at himp
      exact absurd himp (by simp)
    · simp only [Bool.not_eq_true] at hmem
      rw [importRepoR_fresh since g rid lang w parent owner contribs commits hmem] at himp
      rcases finishR_cases since rid owner contribs commits
          (g.addNode rid
            { bipartite := some 0, language := some (langOr lang), weight := some (intOr w) })
          with ⟨gmid, _, hfin⟩ | ⟨gmid, e0, _, hfin⟩
      · rw [hfin] at himp
        exact absurd himp (by simp)
      · rw [hfin] at himp
        obtain ⟨hg, _⟩ := Prod.mk.injEq .. ▸ himp
        have hg' : g' = gmid.removeNode rid := by
          injection himp with h1 h2
          exact h1.symm
        rw [hg']
        exact ⟨removeNode_hasNode_self gmid rid, removeNode_not_incident gmid rid⟩
  · intro since g rid lang w parent owner contribs commits g' himp
    by_cases hmem : g.hasNode rid = true
    · rw [importRepoG_skip since g rid lang w false parent owner contribs commits hmem] at himp
      exact absurd himp (by simp)
    · simp only [Bool.not_eq_true] at hmem
      rw [importRepoG_fresh since g rid lang w parent owner contribs commits hmem] at himp
      rcases finishG_cases since rid owner contribs commits
          (g.addNode rid
            { bipartite := some 0, language := some (langOr lang), weight := some (intOr w) })
          with ⟨gmid, _, hfin⟩ | ⟨gmid, _, hfin⟩ |
          ⟨gmid, _, hfin⟩ | ⟨gmid, e0, _, hne1, _, hfin⟩
      · rw [hfin] at himp
        exact absurd himp (by simp)
      · rw [hfin] at himp
        have hg' : g' = gmid.removeNode rid := by
          injection himp with h1 h2
          exact h1.symm
        rw [hg']
        exact ⟨removeNode_hasNode_self gmid rid, removeNode_not_incident gmid rid⟩
      · rw [hfin] at himp
        exact absurd himp (by simp)
      · rw [hfin] at himp
        injection himp with h1 h2
        injection h2 with h3
        exact absurd h3 hne1
  · intro g rid lang w parent owner contribs commits hmem herr
    rw [importRepoG_fresh none g rid lang w parent owner contribs commits hmem]
    rcases finishG_cases none rid owner contribs commits
        (g.addNode rid
          { bipartite := some 0, language := some (langOr lang), weight := some (intOr w) })
        with ⟨gmid, henr, hfin⟩ | ⟨gmid, henr, hfin⟩ |
        ⟨gmid, henr, hfin⟩ | ⟨gmid, e0, henr, hne1, hne2, hfin⟩
    · have := enrichG_none_err
          (g.addNode rid
            { bipartite := some 0, language := some (langOr lang), weight := some (intOr w) })
          rid owner contribs commits
      rw [henr] at this
      rw [herr] at this
      exact absurd this (by simp)
    · have := enrichG_none_err
          (g.addNode rid
            { bipartite := some 0, language := some (langOr lang), weight := some (intOr w) })
          rid owner contribs commits
      rw [henr] at this
      rw [herr] at this
      simp at this
    · rw [hfin]
      exact ⟨rfl, removeNode_hasNode_self gmid rid, removeNode_not_incident gmid rid⟩
    · have := enrichG_none_err
          (g.addNode rid
            { bipartite := some 0, language := some (langOr lang), weight := some (intOr w) })
          rid owner contribs commits
      rw [henr] at this
      rw [herr] at this
      injection this with h3
      exact absurd h3 hne2

/-- A repository whose contributors fetch raises `RateLimitExceededException`
after the owner was linked. -/
def wRateR : Repo :=
  .mk (some "b/y") none none false none (some { login := some "ann" })
    { items := [], err := some ApiErr.rateLimit } {}

/-- A repository whose contributors fetch raises a scoped `GithubException`
after the owner was linked. -/
def wGithubR : Repo :=
  .mk (some "b/y") none none false none (some { login := some "ann" })
    { items := [], err := some ApiErr.github } {}

/-- Witness for C1 amended, at concrete failing repositories. -/
theorem C1_rollback_amended_witness :
    ((importRepoR none {} wRateR).1.hasNode "b/y" = false
      ∧ ∀ e' ∈ (importRepoR none {} wRateR).1.edges, incident "b/y" e' = false)
    ∧ ((importRepoG none {} wRateR).1.hasNode "b/y" = false
      ∧ ∀ e' ∈ (importRepoG none {} wRateR).1.edges, incident "b/y" e' = false)
    ∧ ((importRepoG none {} wGithubR).2 = Except.ok ()
      ∧ (importRepoG none {} wGithubR).1.hasNode "b/y" = false
      ∧ ∀ e' ∈ (importRepoG none {} wGithubR).1.edges, incident "b/y" e' = false) :=
  ⟨C1_rollback_amended.1 none {} "b/y" none none none (some { login := some "ann" })
      { items := [], err := some ApiErr.rateLimit } {} (importRepoR none {} wRateR).1
      ApiErr.rateLimit rfl,
   C1_rollback_amended.2.1 none {} "b/y" none none none (some { login := some "ann" })
      { items := [], err := some ApiErr.rateLimit } {} (importRepoG none {} wRateR).1 rfl,
   C1_rollback_amended.2.2 {} "b/y" none none none (some { login := some "ann" })
      { items := [], err := some ApiErr.github } {} rfl rfl⟩

/-! ## Claim C10 -/

/-- C10: a failed import's rollback removes only that repository's node and
its incident edges — every pre-existing node and edge survives with its
attributes, the edge set is exactly the one from before the import, and
every node the failed import leaves behind is a `bipartite=1` person node
(possibly isolated); shown for repos.py (any enrichment error) and for the
GithubCrawler.py `RateLimitExceededException` rollback. -/
theorem C10_rollback_only_repo :
    (∀ (since : Option Nat) (g : PGraph) (rid : String) (lang : Option String)
      (w : Option Int) (parent : Option Repo) (owner : Option Person)
      (contribs : FetchList Person) (commits : FetchList Commit) (g' : PGraph) (e : ApiErr),
      Closed g →
      importRepoR since g (.mk (some rid) lang w false parent owner contribs commits)
          = (g', Except.error e) →
      ∃ added, g'.nodes = g.nodes ++ added ∧ (∀ q ∈ added, q.2 = personAttrs)
        ∧ g'.edges = g.edges ∧ g'.hasNode rid = false)
    ∧ (∀ (since : Option Nat) (g : PGraph) (rid : String) (lang : Option String)
      (w : Option Int) (parent : Option Repo) (owner : Option Person)
      (contribs : FetchList Person) (commits : FetchList Commit) (g' : PGraph),
      Closed g →
      importRepoG since g (.mk (some rid) lang w false parent owner contribs commits)
          = (g', Except.error ApiErr.rateLimit) →
      ∃ added, g'.nodes = g.nodes ++ added ∧ (∀ q ∈ added, q.2 = personAttrs)
        ∧ g'.edges = g.edges ∧ g'.hasNode rid = false) := by
  constructor
  · intro since g rid lang w parent owner contribs commits g' e hc himp
    by_cases hmem : g.hasNode rid = true
    · rw [importRepoR_skip since g rid lang w false parent owner contribs commits hmem] at himp
      exact absurd himp (by simp)
    · simp only [Bool.not_eq_true] at hmem
      rw [importRepoR_fresh since g rid lang w parent owner contribs commits hmem] at himp
      rcases finishR_cases since rid owner contribs commits
          (g.addNode rid
            { bipartite := some 0, language := some (langOr lang), weight := some (intOr w) })
          with ⟨gmid, _, hfin⟩ | ⟨gmid, e0, henr, hfin⟩
      · rw [hfin] at himp
        exact absurd himp (by simp)
      · rw [hfin] at himp
        have hg' : g' = gmid.removeNode rid := by
          injection himp with h1 h2
          exact h1.symm
        have hinv := enrichR_inv since
          { bipartite := some 0, language := some (langOr lang), weight := some (intOr w) }
          owner contribs commits (not_incident_of_closed hc hmem)
        rw [henr] at hinv
        obtain ⟨added, hn, hp, he⟩ := rollback_shape hmem (not_incident_of_closed hc hmem) hinv
        rw [hg']
        exact ⟨added, hn, hp, he, removeNode_hasNode_self gmid rid⟩
  · intro since g rid lang w parent owner contribs commits g' hc himp
    by_cases hmem : g.hasNode rid = true
    · rw [importRepoG_skip since g rid lang w false parent owner contribs commits hmem] at himp
      exact absurd himp (by simp)
    · simp only [Bool.not_eq_true] at hmem
      rw [importRepoG_fresh since g rid lang w parent owner contribs commits hmem] at himp
      rcases finishG_cases since rid owner contribs commits
          (g.addNode rid
            { bipartite := some 0, language := some (langOr lang), weight := some (intOr w) })
          with ⟨gmid, _, hfin⟩ | ⟨gmid, henr, hfin⟩ | ⟨gmid, _, hfin⟩ |
            ⟨gmid, e0, _, hne1, _, hfin⟩
      · rw [hfin] at himp
        exact absurd himp (by simp)
      · rw [hfin] at himp
        have hg' : g' = gmid.removeNode rid := by
          injection himp with h1 h2
          exact h1.symm
        have hinv := enrichG_inv since
          { bipartite := some 0, language := some (langOr lang), weight := some (intOr w) }
          owner contribs commits (not_incident_of_closed hc hmem)
        rw [henr] at hinv
        obtain ⟨added, hn, hp, he⟩ := rollback_shape hmem (not_incident_of_closed hc hmem) hinv
        rw [hg']
        exact ⟨added, hn, hp, he, removeNode_hasNode_self gmid rid⟩
      · rw [hfin] at himp
        exact absurd himp (by simp)
      · rw [hfin] at himp
        injection himp with h1 h2
        injection h2 with h3
        exact absurd h3 hne1

/-- Witness for C10 at a concrete failing repository whose owner had
already been linked: the person node `ann` stays, isolated. -/
theorem C10_rollback_only_repo_witness :
    (∃ added, (importRepoR none {} wRateR).1.nodes = PGraph.nodes {} ++ added
      ∧ (∀ q ∈ added, q.2 = personAttrs)
      ∧ (importRepoR none {} wRateR).1.edges = PGraph.edges {}
      ∧ (importRepoR none {} wRateR).1.hasNode "b/y" = false)
    ∧ (∃ added, (importRepoG none {} wRateR).1.nodes = PGraph.nodes {} ++ added
      ∧ (∀ q ∈ added, q.2 = personAttrs)
      ∧ (importRepoG none {} wRateR).1.edges = PGraph.edges {}
      ∧ (importRepoG none {} wRateR).1.hasNode "b/y" = false) :=
  ⟨C10_rollback_only_repo.1 none {} "b/y" none none none (some { login := some "ann" })
      { items := [], err := some ApiErr.rateLimit } {} (importRepoR none {} wRateR).1
      ApiErr.rateLimit (by intro e he; simp at he) rfl,
   C10_rollback_only_repo.2 none {} "b/y" none none none (some { login := some "ann" })
      { items := [], err := some ApiErr.rateLimit } {} (importRepoG none {} wRateR).1
      (by intro e he; simp at he) rfl⟩

theorem enrichL_none_err (g : PGraph) (rid : String) (nsPath : Option String)
    (contribs : FetchList (Option String)) (commits : FetchList Commit) :
    (enrichL g none rid nsPath contribs commits).2 = contribs.err := by
  unfold enrichL
  rcases nsPath with _ | ns <;> dsimp only

theorem processPageG_cons_ok {since : Option Nat} {g g1 : PGraph} {r : Repo} {u : Unit}
    (rest : List Repo) (h : importRepoG since g r = (g1, Except.ok u)) :
    processPageG since g (r :: rest)
      = ((processPageG since g1 rest).1, (processPageG since g1 rest).2.1 + 1,
          (processPageG since g1 rest).2.2) := by
  rw [processPageG, h]

theorem processPageG_cons_err {since : Option Nat} {g g1 : PGraph} {r : Repo} {e : ApiErr}
    (rest : List Repo) (h : importRepoG since g r = (g1, Except.error e)) :
    processPageG since g (r :: rest) = (g1, 0, some e) := by
  rw [processPageG, h]

theorem processPageL_cons_ok {since : Option Nat} {g g1 : PGraph} {r : LRepo} {u : Unit}
    (rest : List LRepo) (h : importRepoL since g r = (g1, Except.ok u)) :
    processPageL since g (r :: rest)
      = ((processPageL since g1 rest).1, (processPageL since g1 rest).2.1 + 1,
          (processPageL since g1 rest).2.2) := by
  rw [processPageL, h]

theorem processPageL_cons_err {since : Option Nat} {g g1 : PGraph} {r : LRepo} {e : ApiErr}
    (rest : List LRepo) (h : importRepoL since g r = (g1, Except.error e)) :
    processPageL since g (r :: rest) = (g1, 0, some e) := by
  rw [processPageL, h]

/-! ## Claim C2 -/

/-- C2 (amended): error propagation taxonomy of a failing import task, for
errors raised inside the `try:` of `import_repo`. In GithubCrawler.py a
`RateLimitExceededException` is re-raised after rollback and aborts the
remainder of the page, while a scoped `GithubException` is swallowed after
rollback and the remaining sibling tasks of the page are still processed;
in GitlabCrawler.py a `GitlabGetError` raised inside the `try:` rolls back
and is re-raised (aborting the page) exactly when its response code is
429, otherwise it is swallowed and the page continues. The taxonomy does
NOT cover the `repo.languages()` call, which runs before `add_node` and
outside the `try:`: a `GitlabGetError` there — any response code, 429 or
not — propagates un-swallowed with no rollback and aborts the page
(fifth conjunct; see the counterexample for the uncorrected claim). -/
theorem C2_error_taxonomy_amended :
    (∀ (g : PGraph) (rid : String) (lang : Option String) (w : Option Int)
      (parent : Option Repo) (owner : Option Person) (contribs : FetchList Person)
      (commits : FetchList Commit) (rest : List Repo),
      g.hasNode rid = false → contribs.err = some ApiErr.rateLimit →
      ∃ g', importRepoG none g (.mk (some rid) lang w false parent owner contribs commits)
          = (g', Except.error ApiErr.rateLimit)
        ∧ g'.hasNode rid = false
        ∧ processPageG none g ((.mk (some rid) lang w false parent owner contribs commits) :: rest)
          = (g', 0, some ApiErr.rateLimit))
    ∧ (∀ (g : PGraph) (rid : String) (lang : Option String) (w : Option Int)
      (parent : Option Repo) (owner : Option Person) (contribs : FetchList Person)
      (commits : FetchList Commit) (rest : List Repo),
      g.hasNode rid = false → contribs.err = some ApiErr.github →
      ∃ g', importRepoG none g (.mk (some rid) lang w false parent owner contribs commits)
          = (g', Except.ok ())
        ∧ g'.hasNode rid = false
        ∧ processPageG none g ((.mk (some rid) lang w false parent owner contribs commits) :: rest)
          = ((processPageG none g' rest).1, (processPageG none g' rest).2.1 + 1,
              (processPageG none g' rest).2.2))
    ∧ (∀ (g : PGraph) (r : LRepo) (rid : String) (rest : List LRepo),
      r.path_with_namespace = some rid → g.hasNode rid = false →
      r.languages_err = none →
      r.contributors.err = some (ApiErr.gitlab 429) →
      ∃ g', importRepoL none g r = (g', Except.error (ApiErr.gitlab 429))
        ∧ g'.hasNode rid = false
        ∧ processPageL none g (r :: rest) = (g', 0, some (ApiErr.gitlab 429)))
    ∧ (∀ (g : PGraph) (r : LRepo) (rid : String) (c : Nat) (rest : List LRepo),
      r.path_with_namespace = some rid → g.hasNode rid = false →
      r.languages_err = none →
      r.contributors.err = some (ApiErr.gitlab c) → c ≠ 429 →
      ∃ g', importRepoL none g r = (g', Except.ok ())
        ∧ g'.hasNode rid = false
        ∧ processPageL none g (r :: rest)
          = ((processPageL none g' rest).1, (processPageL none g' rest).2.1 + 1,
              (processPageL none g' rest).2.2))
    ∧ (∀ (since : Option Nat) (g : PGraph) (r : LRepo) (rid : String) (c : Nat)
        (rest : List LRepo),
      r.path_with_namespace = some rid → g.hasNode rid = false →
      r.languages_err = some c →
      importRepoL since g r = (g, Except.error (ApiErr.gitlab c))
        ∧ processPageL since g (r :: rest) = (g, 0, some (ApiErr.gitlab c))) := by
  refine ⟨?_, ?_, ?_, ?_, ?_⟩
  · intro g rid lang w parent owner contribs commits rest hmem herr
    rcases finishG_cases none rid owner contribs commits
        (g.addNode rid
          { bipartite := some 0, language := some (langOr lang), weight := some (intOr w) })
        with ⟨gmid, henr, hfin⟩ | ⟨gmid, henr, hfin⟩ | ⟨gmid, henr, hfin⟩ |
          ⟨gmid, e0, henr, hne1, hne2, hfin⟩
    all_goals
      have hproj := enrichG_none_err
        (g.addNode rid
          { bipartite := some 0, language := some (langOr lang), weight := some (intOr w) })
        rid owner contribs commits
      rw [henr, herr] at hproj
    · simp at hproj
    · have himp : importRepoG none g (.mk (some rid) lang w false parent owner contribs commits)
          = (gmid.removeNode rid, Except.error ApiErr.rateLimit) := by
        rw [importRepoG_fresh none g rid lang w parent owner contribs commits hmem, hfin]
      exact ⟨gmid.removeNode rid, himp, removeNode_hasNode_self gmid rid,
        processPageG_cons_err rest himp⟩
    · simp at hproj
    · injection hproj with h3
      rw [← h3] at hne1
      simp at hne1
  · intro g rid lang w parent owner contribs commits rest hmem herr
    rcases finishG_cases none rid owner contribs commits
        (g.addNode rid
          { bipartite := some 0, language := some (langOr lang), weight := some (intOr w) })
        with ⟨gmid, henr, hfin⟩ | ⟨gmid, henr, hfin⟩ | ⟨gmid, henr, hfin⟩ |
          ⟨gmid, e0, henr, hne1, hne2, hfin⟩
    all_goals
      have hproj := enrichG_none_err
        (g.addNode rid
          { bipartite := some 0, language := some (langOr lang), weight := some (intOr w) })
        rid owner contribs commits
      rw [henr, herr] at hproj
    · simp at hproj
    · simp at hproj
    · have himp : importRepoG none g (.mk (some rid) lang w false parent owner contribs commits)
          = (gmid.removeNode rid, Except.ok ()) := by
        rw [importRepoG_fresh none g rid lang w parent owner contribs commits hmem, hfin]
      exact ⟨gmid.removeNode rid, himp, removeNode_hasNode_self gmid rid,
        processPageG_cons_ok rest himp⟩
    · injection hproj with h3
      rw [← h3] at hne2
      simp at hne2
  · intro g r rid rest hfn hmem hl herr
    have hfresh := importRepoL_fresh none g r rid hfn hmem hl
    rcases henr : enrichL
        (g.addNode rid
          { bipartite := some 0, language := some (topLanguage r.languages), weight := some (intOr r.star_count) })
        none rid r.namespacePath r.contributors r.commits with ⟨gmid, errv⟩
    have hproj := enrichL_none_err
      (g.addNode rid
        { bipartite := some 0, language := some (topLanguage r.languages), weight := some (intOr r.star_count) })
      rid r.namespacePath r.contributors r.commits
    rw [henr, herr] at hproj
    simp only at hproj
    rw [henr] at hfresh
    rw [hproj] at hfresh
    dsimp only at hfresh
    simp only [if_pos rfl] at hfresh
    exact ⟨gmid.removeNode rid, hfresh, removeNode_hasNode_self gmid rid,
      processPageL_cons_err rest hfresh⟩
  · intro g r rid c rest hfn hmem hl herr hne
    have hfresh := importRepoL_fresh none g r rid hfn hmem hl
    rcases henr : enrichL
        (g.addNode rid
          { bipartite := some 0, language := some (topLanguage r.languages), weight := some (intOr r.star_count) })
        none rid r.namespacePath r.contributors r.commits with ⟨gmid, errv⟩
    have hproj := enrichL_none_err
      (g.addNode rid
        { bipartite := some 0, language := some (topLanguage r.languages), weight := some (intOr r.star_count) })
      rid r.namespacePath r.contributors r.commits
    rw [henr, herr] at hproj
    simp only at hproj
    rw [henr] at hfresh
    rw [hproj] at hfresh
    dsimp only at hfresh
    rw [if_neg hne] at hfresh
    exact ⟨gmid.removeNode rid, hfresh, removeNode_hasNode_self gmid rid,
      processPageL_cons_ok rest hfresh⟩
  · intro since g r rid c rest hfn hmem hl
    have himp := importRepoL_langerr since g r rid c hfn hmem hl
    exact ⟨himp, processPageL_cons_err rest himp⟩

/-- A GitLab project whose contributors fetch fails with response code 429. -/
def wL429 : LRepo :=
  { path_with_namespace := some "grp/p",
    contributors := { items := [], err := some (ApiErr.gitlab 429) } }

/-- A GitLab project whose contributors fetch fails with response code 500. -/
def wL500 : LRepo :=
  { path_with_namespace := some "grp/p",
    contributors := { items := [], err := some (ApiErr.gitlab 500) } }

/-- A GitLab project whose `languages()` HTTP call fails with a non-429
`GitlabGetError` (response code 500). -/
def wLlang : LRepo :=
  { path_with_namespace := some "grp/q", languages_err := some 500 }

/-- A GitLab project that would import cleanly (no owner, no contributors). -/
def wLok : LRepo := { path_with_namespace := some "grp/s" }

/-- C2 counterexample: a `GitlabGetError` with a non-429 response code is
NOT always swallowed so that the pass continues. When it comes from the
`repo.languages()` call — before `add_node`, outside the `try:` — it
propagates out of the task: the page aborts with the error (count 0), the
sibling repository `grp/s` is never imported, and nothing was rolled back
because nothing had been added. This refutes the claimed taxonomy for
GitlabGetError with non-429 codes. -/
theorem C2_counterexample :
    importRepoL none {} wLlang = ({}, Except.error (ApiErr.gitlab 500))
    ∧ processPageL none {} [wLlang, wLok] = ({}, 0, some (ApiErr.gitlab 500))
    ∧ (processPageL none {} [wLlang, wLok]).1.hasNode "grp/s" = false
    ∧ (importRepoL none {} wLok).1.hasNode "grp/s" = true :=
  ⟨rfl, rfl, rfl, rfl⟩

/-- Witness for C2 amended at concrete failing repositories and one- or
two-element pages. -/
theorem C2_error_taxonomy_amended_witness :
    (∃ g', importRepoG none {}
        (.mk (some "b/y") none none false none (some { login := some "ann" })
          { items := [], err := some ApiErr.rateLimit } {})
        = (g', Except.error ApiErr.rateLimit)
      ∧ g'.hasNode "b/y" = false
      ∧ processPageG none {}
          [.mk (some "b/y") none none false none (some { login := some "ann" })
            { items := [], err := some ApiErr.rateLimit } {}]
        = (g', 0, some ApiErr.rateLimit))
    ∧ (∃ g', importRepoG none {}
        (.mk (some "b/y") none none false none (some { login := some "ann" })
          { items := [], err := some ApiErr.github } {})
        = (g', Except.ok ())
      ∧ g'.hasNode "b/y" = false
      ∧ processPageG none {}
          [.mk (some "b/y") none none false none (some { login := some "ann" })
            { items := [], err := some ApiErr.github } {}]
        = ((processPageG none g' []).1, (processPageG none g' []).2.1 + 1,
            (processPageG none g' []).2.2))
    ∧ (∃ g', importRepoL none {} wL429 = (g', Except.error (ApiErr.gitlab 429))
      ∧ g'.hasNode "grp/p" = false
      ∧ processPageL none {} [wL429] = (g', 0, some (ApiErr.gitlab 429)))
    ∧ (∃ g', importRepoL none {} wL500 = (g', Except.ok ())
      ∧ g'.hasNode "grp/p" = false
      ∧ processPageL none {} [wL500]
        = ((processPageL none g' []).1, (processPageL none g' []).2.1 + 1,
            (processPageL none g' []).2.2))
    ∧ (importRepoL none {} wLlang = ({}, Except.error (ApiErr.gitlab 500))
      ∧ processPageL none {} [wLlang, wLok] = ({}, 0, some (ApiErr.gitlab 500))) :=
  ⟨C2_error_taxonomy_amended.1 {} "b/y" none none none (some { login := some "ann" })
      { items := [], err := some ApiErr.rateLimit } {} [] rfl rfl,
   C2_error_taxonomy_amended.2.1 {} "b/y" none none none (some { login := some "ann" })
      { items := [], err := some ApiErr.github } {} [] rfl rfl,
   C2_error_taxonomy_amended.2.2.1 {} wL429 "grp/p" [] rfl rfl rfl rfl,
   C2_error_taxonomy_amended.2.2.2.1 {} wL500 "grp/p" 500 [] rfl rfl rfl rfl (by decide),
   C2_error_taxonomy_amended.2.2.2.2 none {} wLlang "grp/q" 500 [wLok] rfl rfl rfl⟩

/-! ## Claim C8 -/

/-- C8 counterexample: a contributor whose login and email are both the
empty string is **not** skipped by GithubCrawler.py — `'' or ''` is `''`,
which fails only the `is None` test, so a person node keyed by the empty
string and its contributor edge are added to the graph. -/
theorem C8_counterexample :
    (importRepoG none {}
        (.mk (some "a/x") none none false none none
          { items := [{ login := some "", email := some "" }], err := none } {})).1.hasNode ""
      = true
    ∧ (importRepoG none {}
        (.mk (some "a/x") none none false none none
          { items := [{ login := some "", email := some "" }], err := none } {})).1.edgeBetween
        "" "a/x" (some "contributor") = true := by
  constructor <;> rfl

/-- C8 amended: a person is skipped silently — no node, no edge, no error —
exactly when the computed identity key is Python `None`: in
GithubCrawler.py when both login and email are `None` (an empty string is
truthy enough to pass the `is None` test and becomes a node key), in
repos.py when the login is `None` (the login is the only key there, with
no email fallback), and in GitlabCrawler.py when the contributor email is
`None`. -/
theorem C8_skip_amended :
    (∀ (g : PGraph) (rid : String) (p : Person) (rel : Option String),
      p.login = none → p.email = none →
      linkUserG g rid (pyOrS p.login p.email) rel = g)
    ∧ (∀ (g : PGraph) (rid : String) (p : Person) (rel : Option String),
      p.login = none → linkUserR g rid (some p) rel = (g, none))
    ∧ (∀ (g : PGraph) (rid : String) (rel : Option String),
      linkUserL g rid none rel = g) := by
  refine ⟨?_, ?_, ?_⟩
  · intro g rid p rel hl he
    rw [hl, he]
    rfl
  · intro g rid p rel hl
    simp [linkUserR, hl]
  · intro g rid rel
    rfl

/-- Witness for C8 amended at a concrete graph and person. -/
theorem C8_skip_amended_witness :
    linkUserG { nodes := [("a/x", { bipartite := some 0 })] } "a/x"
        (pyOrS (Person.login { login := none, email := none })
          (Person.email { login := none, email := none })) (some "contributor")
      = { nodes := [("a/x", { bipartite := some 0 })] }
    ∧ linkUserR { nodes := [("a/x", { bipartite := some 0 })] } "a/x"
        (some { login := none, email := some "x@y" }) (some "contributor")
      = ({ nodes := [("a/x", { bipartite := some 0 })] }, none)
    ∧ linkUserL { nodes := [("a/x", { bipartite := some 0 })] } "a/x" none (some "contributor")
      = { nodes := [("a/x", { bipartite := some 0 })] } :=
  ⟨C8_skip_amended.1 _ "a/x" { login := none, email := none } (some "contributor") rfl rfl,
   C8_skip_amended.2.1 _ "a/x" { login := none, email := some "x@y" } (some "contributor") rfl,
   C8_skip_amended.2.2 _ "a/x" (some "contributor")⟩

/-! ## Counting lemmas for the limit claims -/

theorem counts_of_append {g g' : PGraph} {added : List (String × NodeAttrs)}
    (h : g'.nodes = g.nodes ++ added) (hp : ∀ q ∈ added, q.2 = personAttrs) :
    g'.repoCount = g.repoCount ∧ g'.nodeCount = g.nodeCount + added.length := by
  constructor
  · unfold PGraph.repoCount
    rw [h, List.filter_append]
    rw [filter_eq_nil_of _ added (by
      intro q hq
      rw [hp q hq]
      simp [personAttrs])]
    simp
  · unfold PGraph.nodeCount
    rw [h, List.length_append]

theorem counts_addNode_repo {g : PGraph} {rid : String} {l : Option String}
    {w : Option Int} (hfresh : g.hasNode rid = false) :
    (g.addNode rid
      { bipartite := some 0, language := some (langOr l), weight := some (intOr w) }).repoCount
        = g.repoCount + 1
    ∧ (g.addNode rid
      { bipartite := some 0, language := some (langOr l), weight := some (intOr w) }).nodeCount
        = g.nodeCount + 1 := by
  constructor
  · unfold PGraph.repoCount
    rw [addNode_fresh_nodes _ hfresh, List.filter_append]
    simp
  · unfold PGraph.nodeCount
    rw [addNode_fresh_nodes _ hfresh, List.length_append]
    rfl

/-- Nodes-only view of the rollback: the original nodes plus the person
nodes created during the failed enrichment. -/
theorem rollback_nodes {g : PGraph} {rid : String} {a : NodeAttrs} {gmid : PGraph}
    (hfresh : g.hasNode rid = false)
    (hinv : EnrichInv (g.addNode rid a) rid gmid) :
    ∃ added, (gmid.removeNode rid).nodes = g.nodes ++ added
      ∧ ∀ q ∈ added, q.2 = personAttrs := by
  obtain ⟨hrid, ⟨added, hn, hadd⟩, _⟩ := hinv
  rw [addNode_fresh_nodes a hfresh] at hn
  refine ⟨added, ?_, fun q hq => (hadd q hq).1⟩
  rw [removeNode_nodes, hn, List.append_assoc, List.filter_append, List.filter_append]
  have h1 : g.nodes.filter (fun p => p.1 ≠ rid) = g.nodes := by
    apply filter_eq_self_of
    intro p hp
    have : p.1 ≠ rid := by
      intro hc
      have := hasNode_of_mem (g := g) (k := rid) (a := p.2) (by
        have hpp : p = (rid, p.2) := by
          obtain ⟨p1, p2⟩ := p
          simp only at hc
          simp [hc]
        rw [← hpp]
        exact hp)
      rw [hfresh] at this
      exact absurd this (by simp)
    simpa using this
  have h2 : ([((rid : String), a)].filter (fun p => p.1 ≠ rid)) = [] := by simp
  have h3 : added.filter (fun p => p.1 ≠ rid) = added := by
    apply filter_eq_self_of
    intro q hq
    simpa using (hadd q hq).2
  rw [h1, h2, h3]
  simp

/-- Nodes-only enrichment invariant (no condition on the base edges). -/
def NInv (g0 : PGraph) (rid : String) (g : PGraph) : Prop :=
  g.hasNode rid = true
    ∧ ∃ added, g.nodes = g0.nodes ++ added ∧ ∀ q ∈ added, q.2 = personAttrs ∧ q.1 ≠ rid

theorem ninv_step {g0 g : PGraph} {rid : String} (uid rel : Option String)
    (h : NInv g0 rid g) : NInv g0 rid (linkUserG g rid uid rel) := by
  obtain ⟨hrid, added, hn, hadd⟩ := h
  refine ⟨linkG_hasNode_mono g rid uid rel hrid hrid, ?_⟩
  rcases linkG_nodes_shape g rid uid rel hrid with hs | ⟨u, _, hufresh, hne, hs⟩
  · exact ⟨added, by rw [hs, hn], hadd⟩
  · refine ⟨added ++ [(u, personAttrs)], by rw [hs, hn, List.append_assoc], ?_⟩
    intro q hq
    rcases List.mem_append.1 hq with h1 | h1
    · exact hadd q h1
    · have : q = (u, personAttrs) := by simpa using h1
      rw [this]
      exact ⟨rfl, hne⟩

theorem seq_ninv {g0 : PGraph} {rid : String} {U : String → Prop} {R : Option String → Prop}
    {g g' : PGraph} (hseq : LinkSeq rid U R g g') (h : NInv g0 rid g) : NInv g0 rid g' := by
  induction hseq with
  | refl g => exact h
  | step g uid rel gz hU hR htail ih => exact ih (ninv_step uid rel h)

theorem enrichR_ninv {g : PGraph} {i : String} (since : Option Nat) (a : NodeAttrs)
    (owner : Option Person) (contribs : FetchList Person) (commits : FetchList Commit) :
    NInv (g.addNode i a) i
      (enrichR (g.addNode i a) since i owner contribs commits).1 := by
  refine seq_ninv
    (enrichR_seq (U := fun _ => True) (R := fun _ => True) _ since owner contribs commits
      trivial trivial trivial (fun _ _ _ _ => trivial) (fun _ _ _ _ => trivial)
      (fun _ _ _ _ _ _ => trivial)) ?_
  exact ⟨hasNode_addNode_self g i a, [], by simp, by simp⟩

theorem rollback_nodes_ninv {g : PGraph} {rid : String} {a : NodeAttrs} {gmid : PGraph}
    (hfresh : g.hasNode rid = false) (hinv : NInv (g.addNode rid a) rid gmid) :
    ∃ added, (gmid.removeNode rid).nodes = g.nodes ++ added
      ∧ ∀ q ∈ added, q.2 = personAttrs := by
  obtain ⟨hrid, added, hn, hadd⟩ := hinv
  rw [addNode_fresh_nodes a hfresh] at hn
  refine ⟨added, ?_, fun q hq => (hadd q hq).1⟩
  rw [removeNode_nodes, hn, List.append_assoc, List.filter_append, List.filter_append]
  have h1 : g.nodes.filter (fun p => p.1 ≠ rid) = g.nodes := by
    apply filter_eq_self_of
    intro p hp
    have : p.1 ≠ rid := by
      intro hc
      have := hasNode_of_mem (g := g) (k := rid) (a := p.2) (by
        have hpp : p = (rid, p.2) := by
          obtain ⟨p1, p2⟩ := p
          simp only at hc
          simp [hc]
        rw [← hpp]
        exact hp)
      rw [hfresh] at this
      exact absurd this (by simp)
    simpa using this
  have h2 : ([((rid : String), a)].filter (fun p => p.1 ≠ rid)) = [] := by simp
  have h3 : added.filter (fun p => p.1 ≠ rid) = added := by
    apply filter_eq_self_of
    intro q hq
    simpa using (hadd q hq).2
  rw [h1, h2, h3]
  simp

/-- Per-import node accounting for repos.py (non-fork): the repository
count grows by at most one and never shrinks, and the total node count
grows at least as much as the repository count. -/
theorem importR_counts (since : Option Nat) (g : PGraph) (r : Repo)
    (hnf : r.fork = false) :
    g.repoCount ≤ (importRepoR since g r).1.repoCount
    ∧ (importRepoR since g r).1.repoCount ≤ g.repoCount + 1
    ∧ (importRepoR since g r).1.repoCount + g.nodeCount
        ≤ (importRepoR since g r).1.nodeCount + g.repoCount := by
  obtain ⟨fn, lang, w, fork, parent, owner, contribs, commits⟩ := r
  simp only [Repo.fork] at hnf
  subst hnf
  rcases fn with _ | rid
  · exact ⟨Nat.le_refl _, Nat.le_succ _, Nat.le_of_eq (Nat.add_comm _ _)⟩
  · by_cases hmem : g.hasNode rid = true
    · rw [importRepoR_skip since g rid lang w false parent owner contribs commits hmem]
      exact ⟨Nat.le_refl _, Nat.le_succ _, Nat.le_of_eq (Nat.add_comm _ _)⟩
    · simp only [Bool.not_eq_true] at hmem
      rw [importRepoR_fresh since g rid lang w parent owner contribs commits hmem]
      obtain ⟨hA1, hA2⟩ := counts_addNode_repo (l := lang) (w := w) hmem
      rcases finishR_cases since rid owner contribs commits
          (g.addNode rid
            { bipartite := some 0, language := some (langOr lang), weight := some (intOr w) })
          with ⟨gmid, henr, hfin⟩ | ⟨gmid, e0, henr, hfin⟩
      · rw [hfin]
        have hinv := enrichR_ninv (g := g) (i := rid) since
          { bipartite := some 0, language := some (langOr lang), weight := some (intOr w) }
          owner contribs commits
        rw [henr] at hinv
        obtain ⟨_, added, hn, hadd⟩ := hinv
        obtain ⟨hc1, hc2⟩ := counts_of_append hn (fun q hq => (hadd q hq).1)
        simp only [hc1, hc2, hA1, hA2]
        omega
      · rw [hfin]
        have hinv := enrichR_ninv (g := g) (i := rid) since
          { bipartite := some 0, language := some (langOr lang), weight := some (intOr w) }
          owner contribs commits
        rw [henr] at hinv
        obtain ⟨added, hn, hadd⟩ := rollback_nodes_ninv hmem hinv
        obtain ⟨hc1, hc2⟩ := counts_of_append hn hadd
        simp only [hc1, hc2]
        omega

theorem processStreamR_counts (since : Option Nat) :
    ∀ (items : List Repo) (g : PGraph) (off : Nat),
    (∀ r ∈ items, r.fork = false) →
    g.repoCount ≤ (processStreamR since g off items).1.repoCount
    ∧ (processStreamR since g off items).1.repoCount ≤ g.repoCount + items.length
    ∧ (processStreamR since g off items).1.repoCount + g.nodeCount
        ≤ (processStreamR since g off items).1.nodeCount + g.repoCount := by
  intro items
  induction items with
  | nil =>
    intro g off _
    simp only [processStreamR, List.length_nil]
    omega
  | cons r rs ih =>
    intro g off hnf
    have hr := importR_counts since g r (hnf r (List.mem_cons_self r rs))
    rw [processStreamR]
    rcases himp : importRepoR since g r with ⟨g1, res⟩
    rw [himp] at hr
    rcases res with e | u
    · dsimp only
      dsimp only at hr
      simp only [List.length_cons]
      omega
    · dsimp only
      dsimp only at hr
      have hih := ih g1 (off + 1) (fun x hx => hnf x (List.mem_cons_of_mem r hx))
      simp only [List.length_cons]
      omega

theorem findR_graph (g : PGraph) (off : Nat) (lim : Option Nat) (since : Option Nat)
    (stream : List Repo) :
    (findR g off lim since stream).g
      = (processStreamR since g off (sliceRepos off lim stream)).1 := by
  unfold findR
  rcases hps : processStreamR since g off (sliceRepos off lim stream) with ⟨g1, off1, errv⟩
  rcases errv with _ | e
  · rfl
  · dsimp only
    split <;> rfl

theorem sliceRepos_subset (off : Nat) (lim : Option Nat) (stream : List Repo) :
    ∀ r ∈ sliceRepos off lim stream, r ∈ stream := by
  intro r hr
  unfold sliceRepos at hr
  have hr1 : ∀ x ∈ (if off = 0 then stream else stream.drop off), x ∈ stream := by
    intro x hx
    by_cases ho : off = 0
    · rw [if_pos ho] at hx; exact hx
    · rw [if_neg ho] at hx; exact List.drop_subset off stream hx
  rcases lim with _ | k
  · exact hr1 r hr
  · rcases k with _ | k
    · exact hr1 r hr
    · exact hr1 r (List.take_subset _ _ hr)

theorem sliceRepos_length {k : Nat} (off : Nat) (stream : List Repo) (hk : k ≠ 0) :
    (sliceRepos off (some k) stream).length ≤ k := by
  unfold sliceRepos
  rcases k with _ | k
  · exact absurd rfl hk
  · calc ((if off = 0 then stream else stream.drop off).take (k + 1)).length
        ≤ k + 1 := by
          rw [List.length_take]
          exact Nat.min_le_left _ _

theorem findR_counts (g : PGraph) (off k : Nat) (since : Option Nat) (stream : List Repo)
    (hk : k ≠ 0) (hnf : ∀ r ∈ stream, r.fork = false) :
    g.repoCount ≤ (findR g off (some k) since stream).g.repoCount
    ∧ (findR g off (some k) since stream).g.repoCount ≤ g.repoCount + k
    ∧ (findR g off (some k) since stream).g.repoCount + g.nodeCount
        ≤ (findR g off (some k) since stream).g.nodeCount + g.repoCount := by
  rw [findR_graph]
  have hs := processStreamR_counts since (sliceRepos off (some k) stream) g off
    (fun r hr => hnf r (sliceRepos_subset off (some k) stream r hr))
  have hl := sliceRepos_length off stream hk
  omega

/-! ## Claim C5 -/

/-- A previous graph that already holds repository `a/x`. -/
def wPrev : PGraph :=
  { nodes := [("a/x", { bipartite := some 0, language := some "?", weight := some 0 })] }

/-- A three-repository result stream whose first entry duplicates `a/x`. -/
def wStream : List Repo :=
  [.mk (some "a/x") none none false none none {} {},
   .mk (some "b/y") none none false none none {} {},
   .mk (some "c/z") none none false none none {} {}]

/-- C5 counterexample: with `limit=2` over `[a/x, b/y, c/z]` where `a/x` is
already a node, repos.py's `find` examines only the first two stream items
(`repos[:limit]`), so the skipped duplicate consumes the limit: the pass
completes having added just one new repository and never examines the
still-importable `c/z` — the pass does **not** continue until two newly
added repositories. -/
theorem C5_counterexample :
    wPrev.hasNode "b/y" = false ∧ wPrev.hasNode "c/z" = false
    ∧ (findR wPrev 0 (some 2) none wStream).completed = true
    ∧ (findR wPrev 0 (some 2) none wStream).g.hasNode "b/y" = true
    ∧ (findR wPrev 0 (some 2) none wStream).g.hasNode "c/z" = false
    ∧ (findR wPrev 0 (some 2) none wStream).g.repoCount = wPrev.repoCount + 1 := by
  refine ⟨rfl, rfl, rfl, rfl, rfl, rfl⟩

/-- C5 amended: in repos.py's `find`, a truthy `limit=K` bounds the stream
items *examined* — exactly the first K entries after the offset, whether
they are skipped or imported; `limit=0` is falsy and disables the slice
entirely (behaving like no limit); and, for a fork-free stream, at most K
repositories are newly added. The limit never counts pages or API calls. -/
theorem C5_limit_amended :
    (∀ (off k : Nat) (stream : List Repo), k ≠ 0 →
      sliceRepos off (some k) stream = (stream.drop off).take k)
    ∧ (∀ (g : PGraph) (off : Nat) (since : Option Nat) (stream : List Repo),
      findR g off (some 0) since stream = findR g off none since stream)
    ∧ (∀ (g : PGraph) (off k : Nat) (since : Option Nat) (stream : List Repo),
      k ≠ 0 → (∀ r ∈ stream, r.fork = false) →
      (findR g off (some k) since stream).g.repoCount ≤ g.repoCount + k) := by
  refine ⟨?_, ?_, ?_⟩
  · intro off k stream hk
    unfold sliceRepos
    rcases k with _ | k
    · exact absurd rfl hk
    · by_cases ho : off = 0
      · rw [if_pos ho, ho, List.drop_zero]
        rfl
      · rw [if_neg ho]
        rfl
  · intro g off since stream
    rfl
  · intro g off k since stream hk hnf
    exact (findR_counts g off k since stream hk hnf).2.1

/-- Witness for C5 amended at concrete slicing inputs and a concrete pass. -/
theorem C5_limit_amended_witness :
    sliceRepos 1 (some 2) wStream = (wStream.drop 1).take 2
    ∧ findR wPrev 0 (some 0) none wStream = findR wPrev 0 none none wStream
    ∧ (findR wPrev 0 (some 2) none wStream).g.repoCount ≤ wPrev.repoCount + 2 :=
  ⟨C5_limit_amended.1 1 2 wStream (by decide),
   C5_limit_amended.2.1 wPrev 0 none wStream,
   C5_limit_amended.2.2 wPrev 0 2 none wStream (by decide) (by decide)⟩

theorem toNat_max_zero (x : Int) : (max 0 x).toNat = x.toNat := by
  rcases le_total 0 x with h | h
  · rw [max_eq_right h]
  · rw [max_eq_left h]
    rw [Int.toNat_of_nonpos h]
    rfl

theorem findAllGo_bound (since : Option Nat) (stream : List Repo)
    (hnf : ∀ r ∈ stream, r.fork = false) :
    ∀ (fuel : Nat) (g : PGraph) (off : Nat) (K : Nat) (prevCount : Nat),
      K ≠ 0 → prevCount ≤ g.nodeCount →
      (∀ s ∈ findAllGo since stream prevCount fuel g off (some K), s.2 ≠ some 0) →
      ∀ s ∈ findAllGo since stream prevCount fuel g off (some K),
        s.1.repoCount ≤ g.repoCount + K := by
  intro fuel
  induction fuel with
  | zero =>
    intro g off K prevCount _ _ _ s hs
    simp [findAllGo] at hs
  | succ fuel ih =>
    intro g off K prevCount hK hprev hnz s hs
    have hcnt := findR_counts g off K since stream hK hnf
    rw [findAllGo] at hs hnz
    dsimp only at hs hnz
    rcases hraised : (findR g off (some K) since stream).raised with _ | e
    · rw [hraised] at hs hnz
      dsimp only at hs hnz
      have hK'eq : ∀ l : Nat,
          (Option.map (fun l =>
            (max 0 ((l : Int) - (((findR g off (some K) since stream).g.nodeCount : Int)
              - (prevCount : Int)))).toNat) (some K))
          = some ((max 0 ((K : Int) - (((findR g off (some K) since stream).g.nodeCount : Int)
              - (prevCount : Int)))).toNat) := by
        intro l
        rfl
      rcases hcomp : (findR g off (some K) since stream).completed with _ | _
      · rw [hcomp] at hs hnz
        simp only [Bool.false_eq_true, if_false] at hs hnz
        rcases List.mem_cons.1 hs with hhead | htail
        · rw [hhead]
          exact hcnt.2.1
        · have hK'nz := hnz _ (List.mem_cons_self _ _)
          simp only [Option.map_some'] at hK'nz htail
          set K' := (max 0 ((K : Int) - (((findR g off (some K) since stream).g.nodeCount : Int)
              - (prevCount : Int)))).toNat with hKd
          have hK'ne : K' ≠ 0 := by
            intro hc
            exact hK'nz (by rw [hc])
          have hprev' : prevCount ≤ (findR g off (some K) since stream).g.nodeCount := by
            omega
          have hnz' : ∀ s ∈ findAllGo since stream prevCount fuel
              (findR g off (some K) since stream).g
              (findR g off (some K) since stream).offset (some K'), s.2 ≠ some 0 := by
            intro s2 hs2
            exact hnz s2 (List.mem_cons_of_mem _ hs2)
          have hboundtail := ih (findR g off (some K) since stream).g
            (findR g off (some K) since stream).offset K' prevCount hK'ne hprev' hnz' s htail
          have hK'val : (K' : Int) = max 0 ((K : Int)
              - (((findR g off (some K) since stream).g.nodeCount : Int) - (prevCount : Int))) := by
            rw [hKd]
            rw [toNat_max_zero]
            rw [Int.toNat_of_nonneg]
            · rw [max_eq_right]
              by_contra hcon
              push_neg at hcon
              have : ((K : Int) - (((findR g off (some K) since stream).g.nodeCount : Int)
                  - (prevCount : Int))) < 0 := by omega
              have : K' = 0 := by
                rw [hKd]
                rw [toNat_max_zero]
                omega
              exact hK'ne this
            · by_contra hcon
              push_neg at hcon
              have : K' = 0 := by
                rw [hKd]
                rw [toNat_max_zero]
                omega
              exact hK'ne this
          omega
      · rw [hcomp] at hs
        simp only [if_true] at hs
        have : s = ((findR g off (some K) since stream).g,
            Option.map (fun l => (max 0 ((l : Int)
              - (((findR g off (some K) since stream).g.nodeCount : Int)
                - (prevCount : Int)))).toNat) (some K)) := by
          simpa using hs
        rw [this]
        exact hcnt.2.1
    · rw [hraised] at hs
      simp at hs

/-! ## Claim C6 -/

/-- A fork whose parent has not been imported yet. -/
def wFork : Repo :=
  .mk (some "f/r") none none true
    (some (.mk (some "p/r") none none false none none {} {})) none {} {}

/-- A repository that imports cleanly, linking its owner `ann`. -/
def wOkA : Repo := .mk (some "a/x") none none false none (some { login := some "ann" }) {} {}

/-- C6 counterexample, three runs of repos.py `find_all`:
(i) `limit=1` on a fork adds **2** repository nodes (the fork and its
recursively imported parent both count against no limit);
(ii) `limit=0` is falsy, so `find(limit=0)` never slices and a single pass
adds three repositories — more than K=0;
(iii) with `limit=5` and a stream `[ok, always-rate-limited]`, pass 2 adds
no node at all, yet the limit drops 3 → 1 because the code subtracts the
**cumulative** node growth `number_of_nodes(g) - previous_count` (owner
`ann` included), not the per-pass net. -/
theorem C6_counterexample :
    ((findAllR 2 {} (some 1) none [wFork]).map (fun s => s.1.repoCount) = [2])
    ∧ ((findAllR 1 {} (some 0) none wStream).map (fun s => s.1.repoCount) = [3])
    ∧ ((findAllR 3 {} (some 5) none [wOkA, wRateR]).map (fun s => (s.1.nodeCount, s.2))
        = [(2, some 3), (2, some 1), (2, some 0)]) := by
  refine ⟨rfl, rfl, rfl⟩

/-- C6 amended: for a fork-free stream, a positive initial limit K, and a
run in which no yielded limit has been floored to 0 (a floored limit of 0
disables slicing in the next pass), every graph snapshot `find_all` yields
contains at most K repository nodes more than the initial graph; the limit
yielded after each pass is `max(0, limit - (nodes_now - initial_nodes))`,
i.e. decremented by the cumulative number of nodes of any kind added since
`find_all` began. -/
theorem C6_limit_amended (fuel : Nat) (g : PGraph) (K : Nat) (since : Option Nat)
    (stream : List Repo) (hnf : ∀ r ∈ stream, r.fork = false) (hK : K ≠ 0)
    (hnz : ∀ s ∈ findAllR fuel g (some K) since stream, s.2 ≠ some 0) :
    ∀ s ∈ findAllR fuel g (some K) since stream, s.1.repoCount ≤ g.repoCount + K := by
  exact findAllGo_bound since stream hnf fuel g 0 K g.nodeCount hK (Nat.le_refl _) hnz

/-- Witness for C6 amended on a one-pass run with a large limit: the single
snapshot the run yields holds one repository node, within the bound 0 + 5. -/
theorem C6_limit_amended_witness :
    ((∀ r ∈ [Repo.mk (some "s/r") none none false none none {} {}], r.fork = false)
      ∧ (5 : Nat) ≠ 0
      ∧ (∀ s ∈ findAllR 1 {} (some 5) none [Repo.mk (some "s/r") none none false none none {} {}], s.2 ≠ some 0))
    ∧ (({ nodes := [("s/r", { bipartite := some 0, language := some "?", weight := some 0 })], edges := [] } : PGraph), (some 4 : Option Nat))
        ∈ findAllR 1 {} (some 5) none [Repo.mk (some "s/r") none none false none none {} {}]
    ∧ (({ nodes := [("s/r", { bipartite := some 0, language := some "?", weight := some 0 })], edges := [] } : PGraph), (some 4 : Option Nat)).1.repoCount
        ≤ PGraph.repoCount {} + 5 :=
  ⟨⟨by decide, by decide, by decide⟩, by decide,
    C6_limit_amended 1 {} 5 none [Repo.mk (some "s/r") none none false none none {} {}]
      (by decide) (by decide) (by decide)
      (({ nodes := [("s/r", { bipartite := some 0, language := some "?", weight := some 0 })], edges := [] } : PGraph), (some 4 : Option Nat))
      (by decide)⟩

theorem closed_addNode {g : PGraph} {k : String} {a : NodeAttrs} (hc : Closed g) :
    Closed (g.addNode k a) := by
  intro e he
  rw [addNode_edges] at he
  obtain ⟨h1, h2⟩ := hc e he
  exact ⟨hasNode_addNode_mono k a h1, hasNode_addNode_mono k a h2⟩

theorem closed_removeNode {g : PGraph} {k : String} (hc : Closed g) :
    Closed (g.removeNode k) := by
  intro e he
  rw [removeNode_edges] at he
  obtain ⟨hmem, hni⟩ := List.mem_filter.1 he
  obtain ⟨h1, h2⟩ := hc e hmem
  have hni' : incident k e = false := by
    rcases hi : incident k e with _ | _
    · rfl
    · simp [hi] at hni
  simp only [incident, Bool.or_eq_false_iff, decide_eq_false_iff_not] at hni'
  constructor
  · obtain ⟨a, ha⟩ := (hasNode_iff g e.1).1 h1
    exact (hasNode_iff _ _).2 ⟨a, removeNode_nodes_pres ha hni'.1⟩
  · obtain ⟨a, ha⟩ := (hasNode_iff g e.2.1).1 h2
    exact (hasNode_iff _ _).2 ⟨a, removeNode_nodes_pres ha hni'.2⟩

/-- Frame property of one repos.py import task: every node and edge already
in the graph survives the import (with its attributes), whatever the
outcome, and edge endpoints stay inside the node set. -/
theorem importR_frame (since : Option Nat) :
    ∀ (g : PGraph) (r : Repo), Closed g →
      (∀ p ∈ g.nodes, p ∈ (importRepoR since g r).1.nodes)
      ∧ (∀ e ∈ g.edges, e ∈ (importRepoR since g r).1.edges)
      ∧ Closed (importRepoR since g r).1
  | g, .mk fn lang w fork parent owner contribs commits => by
    intro hc
    rcases fn with _ | rid
    · exact ⟨fun p hp => hp, fun e he => he, hc⟩
    · by_cases hmem : g.hasNode rid = true
      · rw [importRepoR_skip since g rid lang w fork parent owner contribs commits hmem]
        exact ⟨fun p hp => hp, fun e he => he, hc⟩
      · simp only [Bool.not_eq_true] at hmem
        have hattrs : (g.addNode rid
            { bipartite := some 0, language := some (langOr lang), weight := some (intOr w) }).nodes
              = g.nodes ++ [(rid,
                { bipartite := some 0, language := some (langOr lang), weight := some (intOr w) })] :=
          addNode_fresh_nodes _ hmem
        have hA : ∀ p ∈ g.nodes, p ∈ (g.addNode rid
            { bipartite := some 0, language := some (langOr lang),
              weight := some (intOr w) }).nodes := by
          intro p hp
          rw [hattrs]
          exact List.mem_append_left _ hp
        have hAe : (g.addNode rid
            { bipartite := some 0, language := some (langOr lang),
              weight := some (intOr w) }).edges = g.edges := addNode_edges g rid _
        have hAc : Closed (g.addNode rid
            { bipartite := some 0, language := some (langOr lang), weight := some (intOr w) }) :=
          closed_addNode hc
        have hArid : (g.addNode rid
            { bipartite := some 0, language := some (langOr lang),
              weight := some (intOr w) }).hasNode rid = true := hasNode_addNode_self g rid _
        have hni : ∀ e ∈ g.edges, incident rid e = false := not_incident_of_closed hc hmem
        have hfinish : ∀ (g2 : PGraph), g2.hasNode rid = true → Closed g2 →
            (∀ p ∈ g.nodes, p ∈ g2.nodes) → (∀ e ∈ g.edges, e ∈ g2.edges) →
            (∀ p ∈ g.nodes, p ∈ (finishR since rid owner contribs commits g2).1.nodes)
            ∧ (∀ e ∈ g.edges, e ∈ (finishR since rid owner contribs commits g2).1.edges)
            ∧ Closed (finishR since rid owner contribs commits g2).1 := by
          intro g2 hrid2 hc2 hn2 he2
          have hseq := enrichR_seq (i := rid) (U := fun _ => True) (R := fun _ => True)
            g2 since owner contribs commits trivial trivial trivial
            (fun _ _ _ _ => trivial) (fun _ _ _ _ => trivial) (fun _ _ _ _ _ _ => trivial)
          have hnodes3 : ∀ p ∈ g.nodes,
              p ∈ (enrichR g2 since rid owner contribs commits).1.nodes :=
            fun p hp => seq_nodes_pres hseq hrid2 (hn2 p hp)
          have hedges3 : ∀ e ∈ g.edges,
              e ∈ (enrichR g2 since rid owner contribs commits).1.edges :=
            fun e he => seq_edges_pres hseq hrid2 (he2 e he) (hni e he)
          have hc3 : Closed (enrichR g2 since rid owner contribs commits).1 :=
            seq_closed hseq hrid2 hc2
          rcases finishR_cases since rid owner contribs commits g2 with
            ⟨gmid, henr, hfin⟩ | ⟨gmid, e0, henr, hfin⟩
          · rw [hfin]
            rw [henr] at hnodes3 hedges3 hc3
            exact ⟨hnodes3, hedges3, hc3⟩
          · rw [hfin]
            rw [henr] at hnodes3 hedges3 hc3
            refine ⟨?_, ?_, closed_removeNode hc3⟩
            · intro p hp
              refine removeNode_nodes_pres (hnodes3 p hp) ?_
              intro hcon
              have := hasNode_of_mem (g := g) (k := rid) (a := p.2) (by
                have hpp : p = (rid, p.2) := by
                  obtain ⟨p1, p2⟩ := p
                  simp only at hcon
                  simp [hcon]
                rw [← hpp]
                exact hp)
              rw [hmem] at this
              exact absurd this (by simp)
            · intro e he
              exact removeNode_edges_pres (hedges3 e he) (hni e he)
        unfold importRepoR
        simp only [hmem, Bool.false_eq_true, if_false]
        rcases parent with _ | p
        · dsimp only
          exact hfinish _ hArid hAc hA (by rw [hAe]; exact fun e he => he)
        · rcases hfork : fork with _ | _
          · dsimp only
            exact hfinish _ hArid hAc hA (by rw [hAe]; exact fun e he => he)
          · dsimp only
            have hp := importR_frame since (g.addNode rid
              { bipartite := some 0, language := some (langOr lang), weight := some (intOr w) })
              p hAc
            rcases himp : importRepoR since (g.addNode rid
                { bipartite := some 0, language := some (langOr lang), weight := some (intOr w) })
                p with ⟨g2, res⟩
            rw [himp] at hp
            have hrid2 : g2.hasNode rid = true := by
              refine (hasNode_iff _ _).2 ⟨_, hp.1 (rid,
                { bipartite := some 0, language := some (langOr lang), weight := some (intOr w) })
                ?_⟩
              rw [hattrs]
              exact List.mem_append_right _ (by simp)
            rcases res with e0 | u
            · dsimp only
              exact ⟨fun q hq => hp.1 q (hA q hq),
                fun e he => hp.2.1 e (by rw [← hAe] at he; exact he), hp.2.2⟩
            · dsimp only
              exact hfinish g2 hrid2 hp.2.2 (fun q hq => hp.1 q (hA q hq))
                (fun e he => hp.2.1 e (by rw [← hAe] at he; exact he))

theorem processStreamR_frame (since : Option Nat) :
    ∀ (items : List Repo) (g : PGraph) (off : Nat), Closed g →
      (∀ p ∈ g.nodes, p ∈ (processStreamR since g off items).1.nodes)
      ∧ (∀ e ∈ g.edges, e ∈ (processStreamR since g off items).1.edges)
      ∧ Closed (processStreamR since g off items).1 := by
  intro items
  induction items with
  | nil => intro g off hc; exact ⟨fun p hp => hp, fun e he => he, hc⟩
  | cons r rs ih =>
    intro g off hc
    have hr := importR_frame since g r hc
    rw [processStreamR]
    rcases himp : importRepoR since g r with ⟨g1, res⟩
    rw [himp] at hr
    rcases res with e0 | u
    · exact hr
    · dsimp only
      obtain ⟨hi1, hi2, hi3⟩ := ih g1 (off + 1) hr.2.2
      exact ⟨fun p hp => hi1 p (hr.1 p hp), fun e he => hi2 e (hr.2.1 e he), hi3⟩

theorem processStreamR_append (since : Option Nat) :
    ∀ (pre rest : List Repo) (g g1 : PGraph) (off off1 : Nat),
      processStreamR since g off pre = (g1, off1, none) →
      processStreamR since g off (pre ++ rest) = processStreamR since g1 off1 rest := by
  intro pre
  induction pre with
  | nil =>
    intro rest g g1 off off1 h
    simp only [processStreamR] at h
    injection h with h1 h2
    injection h2 with h3 h4
    rw [List.nil_append, h1, h3]
  | cons r rs ih =>
    intro rest g g1 off off1 h
    rw [processStreamR] at h
    rw [List.cons_append, processStreamR]
    rcases himp : importRepoR since g r with ⟨g2, res⟩
    rw [himp] at h
    rcases res with e0 | u
    · dsimp only at h
      injection h with h1 h2
      injection h2 with h3 h4
      simp at h4
    · dsimp only at h ⊢
      exact ih rest g2 g1 (off + 1) off1 h

/-! ## Claim C9 -/

/-- C9: a pass-level quota or communication error never corrupts merged
state. When the serialized worker loop of repos.py `find` aborts with
`HTTPError`, `RateLimitExceededException` or `GithubException`, `find`
catches it and returns the graph exactly as the loop left it (no raise,
`completed` stays false); and every node and edge merged by a cleanly
imported prefix of the pass is still present, unchanged, in the returned
graph. -/
theorem C9_page_error_keeps_state :
    (∀ (g : PGraph) (off : Nat) (lim : Option Nat) (since : Option Nat) (stream : List Repo)
      (g1 : PGraph) (off1 : Nat) (e : ApiErr),
      processStreamR since g off (sliceRepos off lim stream) = (g1, off1, some e) →
      (e = ApiErr.http ∨ e = ApiErr.rateLimit ∨ e = ApiErr.github) →
      findR g off lim since stream = ⟨g1, off1, false, none⟩)
    ∧ (∀ (g : PGraph) (off : Nat) (lim : Option Nat) (since : Option Nat) (stream : List Repo)
      (pre rest : List Repo) (g1 : PGraph) (off1 : Nat),
      Closed g → sliceRepos off lim stream = pre ++ rest →
      processStreamR since g off pre = (g1, off1, none) →
      (∀ p ∈ g1.nodes, p ∈ (findR g off lim since stream).g.nodes)
      ∧ ∀ e2 ∈ g1.edges, e2 ∈ (findR g off lim since stream).g.edges) := by
  constructor
  · intro g off lim since stream g1 off1 e hps hcls
    unfold findR
    rw [hps]
    dsimp only
    rw [if_pos hcls]
  · intro g off lim since stream pre rest g1 off1 hc hslice hpre
    rw [findR_graph, hslice, processStreamR_append since pre rest g g1 off off1 hpre]
    have hc1 : Closed g1 := by
      have := (processStreamR_frame since pre g off hc).2.2
      rw [hpre] at this
      exact this
    obtain ⟨h1, h2, _⟩ := processStreamR_frame since rest g1 off1 hc1
    exact ⟨h1, h2⟩

/-- Witness for C9: the pass `[a/x imports cleanly, b/y hits the rate
limit]` returns the graph with `a/x` and its owner edge intact. -/
theorem C9_page_error_keeps_state_witness :
    findR {} 0 none none [wOkA, wRateR]
      = ⟨(processStreamR none {} 0 [wOkA, wRateR]).1,
          (processStreamR none {} 0 [wOkA, wRateR]).2.1, false, none⟩
    ∧ ((∀ p ∈ (processStreamR none {} 0 [wOkA]).1.nodes,
          p ∈ (findR {} 0 none none [wOkA, wRateR]).g.nodes)
      ∧ ∀ e2 ∈ (processStreamR none {} 0 [wOkA]).1.edges,
          e2 ∈ (findR {} 0 none none [wOkA, wRateR]).g.edges) :=
  ⟨C9_page_error_keeps_state.1 {} 0 none none [wOkA, wRateR]
      (processStreamR none {} 0 [wOkA, wRateR]).1
      (processStreamR none {} 0 [wOkA, wRateR]).2.1 ApiErr.rateLimit rfl
      (Or.inr (Or.inl rfl)),
   C9_page_error_keeps_state.2 {} 0 none none [wOkA, wRateR] [wOkA] [wRateR]
      (processStreamR none {} 0 [wOkA]).1 (processStreamR none {} 0 [wOkA]).2.1
      (by intro e he; simp at he) rfl rfl⟩

theorem enrichR_some_seq {i : String} {U : String → Prop} {R : Option String → Prop}
    (g : PGraph) (t : Nat) (owner : Option Person) (contribs : FetchList Person)
    (commits : FetchList Commit) (hRk : R (some "committer"))
    (hUk : ∀ c ∈ commits.items, ∀ a, c.author = some a → ∀ u, a.login = some u → U u) :
    LinkSeq i U R g (enrichR g (some t) i owner contribs commits).1 := by
  unfold enrichR
  dsimp only
  have hseq := linkAllR_seq (i := i) (U := U) (R := R) (some "committer") hRk
    (commits.items.map (·.author)) g
    (by
      intro x hx p hxp u hu
      obtain ⟨c, hc, hc2⟩ := List.mem_map.1 hx
      exact hUk c hc p (hc2 ▸ hxp) u hu)
  rcases hres : linkAllR i (some "committer") g (commits.items.map (·.author)) with ⟨g2, err⟩
  rw [hres] at hseq
  rw [hres]
  rcases err with _ | e <;> simpa using hseq

theorem enrichR_none_seq {i : String} {U : String → Prop} {R : Option String → Prop}
    (g : PGraph) (owner : Option Person) (contribs : FetchList Person)
    (commits : FetchList Commit)
    (hRo : R (some "owner")) (hRc : R (some "contributor"))
    (hUo : ∀ p, owner = some p → ∀ u, p.login = some u → U u)
    (hUc : ∀ p ∈ contribs.items, ∀ u, p.login = some u → U u) :
    LinkSeq i U R g (enrichR g none i owner contribs commits).1 := by
  rcases owner with _ | o
  · unfold enrichR
    dsimp only
    have hseq := linkAllR_seq (i := i) (U := U) (R := R) (some "contributor") hRc
      (contribs.items.map some) g
      (by
        intro x hx p hxp u hu
        obtain ⟨q, hq, hq2⟩ := List.mem_map.1 hx
        rw [← hq2] at hxp
        injection hxp with he
        exact hUc q hq u (he ▸ hu))
    rcases hres : linkAllR i (some "contributor") g (contribs.items.map some) with ⟨g2, err⟩
    rw [hres] at hseq
    rcases err with _ | e <;> simpa using hseq
  · unfold enrichR
    dsimp only
    have h1 : LinkSeq i U R g (linkUserG g i o.login (some "owner")) :=
      LinkSeq.single _ _ (fun u hu => hUo o rfl u hu) hRo
    have hseq := linkAllR_seq (i := i) (U := U) (R := R) (some "contributor") hRc
      (contribs.items.map some) (linkUserG g i o.login (some "owner"))
      (by
        intro x hx p hxp u hu
        obtain ⟨q, hq, hq2⟩ := List.mem_map.1 hx
        rw [← hq2] at hxp
        injection hxp with he
        exact hUc q hq u (he ▸ hu))
    simp only [linkUserR_some]
    rcases hres : linkAllR i (some "contributor")
        (linkUserG g i o.login (some "owner")) (contribs.items.map some) with ⟨g2, err⟩
    rw [hres] at hseq
    rcases err with _ | e <;> simpa using LinkSeq.trans h1 hseq

theorem linkAllR_map_some (rid : String) (rel : Option String) :
    ∀ (us : List Person) (g : PGraph),
      linkAllR rid rel g (us.map some)
        = (us.foldl (fun gg p => linkUserG gg rid p.login rel) g, none) := by
  intro us
  induction us with
  | nil => intro g; rfl
  | cons p ps ih =>
    intro g
    rw [List.map_cons, linkAllR, linkUserR_some, List.foldl_cons]
    exact ih _

theorem sameEnds_ends (u v : String) (e : String × String × Option String)
    (rel : Option String) : sameEnds u v (e.1, e.2.1, rel) = sameEnds u v e := rfl

theorem linkG_makes_edge (g : PGraph) (rid v : String) (rel : Option String)
    (hrid : g.hasNode rid = true) :
    (linkUserG g rid (some v) rel).edgeBetween v rid rel = true := by
  rw [linkG_eq_some g rid v rel hrid]
  by_cases hu : g.hasNode v = true
  · simp only [hu, if_true]
    by_cases hany : g.edges.any (sameEnds v rid) = true
    · rw [if_pos hany]
      obtain ⟨e0, he0, hse⟩ := List.any_eq_true.1 hany
      unfold PGraph.edgeBetween
      refine List.any_eq_true.2 ⟨(e0.1, e0.2.1, rel), List.mem_map.2 ⟨e0, he0, by rw [if_pos hse]⟩, ?_⟩
      rw [Bool.and_eq_true]
      exact ⟨by rw [sameEnds_ends]; exact hse, by simp⟩
    · rw [if_neg hany]
      unfold PGraph.edgeBetween
      refine List.any_eq_true.2 ⟨(v, rid, rel), List.mem_append_right _ (by simp), ?_⟩
      rw [Bool.and_eq_true]
      exact ⟨by simp [sameEnds], by simp⟩
  · simp only [Bool.not_eq_true] at hu
    simp only [hu, Bool.false_eq_true, if_false]
    have he := addNode_edges g v personAttrs
    by_cases hany : g.edges.any (sameEnds v rid) = true
    · rw [he, if_pos hany]
      obtain ⟨e0, he0, hse⟩ := List.any_eq_true.1 hany
      unfold PGraph.edgeBetween
      refine List.any_eq_true.2 ⟨(e0.1, e0.2.1, rel), List.mem_map.2 ⟨e0, he0, by rw [if_pos hse]⟩, ?_⟩
      rw [Bool.and_eq_true]
      exact ⟨by rw [sameEnds_ends]; exact hse, by simp⟩
    · rw [he, if_neg hany]
      unfold PGraph.edgeBetween
      refine List.any_eq_true.2 ⟨(v, rid, rel), List.mem_append_right _ (by simp), ?_⟩
      rw [Bool.and_eq_true]
      exact ⟨by simp [sameEnds], by simp⟩

theorem sameEnds_same_key {x rid v : String} {e : String × String × Option String}
    (h1 : sameEnds x rid e = true) (h2 : sameEnds v rid e = true) : v = x := by
  simp only [sameEnds, Bool.or_eq_true, Bool.and_eq_true, decide_eq_true_eq] at h1 h2
  rcases h1 with ⟨ha, hb⟩ | ⟨ha, hb⟩ <;> rcases h2 with ⟨hc, hd⟩ | ⟨hc, hd⟩ <;>
    simp_all

theorem linkG_edgeBetween_pres (g : PGraph) (rid x : String) (uid rel r0 : Option String)
    (hrid : g.hasNode rid = true) (hne : ∀ v, uid = some v → v ≠ x)
    (h : g.edgeBetween x rid r0 = true) :
    (linkUserG g rid uid rel).edgeBetween x rid r0 = true := by
  obtain ⟨e0, he0, hb⟩ := List.any_eq_true.1 h
  rw [Bool.and_eq_true] at hb
  rcases linkG_edges_shape g rid uid rel hrid with hs | ⟨v, hv, hs | hs⟩
  · unfold PGraph.edgeBetween
    rw [hs]
    exact List.any_eq_true.2 ⟨e0, he0, by rw [Bool.and_eq_true]; exact hb⟩
  · unfold PGraph.edgeBetween
    rw [hs]
    have hnot : sameEnds v rid e0 = false := by
      rcases hq : sameEnds v rid e0 with _ | _
      · rfl
      · exact absurd (sameEnds_same_key hb.1 hq) (hne v hv)
    refine List.any_eq_true.2 ⟨e0, List.mem_map.2 ⟨e0, he0, by rw [if_neg (by simp [hnot])]⟩, ?_⟩
    rw [Bool.and_eq_true]
    exact hb
  · unfold PGraph.edgeBetween
    rw [hs]
    exact List.any_eq_true.2 ⟨e0, List.mem_append_left _ he0, by rw [Bool.and_eq_true]; exact hb⟩

theorem linkG_edgeBetween_ex (g : PGraph) (rid x : String) (uid rel : Option String)
    (hrid : g.hasNode rid = true)
    (h : ∃ r0, g.edgeBetween x rid r0 = true) :
    ∃ r0, (linkUserG g rid uid rel).edgeBetween x rid r0 = true := by
  obtain ⟨r0, h0⟩ := h
  rcases uid with _ | v
  · exact ⟨r0, h0⟩
  · by_cases hvx : v = x
    · subst hvx
      exact ⟨rel, linkG_makes_edge g rid v rel hrid⟩
    · exact ⟨r0, linkG_edgeBetween_pres g rid x (some v) rel r0 hrid
        (fun v' hv' => by injection hv' with hh; rw [← hh]; exact hvx) h0⟩

theorem linkG_edgeBetween_samerel (g : PGraph) (rid v : String) (uid rel : Option String)
    (hrid : g.hasNode rid = true) (h : g.edgeBetween v rid rel = true) :
    (linkUserG g rid uid rel).edgeBetween v rid rel = true := by
  rcases uid with _ | v'
  · exact h
  · by_cases hvv : v' = v
    · subst hvv
      exact linkG_makes_edge g rid v' rel hrid
    · exact linkG_edgeBetween_pres g rid v (some v') rel rel hrid
        (fun x hx => by injection hx with hh; rw [← hh]; exact hvv) h

theorem foldl_linkG_hasNode {α : Type} (rid : String) (keyf : α → Option String)
    (rel : Option String) :
    ∀ (items : List α) (g : PGraph), g.hasNode rid = true →
      (items.foldl (fun gg x => linkUserG gg rid (keyf x) rel) g).hasNode rid = true := by
  intro items
  induction items with
  | nil => intro g h; exact h
  | cons x xs ih =>
    intro g h
    rw [List.foldl_cons]
    exact ih _ (linkG_hasNode_mono g rid (keyf x) rel h h)

theorem foldl_linkG_edge {α : Type} (rid v : String) (keyf : α → Option String)
    (rel : Option String) :
    ∀ (items : List α) (g : PGraph), g.hasNode rid = true →
      (g.edgeBetween v rid rel = true ∨ ∃ x ∈ items, keyf x = some v) →
      (items.foldl (fun gg x => linkUserG gg rid (keyf x) rel) g).edgeBetween v rid rel
        = true := by
  intro items
  induction items with
  | nil =>
    intro g hrid h
    rcases h with h | ⟨x, hx, _⟩
    · exact h
    · simp at hx
  | cons x xs ih =>
    intro g hrid h
    rw [List.foldl_cons]
    have hrid1 : (linkUserG g rid (keyf x) rel).hasNode rid = true :=
      linkG_hasNode_mono g rid (keyf x) rel hrid hrid
    rcases h with h | ⟨x', hx', hk⟩
    · exact ih _ hrid1 (Or.inl (linkG_edgeBetween_samerel g rid v (keyf x) rel hrid h))
    · rcases List.mem_cons.1 hx' with heq | htail
      · subst heq
        refine ih _ hrid1 (Or.inl ?_)
        rw [hk]
        exact linkG_makes_edge g rid v rel hrid
      · exact ih _ hrid1 (Or.inr ⟨x', htail, hk⟩)

theorem foldl_linkG_edge_pres {α : Type} (rid u : String) (keyf : α → Option String)
    (rel r0 : Option String) :
    ∀ (items : List α) (g : PGraph), g.hasNode rid = true →
      g.edgeBetween u rid r0 = true → (∀ x ∈ items, keyf x ≠ some u) →
      (items.foldl (fun gg x => linkUserG gg rid (keyf x) rel) g).edgeBetween u rid r0
        = true := by
  intro items
  induction items with
  | nil => intro g _ h _; exact h
  | cons x xs ih =>
    intro g hrid h hne
    rw [List.foldl_cons]
    refine ih _ (linkG_hasNode_mono g rid (keyf x) rel hrid hrid) ?_
      (fun y hy => hne y (List.mem_cons_of_mem x hy))
    refine linkG_edgeBetween_pres g rid u (keyf x) rel r0 hrid ?_ h
    intro w hw hwu
    exact hne x (List.mem_cons_self x xs) (by rw [hw, hwu])

theorem foldl_linkG_edge_ex {α : Type} (rid u : String) (keyf : α → Option String)
    (rel : Option String) :
    ∀ (items : List α) (g : PGraph), g.hasNode rid = true →
      (∃ r0, g.edgeBetween u rid r0 = true) →
      ∃ r0, (items.foldl (fun gg x => linkUserG gg rid (keyf x) rel) g).edgeBetween u rid r0
        = true := by
  intro items
  induction items with
  | nil => intro g _ h; exact h
  | cons x xs ih =>
    intro g hrid h
    rw [List.foldl_cons]
    exact ih _ (linkG_hasNode_mono g rid (keyf x) rel hrid hrid)
      (linkG_edgeBetween_ex g rid u (keyf x) rel hrid h)

theorem enrichR_none_eq (g : PGraph) (rid : String) (owner : Option Person)
    (contribs : FetchList Person) (commits : FetchList Commit) :
    enrichR g none rid owner contribs commits
      = (contribs.items.foldl (fun gg p => linkUserG gg rid p.login (some "contributor"))
          (match owner with
            | some o => linkUserG g rid o.login (some "owner")
            | none => g), contribs.err) := by
  unfold enrichR
  rcases owner with _ | o
  · dsimp only
    rw [linkAllR_map_some]
  · dsimp only
    simp only [linkUserR_some]
    rw [linkAllR_map_some]

theorem enrichG_none_eq (g : PGraph) (rid : String) (owner : Option Person)
    (contribs : FetchList Person) (commits : FetchList Commit) :
    enrichG g none rid owner contribs commits
      = (contribs.items.foldl
          (fun gg p => linkUserG gg rid (pyOrS p.login p.email) (some "contributor"))
          (match owner with
            | some o => linkUserG g rid o.login (some "owner")
            | none => g), contribs.err) := by
  unfold enrichG
  rcases owner with _ | o <;> rfl

/-- A clean since-mode enrichment in repos.py is exactly a clean run of the
committer-linking loop. -/
theorem enrichR_some_ok {g gmid : PGraph} {rid : String} {t : Nat}
    {owner : Option Person} {contribs : FetchList Person} {commits : FetchList Commit}
    (h : enrichR g (some t) rid owner contribs commits = (gmid, none)) :
    linkAllR rid (some "committer") g (commits.items.map (·.author)) = (gmid, none) := by
  unfold enrichR at h
  rcases hres : linkAllR rid (some "committer") g (commits.items.map (·.author)) with ⟨g2, err⟩
  rw [hres] at h
  rcases err with _ | e
  · dsimp only at h
    injection h with h1 h2
    rw [hres, h1]
  · dsimp only at h
    injection h with h1 h2
    exact absurd h2 (by simp)

/-- A clean since-mode enrichment in GithubCrawler.py is exactly a clean
run of the committer-linking loop. -/
theorem enrichG_some_ok {g gmid : PGraph} {rid : String} {t : Nat}
    {owner : Option Person} {contribs : FetchList Person} {commits : FetchList Commit}
    (h : enrichG g (some t) rid owner contribs commits = (gmid, none)) :
    linkCommitsG rid g commits.items = (gmid, none) := by
  unfold enrichG at h
  rcases hres : linkCommitsG rid g commits.items with ⟨g2, err⟩
  rw [hres] at h
  rcases err with _ | e
  · dsimp only at h
    injection h with h1 h2
    rw [h1]
  · dsimp only at h
    injection h with h1 h2
    exact absurd h2 (by simp)

/-- A clean run of repos.py's user-linking loop really links every listed
person with a login: the final graph holds an edge of that exact relation
between the person's key and the repository. -/
theorem linkAllR_edge (rid v : String) (rel : Option String) :
    ∀ (items : List (Option Person)) (g g' : PGraph),
      g.hasNode rid = true →
      linkAllR rid rel g items = (g', none) →
      (g.edgeBetween v rid rel = true ∨ ∃ p, some p ∈ items ∧ p.login = some v) →
      g'.edgeBetween v rid rel = true := by
  intro items
  induction items with
  | nil =>
    intro g g' hrid hall h
    injection hall with h1 _
    subst h1
    rcases h with h | ⟨p, hp, _⟩
    · exact h
    · simp at hp
  | cons u us ih =>
    intro g g' hrid hall h
    rcases u with _ | p
    · rw [linkAllR] at hall
      dsimp only [linkUserR] at hall
      injection hall with _ h2
      exact absurd h2 (by simp)
    · rw [linkAllR, linkUserR_some] at hall
      dsimp only at hall
      have hrid1 : (linkUserG g rid p.login rel).hasNode rid = true :=
        linkG_hasNode_mono g rid p.login rel hrid hrid
      refine ih _ _ hrid1 hall ?_
      rcases h with h | ⟨p', hp', hlog⟩
      · exact Or.inl (linkG_edgeBetween_samerel g rid v p.login rel hrid h)
      · rcases List.mem_cons.1 hp' with heq | htail
        · left
          injection heq with he
          rw [he] at hlog
          rw [hlog]
          exact linkG_makes_edge g rid v rel hrid
        · exact Or.inr ⟨p', htail, hlog⟩

/-- A clean run of GithubCrawler.py's commit loop really links every commit
author with a key: the final graph holds a committer edge between the
author's `login or email` key and the repository. -/
theorem linkCommitsG_edge (rid v : String) :
    ∀ (cs : List Commit) (g g' : PGraph),
      g.hasNode rid = true →
      linkCommitsG rid g cs = (g', none) →
      (g.edgeBetween v rid (some "committer") = true
        ∨ ∃ c ∈ cs, ∃ a, c.author = some a ∧ pyOrS a.login a.email = some v) →
      g'.edgeBetween v rid (some "committer") = true := by
  intro cs
  induction cs with
  | nil =>
    intro g g' hrid hall h
    injection hall with h1 _
    subst h1
    rcases h with h | ⟨c, hc, _⟩
    · exact h
    · simp at hc
  | cons c cs ih =>
    intro g g' hrid hall h
    rw [linkCommitsG] at hall
    rcases hauth : c.author with _ | a
    · rw [hauth] at hall
      dsimp only at hall
      injection hall with _ h2
      exact absurd h2 (by simp)
    · rw [hauth] at hall
      dsimp only at hall
      have hrid1 : (linkUserG g rid (pyOrS a.login a.email) (some "committer")).hasNode rid
          = true :=
        linkG_hasNode_mono g rid (pyOrS a.login a.email) (some "committer") hrid hrid
      refine ih _ _ hrid1 hall ?_
      rcases h with h | ⟨c', hc', a', ha', hkey⟩
      · exact Or.inl (linkG_edgeBetween_samerel g rid v (pyOrS a.login a.email)
          (some "committer") hrid h)
      · rcases List.mem_cons.1 hc' with heq | htail
        · subst heq
          rw [hauth] at ha'
          injection ha' with hae
          subst hae
          left
          rw [hkey]
          exact linkG_makes_edge g rid v (some "committer") hrid
        · exact Or.inr ⟨c', htail, a', ha', hkey⟩

/-! ## Claim C7 -/

/-- A repository whose owner login `ann` also appears among the
contributors: the later contributor call overwrites the owner relation. -/
def wOwnC : Repo :=
  .mk (some "r/x") none none false none (some { login := some "ann" })
    { items := [{ login := some "ann" }], err := none } {}

/-- C7 counterexample: "linked to its owner with relation=owner" fails
when the owner key also appears among the contributors. Importing r/x
(owner login ann, one contributor with login ann) succeeds in both
crawlers, but networkx `add_edge` on the existing (ann, r/x) pair
overwrites its attributes, so the single edge ends with relation
`contributor` and no owner-relation edge exists. -/
theorem C7_counterexample :
    (importRepoR none {} wOwnC).2 = Except.ok (some "r/x")
    ∧ (importRepoR none {} wOwnC).1.edgeBetween "ann" "r/x" (some "owner") = false
    ∧ (importRepoR none {} wOwnC).1.edgeBetween "ann" "r/x" (some "contributor") = true
    ∧ (importRepoG none {} wOwnC).2 = Except.ok ()
    ∧ (importRepoG none {} wOwnC).1.edgeBetween "ann" "r/x" (some "owner") = false
    ∧ (importRepoG none {} wOwnC).1.edgeBetween "ann" "r/x" (some "contributor") = true :=
  ⟨rfl, rfl, rfl, rfl, rfl, rfl⟩

/-- C7 (amended): mode switch on `since` in repos.py and GithubCrawler.py
`import_repo` (successful, non-fork, not-rolled-back import). With `since`
set, every added edge is incident to the repository with relation
`committer`, and every commit author with a key (login in repos.py,
login-or-email in GithubCrawler.py) IS linked by a committer edge. With
`since` unset, every added edge carries relation `owner` or `contributor`;
every keyed contributor is linked by an edge whose final relation is
`contributor`; and the keyed owner is linked — with relation `owner` only
when the owner key is not also a contributor key, since the later
contributor call overwrites the shared edge relation to `contributor`
(see the counterexample). -/
theorem C7_mode_switch_amended :
    (∀ (t : Nat) (g : PGraph) (rid : String) (lang : Option String) (w : Option Int)
      (parent : Option Repo) (owner : Option Person) (contribs : FetchList Person)
      (commits : FetchList Commit) (g' : PGraph),
      importRepoR (some t) g (.mk (some rid) lang w false parent owner contribs commits)
          = (g', Except.ok (some rid)) →
      (∀ e ∈ g'.edges, e ∈ g.edges ∨ (incident rid e = true ∧ e.2.2 = some "committer"))
      ∧ (∀ c ∈ commits.items, ∀ a, c.author = some a → ∀ v, a.login = some v →
          g'.edgeBetween v rid (some "committer") = true))
    ∧ (∀ (g : PGraph) (rid : String) (lang : Option String) (w : Option Int)
      (parent : Option Repo) (owner : Option Person) (contribs : FetchList Person)
      (commits : FetchList Commit) (g' : PGraph),
      importRepoR none g (.mk (some rid) lang w false parent owner contribs commits)
          = (g', Except.ok (some rid)) →
      (∀ e ∈ g'.edges, e ∈ g.edges
        ∨ (incident rid e = true ∧ (e.2.2 = some "owner" ∨ e.2.2 = some "contributor")))
      ∧ (∀ p ∈ contribs.items, ∀ v, p.login = some v →
          g'.edgeBetween v rid (some "contributor") = true)
      ∧ (∀ o, owner = some o → ∀ u, o.login = some u →
          (∃ r0, g'.edgeBetween u rid r0 = true)
          ∧ ((∀ p ∈ contribs.items, p.login ≠ some u) →
              g'.edgeBetween u rid (some "owner") = true)))
    ∧ (∀ (t : Nat) (g : PGraph) (rid : String) (lang : Option String) (w : Option Int)
      (parent : Option Repo) (owner : Option Person) (contribs : FetchList Person)
      (commits : FetchList Commit) (g' : PGraph),
      g.hasNode rid = false →
      importRepoG (some t) g (.mk (some rid) lang w false parent owner contribs commits)
          = (g', Except.ok ()) →
      g'.hasNode rid = true →
      (∀ e ∈ g'.edges, e ∈ g.edges ∨ (incident rid e = true ∧ e.2.2 = some "committer"))
      ∧ (∀ c ∈ commits.items, ∀ a, c.author = some a →
          ∀ v, pyOrS a.login a.email = some v →
          g'.edgeBetween v rid (some "committer") = true))
    ∧ (∀ (g : PGraph) (rid : String) (lang : Option String) (w : Option Int)
      (parent : Option Repo) (owner : Option Person) (contribs : FetchList Person)
      (commits : FetchList Commit) (g' : PGraph),
      g.hasNode rid = false →
      importRepoG none g (.mk (some rid) lang w false parent owner contribs commits)
          = (g', Except.ok ()) →
      g'.hasNode rid = true →
      (∀ e ∈ g'.edges, e ∈ g.edges
        ∨ (incident rid e = true ∧ (e.2.2 = some "owner" ∨ e.2.2 = some "contributor")))
      ∧ (∀ p ∈ contribs.items, ∀ v, pyOrS p.login p.email = some v →
          g'.edgeBetween v rid (some "contributor") = true)
      ∧ (∀ o, owner = some o → ∀ u, o.login = some u →
          (∃ r0, g'.edgeBetween u rid r0 = true)
          ∧ ((∀ p ∈ contribs.items, pyOrS p.login p.email ≠ some u) →
              g'.edgeBetween u rid (some "owner") = true))) := by
  refine ⟨?_, ?_, ?_, ?_⟩
  · intro t g rid lang w parent owner contribs commits g' himp
    by_cases hmem : g.hasNode rid = true
    · rw [importRepoR_skip (some t) g rid lang w false parent owner contribs commits hmem]
        at himp
      injection himp with h1 h2
      injection h2 with h3
      simp at h3
    · simp only [Bool.not_eq_true] at hmem
      rw [importRepoR_fresh (some t) g rid lang w parent owner contribs commits hmem] at himp
      rcases finishR_cases (some t) rid owner contribs commits
          (g.addNode rid
            { bipartite := some 0, language := some (langOr lang), weight := some (intOr w) })
          with ⟨gmid, henr, hfin⟩ | ⟨gmid, e0, henr, hfin⟩
      · rw [hfin] at himp
        injection himp with h1 h2
        subst h1
        have hridA : (g.addNode rid
            { bipartite := some 0, language := some (langOr lang),
              weight := some (intOr w) }).hasNode rid = true :=
          hasNode_addNode_self g rid _
        have hall := enrichR_some_ok henr
        constructor
        · have hseq := enrichR_some_seq (i := rid) (U := fun _ => True)
            (R := fun r => r = some "committer")
            (g.addNode rid
              { bipartite := some 0, language := some (langOr lang), weight := some (intOr w) })
            t owner contribs commits rfl (fun _ _ _ _ _ _ => trivial)
          rw [henr] at hseq
          intro e he
          rcases seq_edges_new hseq hridA he with h | ⟨hi, hrel⟩
          · rw [addNode_edges] at h
            exact Or.inl h
          · exact Or.inr ⟨hi, hrel⟩
        · intro c hc a ha v hv
          exact linkAllR_edge rid v (some "committer") (commits.items.map (·.author)) _ _
            hridA hall (Or.inr ⟨a, List.mem_map.2 ⟨c, hc, by rw [ha]⟩, hv⟩)
      · rw [hfin] at himp
        injection himp with h1 h2
        simp at h2
  · intro g rid lang w parent owner contribs commits g' himp
    by_cases hmem : g.hasNode rid = true
    · rw [importRepoR_skip none g rid lang w false parent owner contribs commits hmem] at himp
      injection himp with h1 h2
      injection h2 with h3
      simp at h3
    · simp only [Bool.not_eq_true] at hmem
      rw [importRepoR_fresh none g rid lang w parent owner contribs commits hmem] at himp
      rcases finishR_cases none rid owner contribs commits
          (g.addNode rid
            { bipartite := some 0, language := some (langOr lang), weight := some (intOr w) })
          with ⟨gmid, henr, hfin⟩ | ⟨gmid, e0, henr, hfin⟩
      · rw [hfin] at himp
        injection himp with h1 h2
        subst h1
        have hridA : (g.addNode rid
            { bipartite := some 0, language := some (langOr lang),
              weight := some (intOr w) }).hasNode rid = true :=
          hasNode_addNode_self g rid _
        refine ⟨?_, ?_, ?_⟩
        · have hseq := enrichR_none_seq (i := rid) (U := fun _ => True)
            (R := fun r => r = some "owner" ∨ r = some "contributor")
            (g.addNode rid
              { bipartite := some 0, language := some (langOr lang), weight := some (intOr w) })
            owner contribs commits (Or.inl rfl) (Or.inr rfl)
            (fun _ _ _ _ => trivial) (fun _ _ _ _ => trivial)
          rw [henr] at hseq
          intro e he
          rcases seq_edges_new hseq hridA he with h | ⟨hi, hrel⟩
          · rw [addNode_edges] at h
            exact Or.inl h
          · exact Or.inr ⟨hi, hrel⟩
        all_goals
          have heq := enrichR_none_eq
            (g.addNode rid
              { bipartite := some 0, language := some (langOr lang), weight := some (intOr w) })
            rid owner contribs commits
          rw [heq] at henr
          injection henr with hg hkerr
          have hbase : (match owner with
              | some o => linkUserG (g.addNode rid
                  { bipartite := some 0, language := some (langOr lang),
                    weight := some (intOr w) }) rid o.login (some "owner")
              | none => g.addNode rid
                  { bipartite := some 0, language := some (langOr lang),
                    weight := some (intOr w) }).hasNode rid = true := by
            rcases owner with _ | o
            · exact hridA
            · exact linkG_hasNode_mono _ rid o.login (some "owner") hridA hridA
        · intro p hp v hv
          rw [← hg]
          exact foldl_linkG_edge rid v (fun q : Person => q.login) (some "contributor")
            contribs.items _ hbase (Or.inr ⟨p, hp, hv⟩)
        · intro o ho u hu
          subst ho
          have hmade : (linkUserG (g.addNode rid
              { bipartite := some 0, language := some (langOr lang),
                weight := some (intOr w) }) rid o.login
              (some "owner")).edgeBetween u rid (some "owner") = true := by
            rw [hu]
            exact linkG_makes_edge _ rid u (some "owner") hridA
          constructor
          · rw [← hg]
            exact foldl_linkG_edge_ex rid u (fun q : Person => q.login) (some "contributor")
              contribs.items _ hbase ⟨some "owner", hmade⟩
          · intro hnc
            rw [← hg]
            exact foldl_linkG_edge_pres rid u (fun q : Person => q.login) (some "contributor")
              (some "owner") contribs.items _ hbase hmade
              (fun p hp => hnc p hp)
      · rw [hfin] at himp
        injection himp with h1 h2
        simp at h2
  · intro t g rid lang w parent owner contribs commits g' hmem himp hkept
    rw [importRepoG_fresh (some t) g rid lang w parent owner contribs commits hmem] at himp
    rcases finishG_cases (some t) rid owner contribs commits
        (g.addNode rid
          { bipartite := some 0, language := some (langOr lang), weight := some (intOr w) })
        with ⟨gmid, henr, hfin⟩ | ⟨gmid, henr, hfin⟩ | ⟨gmid, henr, hfin⟩ |
          ⟨gmid, e0, henr, hne1, hne2, hfin⟩
    · rw [hfin] at himp
      injection himp with h1 h2
      subst h1
      have hridA : (g.addNode rid
          { bipartite := some 0, language := some (langOr lang),
            weight := some (intOr w) }).hasNode rid = true :=
        hasNode_addNode_self g rid _
      have hlc := enrichG_some_ok henr
      constructor
      · have hseq := linkCommitsG_seq (i := rid) (U := fun _ => True)
          (R := fun r => r = some "committer") rfl commits.items
          (g.addNode rid
            { bipartite := some 0, language := some (langOr lang), weight := some (intOr w) })
          (fun _ _ _ _ _ _ => trivial)
        rw [hlc] at hseq
        dsimp only at hseq
        intro e he
        rcases seq_edges_new hseq hridA he with h | ⟨hi, hrel⟩
        · rw [addNode_edges] at h
          exact Or.inl h
        · exact Or.inr ⟨hi, hrel⟩
      · intro c hc a ha v hv
        exact linkCommitsG_edge rid v commits.items _ _ hridA hlc
          (Or.inr ⟨c, hc, a, ha, hv⟩)
    · rw [hfin] at himp
      injection himp with h1 h2
      simp at h2
    · rw [hfin] at himp
      injection himp with h1 h2
      rw [← h1, removeNode_hasNode_self] at hkept
      simp at hkept
    · rw [hfin] at himp
      injection himp with h1 h2
      simp at h2
  · intro g rid lang w parent owner contribs commits g' hmem himp hkept
    rw [importRepoG_fresh none g rid lang w parent owner contribs commits hmem] at himp
    rcases finishG_cases none rid owner contribs commits
        (g.addNode rid
          { bipartite := some 0, language := some (langOr lang), weight := some (intOr w) })
        with ⟨gmid, henr, hfin⟩ | ⟨gmid, henr, hfin⟩ | ⟨gmid, henr, hfin⟩ |
          ⟨gmid, e0, henr, hne1, hne2, hfin⟩
    · rw [hfin] at himp
      injection himp with h1 h2
      subst h1
      have hridA : (g.addNode rid
          { bipartite := some 0, language := some (langOr lang),
            weight := some (intOr w) }).hasNode rid = true :=
        hasNode_addNode_self g rid _
      rw [enrichG_none_eq] at henr
      injection henr with hg hkerr
      have hbase : (match owner with
          | some o => linkUserG (g.addNode rid
              { bipartite := some 0, language := some (langOr lang),
                weight := some (intOr w) }) rid o.login (some "owner")
          | none => g.addNode rid
              { bipartite := some 0, language := some (langOr lang),
                weight := some (intOr w) }).hasNode rid = true := by
        rcases owner with _ | o
        · exact hridA
        · exact linkG_hasNode_mono _ rid o.login (some "owner") hridA hridA
      refine ⟨?_, ?_, ?_⟩
      · rcases owner with _ | o
        · have h2s := foldl_linkG_seq (i := rid) (U := fun _ => True)
              (R := fun r => r = some "owner" ∨ r = some "contributor")
              (fun p : Person => pyOrS p.login p.email) (some "contributor") (Or.inr rfl)
              contribs.items
              (g.addNode rid
                { bipartite := some 0, language := some (langOr lang), weight := some (intOr w) })
              (fun _ _ _ _ => trivial)
          have hseq : LinkSeq rid (fun _ => True)
              (fun r => r = some "owner" ∨ r = some "contributor")
              (g.addNode rid
                { bipartite := some 0, language := some (langOr lang), weight := some (intOr w) })
              gmid := by
            rw [← hg]
            exact h2s
          intro e he
          rcases seq_edges_new hseq hridA he with h | ⟨hi, hrel⟩
          · rw [addNode_edges] at h
            exact Or.inl h
          · exact Or.inr ⟨hi, hrel⟩
        · have h1s : LinkSeq rid (fun _ => True)
              (fun r => r = some "owner" ∨ r = some "contributor")
              (g.addNode rid
                { bipartite := some 0, language := some (langOr lang), weight := some (intOr w) })
              (linkUserG (g.addNode rid
                  { bipartite := some 0, language := some (langOr lang),
                    weight := some (intOr w) }) rid o.login (some "owner")) :=
            LinkSeq.single o.login (some "owner") (fun _ _ => trivial) (Or.inl rfl)
          have h2s := foldl_linkG_seq (i := rid) (U := fun _ => True)
              (R := fun r => r = some "owner" ∨ r = some "contributor")
              (fun p : Person => pyOrS p.login p.email) (some "contributor") (Or.inr rfl)
              contribs.items
              (linkUserG (g.addNode rid
                  { bipartite := some 0, language := some (langOr lang),
                    weight := some (intOr w) }) rid o.login (some "owner"))
              (fun _ _ _ _ => trivial)
          have hseq : LinkSeq rid (fun _ => True)
              (fun r => r = some "owner" ∨ r = some "contributor")
              (g.addNode rid
                { bipartite := some 0, language := some (langOr lang), weight := some (intOr w) })
              gmid := by
            rw [← hg]
            exact LinkSeq.trans h1s h2s
          intro e he
          rcases seq_edges_new hseq hridA he with h | ⟨hi, hrel⟩
          · rw [addNode_edges] at h
            exact Or.inl h
          · exact Or.inr ⟨hi, hrel⟩
      · intro p hp v hv
        rw [← hg]
        exact foldl_linkG_edge rid v (fun q : Person => pyOrS q.login q.email)
          (some "contributor") contribs.items _ hbase (Or.inr ⟨p, hp, hv⟩)
      · intro o ho u hu
        subst ho
        have hmade : (linkUserG (g.addNode rid
            { bipartite := some 0, language := some (langOr lang),
              weight := some (intOr w) }) rid o.login
            (some "owner")).edgeBetween u rid (some "owner") = true := by
          rw [hu]
          exact linkG_makes_edge _ rid u (some "owner") hridA
        constructor
        · rw [← hg]
          exact foldl_linkG_edge_ex rid u (fun q : Person => pyOrS q.login q.email)
            (some "contributor") contribs.items _ hbase ⟨some "owner", hmade⟩
        · intro hnc
          rw [← hg]
          exact foldl_linkG_edge_pres rid u (fun q : Person => pyOrS q.login q.email)
            (some "contributor") (some "owner") contribs.items _ hbase hmade
            (fun p hp => hnc p hp)
    · rw [hfin] at himp
      injection himp with h1 h2
      simp at h2
    · rw [hfin] at himp
      injection himp with h1 h2
      rw [← h1, removeNode_hasNode_self] at hkept
      simp at hkept
    · rw [hfin] at himp
      injection himp with h1 h2
      simp at h2

/-- A repository importing cleanly in owner/contributor mode. -/
def wModeN : Repo :=
  .mk (some "m/r") none none false none (some { login := some "own" })
    { items := [{ login := some "bob" }], err := none } {}

/-- A repository importing cleanly in committer mode. -/
def wModeS : Repo :=
  .mk (some "m/r") none none false none (some { login := some "own" })
    {} { items := [{ author := some { login := some "kim" } }], err := none }

/-- Witness for C7 amended at concrete successful imports in both modes,
for both crawlers. -/
theorem C7_mode_switch_amended_witness :
    (∀ e ∈ (importRepoR (some 0) {} wModeS).1.edges,
      e ∈ PGraph.edges {} ∨ (incident "m/r" e = true ∧ e.2.2 = some "committer"))
    ∧ (∀ c ∈ ({ items := [{ author := some { login := some "kim" } }], err := none }
          : FetchList Commit).items,
        ∀ a, c.author = some a → ∀ v, a.login = some v →
        (importRepoR (some 0) {} wModeS).1.edgeBetween v "m/r" (some "committer") = true)
    ∧ ((∀ e ∈ (importRepoR none {} wModeN).1.edges,
        e ∈ PGraph.edges {}
          ∨ (incident "m/r" e = true ∧ (e.2.2 = some "owner" ∨ e.2.2 = some "contributor")))
      ∧ (∀ p ∈ ({ items := [{ login := some "bob" }], err := none } : FetchList Person).items,
          ∀ v, p.login = some v →
          (importRepoR none {} wModeN).1.edgeBetween v "m/r" (some "contributor") = true)
      ∧ (∀ o, (some { login := some "own" } : Option Person) = some o →
          ∀ u, o.login = some u →
          (∃ r0, (importRepoR none {} wModeN).1.edgeBetween u "m/r" r0 = true)
          ∧ ((∀ p ∈ ({ items := [{ login := some "bob" }], err := none }
                : FetchList Person).items, p.login ≠ some u) →
              (importRepoR none {} wModeN).1.edgeBetween u "m/r" (some "owner") = true)))
    ∧ (PGraph.hasNode {} "m/r" = false
      ∧ (importRepoG (some 0) {} wModeS).1.hasNode "m/r" = true
      ∧ (∀ e ∈ (importRepoG (some 0) {} wModeS).1.edges,
          e ∈ PGraph.edges {} ∨ (incident "m/r" e = true ∧ e.2.2 = some "committer"))
      ∧ (∀ c ∈ ({ items := [{ author := some { login := some "kim" } }], err := none }
            : FetchList Commit).items,
          ∀ a, c.author = some a → ∀ v, pyOrS a.login a.email = some v →
          (importRepoG (some 0) {} wModeS).1.edgeBetween v "m/r" (some "committer") = true))
    ∧ (PGraph.hasNode {} "m/r" = false
      ∧ (importRepoG none {} wModeN).1.hasNode "m/r" = true
      ∧ (∀ e ∈ (importRepoG none {} wModeN).1.edges,
          e ∈ PGraph.edges {}
            ∨ (incident "m/r" e = true ∧ (e.2.2 = some "owner" ∨ e.2.2 = some "contributor")))
      ∧ (∀ p ∈ ({ items := [{ login := some "bob" }], err := none } : FetchList Person).items,
          ∀ v, pyOrS p.login p.email = some v →
          (importRepoG none {} wModeN).1.edgeBetween v "m/r" (some "contributor") = true)
      ∧ (∀ o, (some { login := some "own" } : Option Person) = some o →
          ∀ u, o.login = some u →
          (∃ r0, (importRepoG none {} wModeN).1.edgeBetween u "m/r" r0 = true)
          ∧ ((∀ p ∈ ({ items := [{ login := some "bob" }], err := none }
                : FetchList Person).items, pyOrS p.login p.email ≠ some u) →
              (importRepoG none {} wModeN).1.edgeBetween u "m/r" (some "owner") = true))) :=
  ⟨(C7_mode_switch_amended.1 0 {} "m/r" none none none (some { login := some "own" }) {}
      { items := [{ author := some { login := some "kim" } }], err := none }
      (importRepoR (some 0) {} wModeS).1 rfl).1,
   (C7_mode_switch_amended.1 0 {} "m/r" none none none (some { login := some "own" }) {}
      { items := [{ author := some { login := some "kim" } }], err := none }
      (importRepoR (some 0) {} wModeS).1 rfl).2,
   C7_mode_switch_amended.2.1 {} "m/r" none none none (some { login := some "own" })
      { items := [{ login := some "bob" }], err := none } {}
      (importRepoR none {} wModeN).1 rfl,
   ⟨rfl, rfl,
    C7_mode_switch_amended.2.2.1 0 {} "m/r" none none none (some { login := some "own" }) {}
      { items := [{ author := some { login := some "kim" } }], err := none }
      (importRepoG (some 0) {} wModeS).1 rfl rfl rfl⟩,
   ⟨rfl, rfl,
    C7_mode_switch_amended.2.2.2 {} "m/r" none none none (some { login := some "own" })
      { items := [{ login := some "bob" }], err := none } {}
      (importRepoG none {} wModeN).1 rfl rfl rfl⟩⟩

/-! ## Bipartite well-formedness machinery (claim C4) -/

theorem lookup_some_of_hasNode {g : PGraph} {k : String} (h : g.hasNode k = true) :
    ∃ a, g.lookupN k = some a := by
  rcases ho : g.lookupN k with _ | a
  · rw [hasNode_false_of_lookupN_none ho] at h
    exact absurd h (by simp)
  · exact ⟨a, rfl⟩

theorem lookup_congr {g g' : PGraph} (h : g'.nodes = g.nodes) (k : String) :
    g'.lookupN k = g.lookupN k := by
  unfold PGraph.lookupN
  rw [h]

theorem lookup_append_single_ne {g g' : PGraph} {x k : String} {pa : NodeAttrs}
    (h : g'.nodes = g.nodes ++ [(x, pa)]) (hne : k ≠ x) :
    g'.lookupN k = g.lookupN k := by
  unfold PGraph.lookupN
  rw [h]
  rcases ho : g.nodes.find? (fun p => p.1 = k) with _ | b
  · rw [find?_append_none _ _ _ ho, ho]
    have hd : decide (x = k) = false := decide_eq_false (fun hc => hne hc.symm)
    simp [List.find?, hd]
  · rw [find?_append_some _ _ _ ho, ho]

theorem find?_filter_pres {α : Type} (p q : α → Bool)
    (himp : ∀ a, p a = true → q a = true) :
    ∀ (l : List α), (l.filter q).find? p = l.find? p := by
  intro l
  induction l with
  | nil => rfl
  | cons x xs ih =>
    by_cases hp : p x = true
    · rw [List.filter_cons, himp x hp]
      simp only [if_true]
      rw [List.find?_cons_of_pos _ hp, List.find?_cons_of_pos _ hp]
    · rw [List.filter_cons]
      by_cases hq : q x = true
      · simp only [hq, if_true]
        rw [List.find?_cons_of_neg _ (by simpa using hp),
          List.find?_cons_of_neg _ (by simpa using hp)]
        exact ih
      · simp only [hq]
        rw [List.find?_cons_of_neg _ (by simpa using hp)]
        simp only [Bool.false_eq_true, if_false]
        exact ih

theorem lookup_removeNode_ne {g : PGraph} {j k : String} (hne : k ≠ j) :
    (g.removeNode j).lookupN k = g.lookupN k := by
  unfold PGraph.lookupN
  rw [removeNode_nodes]
  rw [find?_filter_pres]
  intro a ha
  simp only [decide_eq_true_eq] at ha
  simp [ha, hne]

theorem lookup_addNode_ne {g : PGraph} {j k : String} (a : NodeAttrs) (hne : k ≠ j) :
    (g.addNode j a).lookupN k = g.lookupN k := by
  unfold PGraph.addNode
  by_cases hj : g.hasNode j = true
  · simp only [hj, if_true]
    unfold PGraph.lookupN
    simp only
    congr 1
    have : ∀ (l : List (String × NodeAttrs)),
        (l.map (fun p => if p.1 = j then (j, a) else p)).find? (fun p => p.1 = k)
          = l.find? (fun p => p.1 = k) := by
      intro l
      induction l with
      | nil => rfl
      | cons x xs ih =>
        rw [List.map_cons]
        by_cases hx : x.1 = j
        · rw [if_pos hx]
          rw [List.find?_cons_of_neg _ (by
              simp only [decide_eq_true_eq]
              exact fun hc => hne hc.symm),
            List.find?_cons_of_neg _ (by
              simp only [decide_eq_true_eq]
              rw [hx]
              exact fun hc => hne hc.symm)]
          exact ih
        · rw [if_neg hx]
          by_cases hk : x.1 = k
          · rw [List.find?_cons_of_pos _ (by simpa using hk),
              List.find?_cons_of_pos _ (by simpa using hk)]
          · rw [List.find?_cons_of_neg _ (by simpa using hk),
              List.find?_cons_of_neg _ (by simpa using hk)]
            exact ih
    exact this g.nodes
  · simp only [Bool.not_eq_true] at hj
    simp only [hj, Bool.false_eq_true, if_false]
    exact lookup_append_single_ne
      (show ({ g with nodes := g.nodes ++ [(j, a)] } : PGraph).nodes = g.nodes ++ [(j, a)] from rfl)
      hne

theorem edgeOk_elim {g : PGraph} {e : String × String × Option String}
    (h : edgeOk g e = true) :
    ∃ a b, g.lookupN e.1 = some a ∧ g.lookupN e.2.1 = some b
      ∧ ((a.bipartite = some 0 ∧ b.bipartite = some 1)
        ∨ (a.bipartite = some 1 ∧ b.bipartite = some 0)) := by
  unfold edgeOk at h
  rcases h1 : g.lookupN e.1 with _ | a <;> rcases h2 : g.lookupN e.2.1 with _ | b <;>
    rw [h1, h2] at h
  · simp at h
  · simp at h
  · simp at h
  · refine ⟨a, b, rfl, rfl, ?_⟩
    simp only [Bool.or_eq_true, Bool.and_eq_true, beq_iff_eq] at h
    exact h

theorem edgeOk_intro {g : PGraph} {e : String × String × Option String}
    {a b : NodeAttrs} (h1 : g.lookupN e.1 = some a) (h2 : g.lookupN e.2.1 = some b)
    (h : (a.bipartite = some 0 ∧ b.bipartite = some 1)
      ∨ (a.bipartite = some 1 ∧ b.bipartite = some 0)) : edgeOk g e = true := by
  unfold edgeOk
  rw [h1, h2]
  simp only [Bool.or_eq_true, Bool.and_eq_true, beq_iff_eq]
  exact h

theorem edgeOk_congr {g g' : PGraph} {e : String × String × Option String}
    (h1 : g'.lookupN e.1 = g.lookupN e.1) (h2 : g'.lookupN e.2.1 = g.lookupN e.2.1) :
    edgeOk g' e = edgeOk g e := by
  unfold edgeOk
  rw [h1, h2]

theorem edgeOk_rel (g : PGraph) (u v : String) (r1 r2 : Option String) :
    edgeOk g (u, v, r1) = edgeOk g (u, v, r2) := rfl

theorem linkG_freshOrPerson {g : PGraph} {rid : String} (uid rel : Option String)
    (hrid : g.hasNode rid = true) {k : String} (hk : freshOrPerson g k) :
    freshOrPerson (linkUserG g rid uid rel) k := by
  rcases linkG_nodes_shape g rid uid rel hrid with hs | ⟨u, _, hufresh, hne, hs⟩
  · unfold freshOrPerson at hk ⊢
    rw [lookup_congr hs k]
    exact hk
  · by_cases hku : k = u
    · subst hku
      right
      rw [lookup_append_fresh hufresh hs]
      rfl
    · unfold freshOrPerson at hk ⊢
      rw [lookup_append_single_ne hs hku]
      exact hk

theorem linkG_wf {g : PGraph} {rid : String} {a0 : NodeAttrs} (uid rel : Option String)
    (hwf : WFBip g) (hrid : g.lookupN rid = some a0) (hb : a0.bipartite = some 0)
    (hu : ∀ u, uid = some u → freshOrPerson g u) :
    WFBip (linkUserG g rid uid rel)
    ∧ ∀ k a, (linkUserG g rid uid rel).lookupN k = some a →
        g.lookupN k = some a ∨ (uid = some k ∧ a = personAttrs) := by
  rcases uid with _ | u
  · exact ⟨hwf, fun k a h => Or.inl h⟩
  · have hridB : g.hasNode rid = true := hasNode_of_mem (lookup_mem hrid)
    have hpres : ∀ {k : String} {a : NodeAttrs}, g.lookupN k = some a →
        (linkUserG g rid (some u) rel).lookupN k = some a :=
      fun hk => linkG_lookup_pres g rid (some u) rel hridB hk
    have hrid' : (linkUserG g rid (some u) rel).lookupN rid = some a0 := hpres hrid
    have huid' : ∃ au, (linkUserG g rid (some u) rel).lookupN u = some au
        ∧ au.bipartite = some 1 := by
      rcases hu u rfl with hfp | hfp
      · have hnone : g.lookupN u = none := by
          rcases ho : g.lookupN u with _ | au
          · rfl
          · rw [ho] at hfp; simp at hfp
        have hfalse : g.hasNode u = false := hasNode_false_of_lookupN_none hnone
        rcases linkG_nodes_shape g rid (some u) rel hridB with hs | ⟨x, hx, hxf, hxne, hs⟩
        · exfalso
          have h1 := linkG_hasNode_uid g rid u rel hridB
          have h2 : (linkUserG g rid (some u) rel).hasNode u = g.hasNode u := by
            unfold PGraph.hasNode
            rw [hs]
          rw [h2, hfalse] at h1
          exact absurd h1 (by simp)
        · have hxu : x = u := by injection hx with hh; exact hh.symm
          subst hxu
          exact ⟨personAttrs, lookup_append_fresh hxf hs, rfl⟩
      · obtain ⟨au, hau⟩ : ∃ au, g.lookupN u = some au := by
          rcases ho : g.lookupN u with _ | au
          · rw [ho] at hfp; simp at hfp
          · exact ⟨au, rfl⟩
        refine ⟨au, hpres hau, ?_⟩
        rw [hau] at hfp
        simpa using hfp
    obtain ⟨au, hau', hau1⟩ := huid'
    constructor
    · constructor
      · intro p hp
        rcases linkG_nodes_shape g rid (some u) rel hridB with hs | ⟨x, hx, hxf, hxne, hs⟩
        · rw [hs] at hp
          exact hwf.1 p hp
        · rw [hs] at hp
          rcases List.mem_append.1 hp with h1 | h1
          · exact hwf.1 p h1
          · have : p = (x, personAttrs) := by simpa using h1
            rw [this]
            exact Or.inr rfl
      · intro e he
        rcases linkG_edges_shape g rid (some u) rel hridB with hs | ⟨x, hx, hs | hs⟩
        · rw [hs] at he
          obtain ⟨a, b, ha, hbb, hor⟩ := edgeOk_elim (hwf.2 e he)
          exact edgeOk_intro (hpres ha) (hpres hbb) hor
        · rw [hs] at he
          obtain ⟨e0, he0, hmap⟩ := List.mem_map.1 he
          obtain ⟨a, b, ha, hbb, hor⟩ := edgeOk_elim (hwf.2 e0 he0)
          have hends : e.1 = e0.1 ∧ e.2.1 = e0.2.1 := by
            by_cases hse : sameEnds x rid e0 = true
            · rw [if_pos hse] at hmap; rw [← hmap]; exact ⟨rfl, rfl⟩
            · rw [if_neg hse] at hmap; rw [← hmap]; exact ⟨rfl, rfl⟩
          refine edgeOk_intro (a := a) (b := b) ?_ ?_ hor
          · rw [hends.1]; exact hpres ha
          · rw [hends.2]; exact hpres hbb
        · rw [hs] at he
          rcases List.mem_append.1 he with h1 | h1
          · obtain ⟨a, b, ha, hbb, hor⟩ := edgeOk_elim (hwf.2 e h1)
            exact edgeOk_intro (hpres ha) (hpres hbb) hor
          · have hxu : x = u := by injection hx with hh; exact hh.symm
            have he' : e = (x, rid, rel) := by simpa using h1
            rw [he', hxu]
            exact edgeOk_intro (e := (u, rid, rel)) hau' hrid' (Or.inr ⟨hau1, hb⟩)
    · intro k a hka
      rcases linkG_nodes_shape g rid (some u) rel hridB with hs | ⟨x, hx, hxf, hxne, hs⟩
      · rw [lookup_congr hs k] at hka
        exact Or.inl hka
      · rcases lookup_append_cases hs hka with h1 | ⟨h1, h2⟩
        · exact Or.inl h1
        · have hxu : x = u := by injection hx with hh; exact hh.symm
          subst hxu
          subst h1
          exact Or.inr ⟨rfl, h2⟩

theorem seq_wf {rid : String} {U : String → Prop} {R : Option String → Prop}
    {g g' : PGraph} (hseq : LinkSeq rid U R g g') :
    ∀ (a0 : NodeAttrs), WFBip g → g.lookupN rid = some a0 → a0.bipartite = some 0 →
    (∀ u, U u → freshOrPerson g u) →
    WFBip g' ∧ ∀ k a, g'.lookupN k = some a →
        g.lookupN k = some a ∨ (U k ∧ a = personAttrs) := by
  induction hseq with
  | refl g => intro a0 hwf _ _ _; exact ⟨hwf, fun k a h => Or.inl h⟩
  | step g uid rel gz hU hR htail ih =>
    intro a0 hwf hrid hb hfp
    obtain ⟨hwf1, hprov1⟩ := linkG_wf uid rel hwf hrid hb (fun u hu => hfp u (hU u hu))
    have hridB : g.hasNode rid = true := hasNode_of_mem (lookup_mem hrid)
    have hrid1 : (linkUserG g rid uid rel).lookupN rid = some a0 :=
      linkG_lookup_pres g rid uid rel hridB hrid
    have hfp1 : ∀ u, U u → freshOrPerson (linkUserG g rid uid rel) u :=
      fun u hu => linkG_freshOrPerson uid rel hridB (hfp u hu)
    obtain ⟨hwfz, hprovz⟩ := ih a0 hwf1 hrid1 hb hfp1
    refine ⟨hwfz, ?_⟩
    intro k a hka
    rcases hprovz k a hka with h1 | h1
    · rcases hprov1 k a h1 with h2 | ⟨h2, h3⟩
      · exact Or.inl h2
      · exact Or.inr ⟨hU k h2, h3⟩
    · exact Or.inr h1

theorem wf_removeNode {g : PGraph} {j : String} (hwf : WFBip g) :
    WFBip (g.removeNode j) := by
  constructor
  · intro p hp
    rw [removeNode_nodes] at hp
    exact hwf.1 p (List.mem_filter.1 hp).1
  · intro e he
    rw [removeNode_edges] at he
    obtain ⟨hmem, hni⟩ := List.mem_filter.1 he
    have hni' : incident j e = false := by
      rcases hi : incident j e with _ | _
      · rfl
      · simp [hi] at hni
    simp only [incident, Bool.or_eq_false_iff, decide_eq_false_iff_not] at hni'
    obtain ⟨a, b, ha, hbb, hor⟩ := edgeOk_elim (hwf.2 e hmem)
    refine edgeOk_intro (a := a) (b := b) ?_ ?_ hor
    · rw [lookup_removeNode_ne hni'.1]; exact ha
    · rw [lookup_removeNode_ne hni'.2]; exact hbb

theorem lookup_removeNode_some {g : PGraph} {j k : String} {a : NodeAttrs}
    (h : (g.removeNode j).lookupN k = some a) : g.lookupN k = some a := by
  by_cases hkj : k = j
  · subst hkj
    have := removeNode_hasNode_self g k
    have hn := lookup_some_of_hasNode (g := g.removeNode k) (k := k)
    rcases ho : (g.removeNode k).lookupN k with _ | b
    · rw [ho] at h; simp at h
    · have : (g.removeNode k).hasNode k = true :=
        hasNode_of_mem (lookup_mem ho)
      rw [removeNode_hasNode_self g k] at this
      exact absurd this (by simp)
  · rw [lookup_removeNode_ne hkj] at h
    exact h

theorem lookup_addNode_cases {g : PGraph} {rid k : String} {a att : NodeAttrs}
    (hfresh : g.hasNode rid = false)
    (h : (g.addNode rid att).lookupN k = some a) :
    g.lookupN k = some a ∨ (k = rid ∧ a = att) :=
  lookup_append_cases (addNode_fresh_nodes att hfresh) h

theorem repoNames_head (rid : String) (lang : Option String) (w : Option Int) (fork : Bool)
    (parent : Option Repo) (owner : Option Person) (contribs : FetchList Person)
    (commits : FetchList Commit) :
    rid ∈ repoNames (.mk (some rid) lang w fork parent owner contribs commits) := by
  rw [repoNames.eq_def]
  dsimp only
  exact List.mem_append_left _ (by simp)

theorem repoNames_parent_sub {p : Repo} (rid : Option String) (lang : Option String)
    (w : Option Int) (owner : Option Person) (contribs : FetchList Person)
    (commits : FetchList Commit) :
    ∀ k ∈ repoNames p, k ∈ repoNames (.mk rid lang w true (some p) owner contribs commits) := by
  intro k hk
  rw [repoNames.eq_def]
  dsimp only
  exact List.mem_append_right _ hk

theorem collectG_owner {o : Person} {u : String} (lang : Option String) (w : Option Int)
    (fn : Option String) (fork : Bool) (parent : Option Repo)
    (contribs : FetchList Person) (commits : FetchList Commit)
    (hu : o.login = some u) :
    u ∈ collectPersonKeysG (.mk fn lang w fork parent (some o) contribs commits) := by
  rw [collectPersonKeysG.eq_def]
  dsimp only
  refine List.mem_append_left _ (List.mem_append_left _ (List.mem_append_left _ ?_))
  rw [hu]
  simp

theorem collectG_contrib {p : Person} {u : String} (lang : Option String) (w : Option Int)
    (fn : Option String) (fork : Bool) (parent : Option Repo) (owner : Option Person)
    (contribs : FetchList Person) (commits : FetchList Commit)
    (hp : p ∈ contribs.items) (hu : pyOrS p.login p.email = some u) :
    u ∈ collectPersonKeysG (.mk fn lang w fork parent owner contribs commits) := by
  rw [collectPersonKeysG.eq_def]
  dsimp only
  refine List.mem_append_left _ (List.mem_append_left _ (List.mem_append_right _ ?_))
  exact List.mem_filterMap.2 ⟨p, hp, hu⟩

theorem collectG_commit {c : Commit} {a : Person} {u : String} (lang : Option String)
    (w : Option Int) (fn : Option String) (fork : Bool) (parent : Option Repo)
    (owner : Option Person) (contribs : FetchList Person) (commits : FetchList Commit)
    (hc : c ∈ commits.items) (ha : c.author = some a)
    (hu : pyOrS a.login a.email = some u) :
    u ∈ collectPersonKeysG (.mk fn lang w fork parent owner contribs commits) := by
  rw [collectPersonKeysG.eq_def]
  dsimp only
  refine List.mem_append_left _ (List.mem_append_right _ ?_)
  refine List.mem_filterMap.2 ⟨c, hc, ?_⟩
  rw [ha]
  exact hu

theorem collectG_parent_sub {p : Repo} (fn : Option String) (lang : Option String)
    (w : Option Int) (owner : Option Person) (contribs : FetchList Person)
    (commits : FetchList Commit) :
    ∀ k ∈ collectPersonKeysG p,
      k ∈ collectPersonKeysG (.mk fn lang w true (some p) owner contribs commits) := by
  intro k hk
  rw [collectPersonKeysG.eq_def]
  dsimp only
  exact List.mem_append_right _ hk

/-- The identity keys GithubCrawler.py may link for one repository itself
(owner, contributors, commit authors), without the fork parent's keys. -/
def directKeysG (owner : Option Person) (contribs : FetchList Person)
    (commits : FetchList Commit) : List String :=
  (match owner with | some o => o.login.toList | none => [])
    ++ contribs.items.filterMap (fun p => pyOrS p.login p.email)
    ++ commits.items.filterMap (fun c => match c.author with
        | some a => pyOrS a.login a.email
        | none => none)

theorem collect_eq_direct (fn : Option String) (lang : Option String) (w : Option Int)
    (fork : Bool) (parent : Option Repo) (owner : Option Person)
    (contribs : FetchList Person) (commits : FetchList Commit) :
    collectPersonKeysG (.mk fn lang w fork parent owner contribs commits)
      = directKeysG owner contribs commits
        ++ (match parent, fork with
            | some p, true => collectPersonKeysG p
            | _, _ => []) := by
  rw [collectPersonKeysG.eq_def]
  dsimp only
  unfold directKeysG
  simp [List.append_assoc]

theorem directKeys_owner {o : Person} {u : String} (contribs : FetchList Person)
    (commits : FetchList Commit) (hu : o.login = some u) :
    u ∈ directKeysG (some o) contribs commits := by
  unfold directKeysG
  dsimp only
  refine List.mem_append_left _ (List.mem_append_left _ ?_)
  rw [hu]
  simp

theorem directKeys_contrib {p : Person} {u : String} (owner : Option Person)
    (contribs : FetchList Person) (commits : FetchList Commit)
    (hp : p ∈ contribs.items) (hu : pyOrS p.login p.email = some u) :
    u ∈ directKeysG owner contribs commits := by
  unfold directKeysG
  refine List.mem_append_left _ (List.mem_append_right _ ?_)
  exact List.mem_filterMap.2 ⟨p, hp, hu⟩

theorem directKeys_commit {c : Commit} {a : Person} {u : String} (owner : Option Person)
    (contribs : FetchList Person) (commits : FetchList Commit)
    (hc : c ∈ commits.items) (ha : c.author = some a)
    (hu : pyOrS a.login a.email = some u) :
    u ∈ directKeysG owner contribs commits := by
  unfold directKeysG
  refine List.mem_append_right _ ?_
  refine List.mem_filterMap.2 ⟨c, hc, ?_⟩
  rw [ha]
  exact hu

theorem finishG_wf (since : Option Nat) (rid : String) (owner : Option Person)
    (contribs : FetchList Person) (commits : FetchList Commit) (g2 : PGraph)
    (att : NodeAttrs) (hwf2 : WFBip g2) (hrid2 : g2.lookupN rid = some att)
    (hatt : att.bipartite = some 0)
    (hfp : ∀ u ∈ directKeysG owner contribs commits, freshOrPerson g2 u) :
    WFBip (finishG since rid owner contribs commits g2).1
    ∧ (∀ k a, (finishG since rid owner contribs commits g2).1.lookupN k = some a →
        g2.lookupN k = some a ∨ (k ∈ directKeysG owner contribs commits ∧ a = personAttrs))
    ∧ (∀ k a, k ≠ rid → g2.lookupN k = some a →
        (finishG since rid owner contribs commits g2).1.lookupN k = some a) := by
  have hseq := enrichG_seq (i := rid) (U := fun u => u ∈ directKeysG owner contribs commits)
    (R := fun _ => True) g2 since owner contribs commits trivial trivial trivial
    (fun p hp u hu => by rw [hp]; exact directKeys_owner contribs commits hu)
    (fun p hp u hu => directKeys_contrib owner contribs commits hp hu)
    (fun c hc a ha u hu => directKeys_commit owner contribs commits hc ha hu)
  have hridB : g2.hasNode rid = true := hasNode_of_mem (lookup_mem hrid2)
  obtain ⟨hwfE, hprovE⟩ := seq_wf hseq att hwf2 hrid2 hatt hfp
  have hpresE : ∀ k a, g2.lookupN k = some a →
      (enrichG g2 since rid owner contribs commits).1.lookupN k = some a :=
    fun k a hk => seq_lookup_pres hseq hridB hk
  rcases finishG_cases since rid owner contribs commits g2 with
    ⟨gmid, henr, hfin⟩ | ⟨gmid, henr, hfin⟩ | ⟨gmid, henr, hfin⟩ |
    ⟨gmid, e0, henr, _, _, hfin⟩
  · rw [hfin]
    rw [henr] at hwfE hprovE hpresE
    exact ⟨hwfE, hprovE, fun k a _ hk => hpresE k a hk⟩
  · rw [hfin]
    rw [henr] at hwfE hprovE hpresE
    refine ⟨wf_removeNode hwfE, ?_, ?_⟩
    · intro k a hk
      exact hprovE k a (lookup_removeNode_some hk)
    · intro k a hne hk
      rw [lookup_removeNode_ne hne]
      exact hpresE k a hk
  · rw [hfin]
    rw [henr] at hwfE hprovE hpresE
    refine ⟨wf_removeNode hwfE, ?_, ?_⟩
    · intro k a hk
      exact hprovE k a (lookup_removeNode_some hk)
    · intro k a hne hk
      rw [lookup_removeNode_ne hne]
      exact hpresE k a hk
  · rw [hfin]
    rw [henr] at hwfE hprovE hpresE
    exact ⟨hwfE, hprovE, fun k a _ hk => hpresE k a hk⟩

/-- The attributes both crawlers give a newly inserted repository node. -/
def repoAttrs (lang : Option String) (w : Option Int) : NodeAttrs :=
  { bipartite := some 0, language := some (langOr lang), weight := some (intOr w) }

theorem wf_addNode_fresh {g : PGraph} {rid : String} {att : NodeAttrs}
    (hwf : WFBip g) (hfresh : g.hasNode rid = false)
    (hb : att.bipartite = some 0 ∨ att.bipartite = some 1) :
    WFBip (g.addNode rid att) := by
  have hn := addNode_fresh_nodes att hfresh
  constructor
  · intro p hp
    rw [hn] at hp
    rcases List.mem_append.1 hp with hp | hp
    · exact hwf.1 p hp
    · simp only [List.mem_singleton] at hp
      subst hp
      exact hb
  · intro e he
    rw [addNode_edges] at he
    have hok := hwf.2 e he
    obtain ⟨a, b, h1, h2, _⟩ := edgeOk_elim hok
    have hne1 : e.1 ≠ rid := by
      intro hx
      rw [hx, lookupN_none_of_hasNode_false hfresh] at h1
      exact absurd h1 (by simp)
    have hne2 : e.2.1 ≠ rid := by
      intro hx
      rw [hx, lookupN_none_of_hasNode_false hfresh] at h2
      exact absurd h2 (by simp)
    rw [edgeOk_congr (lookup_addNode_ne att hne1) (lookup_addNode_ne att hne2)]
    exact hok

theorem freshOrPerson_addNode_ne {g : PGraph} {rid k : String} (att : NodeAttrs)
    (hne : k ≠ rid) (h : freshOrPerson g k) : freshOrPerson (g.addNode rid att) k := by
  unfold freshOrPerson at h ⊢
  rw [lookup_addNode_ne att hne]
  exact h

theorem importRepoG_fresh2 (since : Option Nat) (g : PGraph) (rid : String)
    (lang : Option String) (w : Option Int) (parent : Option Repo)
    (owner : Option Person) (contribs : FetchList Person) (commits : FetchList Commit)
    (hfresh : g.hasNode rid = false) :
    importRepoG since g (.mk (some rid) lang w false parent owner contribs commits)
      = finishG since rid owner contribs commits (g.addNode rid (repoAttrs lang w)) :=
  importRepoG_fresh since g rid lang w parent owner contribs commits hfresh

theorem importRepoG_fresh_noparent (since : Option Nat) (g : PGraph) (rid : String)
    (lang : Option String) (w : Option Int) (fork : Bool)
    (owner : Option Person) (contribs : FetchList Person) (commits : FetchList Commit)
    (hfresh : g.hasNode rid = false) :
    importRepoG since g (.mk (some rid) lang w fork none owner contribs commits)
      = finishG since rid owner contribs commits (g.addNode rid (repoAttrs lang w)) := by
  unfold importRepoG
  rcases fork <;> simp [hfresh] <;> rfl

theorem importRepoG_fresh_rec (since : Option Nat) (g : PGraph) (rid : String)
    (lang : Option String) (w : Option Int) (p : Repo)
    (owner : Option Person) (contribs : FetchList Person) (commits : FetchList Commit)
    (hfresh : g.hasNode rid = false) :
    importRepoG since g (.mk (some rid) lang w true (some p) owner contribs commits)
      = (match importRepoG since (g.addNode rid (repoAttrs lang w)) p with
         | (g2, .error e) => (g2, .error e)
         | (g2, .ok _) => finishG since rid owner contribs commits g2) := by
  conv_lhs => rw [importRepoG.eq_def]
  simp [hfresh]
  rfl

/-- Recursive well-formedness of one GithubCrawler.py import: starting from
a bipartite graph in which every person key the repository can link is
fresh or already a person and is distinct from every repository key it can
add, the graph after `import_repo` is bipartite again, every new node is a
bipartite-0 node keyed by one of the repo names or a bipartite-1 person
node keyed by one of the person keys, and all old nodes survive. -/
theorem importG_wf (since : Option Nat) :
    ∀ (g : PGraph) (r : Repo),
      WFBip g →
      (∀ k ∈ collectPersonKeysG r, freshOrPerson g k ∧ k ∉ repoNames r) →
      WFBip (importRepoG since g r).1
      ∧ (∀ k a, (importRepoG since g r).1.lookupN k = some a →
          g.lookupN k = some a
          ∨ (a.bipartite = some 0 ∧ k ∈ repoNames r)
          ∨ (a.bipartite = some 1 ∧ k ∈ collectPersonKeysG r))
      ∧ (∀ k a, g.lookupN k = some a → (importRepoG since g r).1.lookupN k = some a)
  | g, .mk fn lang w fork parent owner contribs commits => by
    intro hwf hkeys
    rcases fn with _ | rid
    · exact ⟨hwf, fun k a h => Or.inl h, fun k a h => h⟩
    · by_cases hmem : g.hasNode rid = true
      · rw [importRepoG_skip since g rid lang w fork parent owner contribs commits hmem]
        exact ⟨hwf, fun k a h => Or.inl h, fun k a h => h⟩
      · simp only [Bool.not_eq_true] at hmem
        have hA : (g.addNode rid (repoAttrs lang w)).lookupN rid = some (repoAttrs lang w) :=
          lookup_append_fresh hmem (addNode_fresh_nodes _ hmem)
        have hwfA : WFBip (g.addNode rid (repoAttrs lang w)) :=
          wf_addNode_fresh hwf hmem (Or.inl rfl)
        have hgne : ∀ k (a : NodeAttrs), g.lookupN k = some a → k ≠ rid := by
          intro k a hk hx
          rw [hx, lookupN_none_of_hasNode_false hmem] at hk
          exact absurd hk (by simp)
        rcases parent with _ | p
        · rw [importRepoG_fresh_noparent since g rid lang w fork owner contribs commits hmem]
          have hdirsub : ∀ u ∈ directKeysG owner contribs commits,
              u ∈ collectPersonKeysG (.mk (some rid) lang w fork none owner contribs commits) := by
            intro u hu
            rw [collect_eq_direct]
            exact List.mem_append_left _ hu
          have hfpA : ∀ u ∈ directKeysG owner contribs commits,
              freshOrPerson (g.addNode rid (repoAttrs lang w)) u := by
            intro u hu
            obtain ⟨hf, hnr⟩ := hkeys u (hdirsub u hu)
            have hne : u ≠ rid := fun hx => hnr (by
              rw [hx]
              exact repoNames_head rid lang w fork none owner contribs commits)
            exact freshOrPerson_addNode_ne _ hne hf
          obtain ⟨hwfF, hprovF, hpresF⟩ :=
            finishG_wf since rid owner contribs commits _ (repoAttrs lang w) hwfA hA rfl hfpA
          refine ⟨hwfF, ?_, ?_⟩
          · intro k a hk
            rcases hprovF k a hk with hk2 | ⟨hkd, hka⟩
            · rcases lookup_addNode_cases hmem hk2 with hk3 | ⟨hkr, hka⟩
              · exact Or.inl hk3
              · subst hkr
                subst hka
                exact Or.inr (Or.inl ⟨rfl,
                  repoNames_head k lang w fork none owner contribs commits⟩)
            · subst hka
              exact Or.inr (Or.inr ⟨rfl, hdirsub k hkd⟩)
          · intro k a hk
            have hne : k ≠ rid := hgne k a hk
            refine hpresF k a hne ?_
            rw [lookup_addNode_ne _ hne]
            exact hk
        · rcases fork with _ | _
          · rw [importRepoG_fresh2 since g rid lang w (some p) owner contribs commits hmem]
            have hdirsub : ∀ u ∈ directKeysG owner contribs commits,
                u ∈ collectPersonKeysG (.mk (some rid) lang w false (some p) owner contribs commits) := by
              intro u hu
              rw [collect_eq_direct]
              exact List.mem_append_left _ hu
            have hfpA : ∀ u ∈ directKeysG owner contribs commits,
                freshOrPerson (g.addNode rid (repoAttrs lang w)) u := by
              intro u hu
              obtain ⟨hf, hnr⟩ := hkeys u (hdirsub u hu)
              have hne : u ≠ rid := fun hx => hnr (by
                rw [hx]
                exact repoNames_head rid lang w false (some p) owner contribs commits)
              exact freshOrPerson_addNode_ne _ hne hf
            obtain ⟨hwfF, hprovF, hpresF⟩ :=
              finishG_wf since rid owner contribs commits _ (repoAttrs lang w) hwfA hA rfl hfpA
            refine ⟨hwfF, ?_, ?_⟩
            · intro k a hk
              rcases hprovF k a hk with hk2 | ⟨hkd, hka⟩
              · rcases lookup_addNode_cases hmem hk2 with hk3 | ⟨hkr, hka⟩
                · exact Or.inl hk3
                · subst hkr
                  subst hka
                  exact Or.inr (Or.inl ⟨rfl,
                    repoNames_head k lang w false (some p) owner contribs commits⟩)
              · subst hka
                exact Or.inr (Or.inr ⟨rfl, hdirsub k hkd⟩)
            · intro k a hk
              have hne : k ≠ rid := hgne k a hk
              refine hpresF k a hne ?_
              rw [lookup_addNode_ne _ hne]
              exact hk
          · rw [importRepoG_fresh_rec since g rid lang w p owner contribs commits hmem]
            have hdirsub : ∀ u ∈ directKeysG owner contribs commits,
                u ∈ collectPersonKeysG (.mk (some rid) lang w true (some p) owner contribs commits) := by
              intro u hu
              rw [collect_eq_direct]
              exact List.mem_append_left _ hu
            have hkeysP : ∀ k ∈ collectPersonKeysG p,
                freshOrPerson (g.addNode rid (repoAttrs lang w)) k ∧ k ∉ repoNames p := by
              intro k hk
              obtain ⟨hf, hnr⟩ :=
                hkeys k (collectG_parent_sub (some rid) lang w owner contribs commits k hk)
              have hne : k ≠ rid := fun hx => hnr (by
                rw [hx]
                exact repoNames_head rid lang w true (some p) owner contribs commits)
              refine ⟨freshOrPerson_addNode_ne _ hne hf, fun hx => hnr ?_⟩
              exact repoNames_parent_sub (some rid) lang w owner contribs commits k hx
            obtain ⟨hwf2, hprov2, hpres2⟩ :=
              importG_wf since (g.addNode rid (repoAttrs lang w)) p hwfA hkeysP
            rcases hp : importRepoG since (g.addNode rid (repoAttrs lang w)) p with ⟨g2, res⟩
            rw [hp] at hwf2 hprov2 hpres2
            dsimp only at hwf2 hprov2 hpres2
            have hprovUp : ∀ k a, g2.lookupN k = some a →
                g.lookupN k = some a
                ∨ (a.bipartite = some 0
                    ∧ k ∈ repoNames (.mk (some rid) lang w true (some p) owner contribs commits))
                ∨ (a.bipartite = some 1
                    ∧ k ∈ collectPersonKeysG (.mk (some rid) lang w true (some p) owner contribs commits)) := by
              intro k a hk
              rcases hprov2 k a hk with hk2 | ⟨hb0, hrp⟩ | ⟨hb1, hcp⟩
              · rcases lookup_addNode_cases hmem hk2 with hk3 | ⟨hkr, hka⟩
                · exact Or.inl hk3
                · subst hkr
                  subst hka
                  exact Or.inr (Or.inl ⟨rfl,
                    repoNames_head k lang w true (some p) owner contribs commits⟩)
              · exact Or.inr (Or.inl ⟨hb0,
                  repoNames_parent_sub (some rid) lang w owner contribs commits k hrp⟩)
              · exact Or.inr (Or.inr ⟨hb1,
                  collectG_parent_sub (some rid) lang w owner contribs commits k hcp⟩)
            have hpresUp : ∀ k a, g.lookupN k = some a → g2.lookupN k = some a := by
              intro k a hk
              have hne : k ≠ rid := hgne k a hk
              refine hpres2 k a ?_
              rw [lookup_addNode_ne _ hne]
              exact hk
            rcases res with e | u
            · dsimp only
              exact ⟨hwf2, hprovUp, hpresUp⟩
            · dsimp only
              have hrid2 : g2.lookupN rid = some (repoAttrs lang w) := hpres2 rid _ hA
              have hfp2 : ∀ u ∈ directKeysG owner contribs commits, freshOrPerson g2 u := by
                intro u hu
                obtain ⟨hf, hnr⟩ := hkeys u (hdirsub u hu)
                have hne : u ≠ rid := fun hx => hnr (by
                  rw [hx]
                  exact repoNames_head rid lang w true (some p) owner contribs commits)
                have hfA : freshOrPerson (g.addNode rid (repoAttrs lang w)) u :=
                  freshOrPerson_addNode_ne _ hne hf
                unfold freshOrPerson
                rcases ho : g2.lookupN u with _ | a
                · left
                  rfl
                · right
                  rcases hprov2 u a ho with h1 | ⟨_, hrp⟩ | ⟨hb1, _⟩
                  · unfold freshOrPerson at hfA
                    rw [h1] at hfA
                    rcases hfA with hx | hx
                    · exact absurd hx (by simp)
                    · exact hx
                  · exact absurd
                      (repoNames_parent_sub (some rid) lang w owner contribs commits u hrp) hnr
                  · simp [hb1]
              obtain ⟨hwfF, hprovF, hpresF⟩ :=
                finishG_wf since rid owner contribs commits g2 (repoAttrs lang w)
                  hwf2 hrid2 rfl hfp2
              refine ⟨hwfF, ?_, ?_⟩
              · intro k a hk
                rcases hprovF k a hk with hk2 | ⟨hkd, hka⟩
                · exact hprovUp k a hk2
                · subst hka
                  exact Or.inr (Or.inr ⟨rfl, hdirsub k hkd⟩)
              · intro k a hk
                exact hpresF k a (hgne k a hk) (hpresUp k a hk)

/-- All person keys the page's repositories (and their fork parents) can link. -/
def pageKeysG : List Repo → List String
  | [] => []
  | r :: rs => collectPersonKeysG r ++ pageKeysG rs

/-- All repository keys the page's repositories (and their fork parents) can add. -/
def pageNamesG : List Repo → List String
  | [] => []
  | r :: rs => repoNames r ++ pageNamesG rs

/-- Page-level bipartite preservation for GithubCrawler.py: if every person
key the page can link is fresh or already a person node and collides with
no repository key of the page, the graph after the whole page is still
bipartite well-formed. -/
theorem processPageG_wf (since : Option Nat) :
    ∀ (g : PGraph) (rs : List Repo),
      WFBip g →
      (∀ k ∈ pageKeysG rs, freshOrPerson g k ∧ k ∉ pageNamesG rs) →
      WFBip (processPageG since g rs).1
  | g, [] => by
    intro hwf _
    exact hwf
  | g, r :: rs => by
    intro hwf hkeys
    have hkr : ∀ k ∈ collectPersonKeysG r, freshOrPerson g k ∧ k ∉ repoNames r := by
      intro k hk
      obtain ⟨hf, hn⟩ := hkeys k (List.mem_append_left _ hk)
      exact ⟨hf, fun hx => hn (List.mem_append_left _ hx)⟩
    obtain ⟨hwf1, hprov1, hpres1⟩ := importG_wf since g r hwf hkr
    rcases hi : importRepoG since g r with ⟨g1, res⟩
    rw [hi] at hwf1 hprov1 hpres1
    dsimp only at hwf1 hprov1 hpres1
    rw [processPageG.eq_def]
    dsimp only
    rw [hi]
    rcases res with e | u
    · exact hwf1
    · have htail : ∀ k ∈ pageKeysG rs, freshOrPerson g1 k ∧ k ∉ pageNamesG rs := by
        intro k hk
        obtain ⟨hf, hn⟩ := hkeys k (List.mem_append_right _ hk)
        have hnr : k ∉ repoNames r := fun hx => hn (List.mem_append_left _ hx)
        refine ⟨?_, fun hx => hn (List.mem_append_right _ hx)⟩
        unfold freshOrPerson
        rcases ho : g1.lookupN k with _ | a
        · left
          rfl
        · right
          rcases hprov1 k a ho with h1 | ⟨_, hrp⟩ | ⟨hb1, _⟩
          · unfold freshOrPerson at hf
            rw [h1] at hf
            rcases hf with hx | hx
            · exact absurd hx (by simp)
            · exact hx
          · exact absurd hrp hnr
          · simp [hb1]
      have hrec := processPageG_wf since g1 rs hwf1 htail
      dsimp only
      exact hrec

/-- A repository named `p` with no owner: its key will collide with the
next repository's owner login. -/
def wP4 : Repo := .mk (some "p") none none false none none {} {}

/-- A repository `o/r` whose owner's login is `p` — the key of an existing
repository node. -/
def wQ4 : Repo := .mk (some "o/r") none none false none (some { login := some "p" }) {} {}

/-- A page whose single repository `a/r` has owner login `alice`, with no
key collision between person keys and repository keys. -/
def wA4 : Repo := .mk (some "a/r") none none false none (some { login := some "alice" }) {} {}

/-- C4 counterexample: `link_user` never checks the bipartite tag of an
existing node with the person's key. Importing repository "p" and then
repository "o/r" whose owner login is "p" makes `link_user` reuse the
repository node "p" as the person endpoint, adding the edge
("p", "o/r", relation=owner) whose two endpoints BOTH carry bipartite=0 —
a Repository–Repository edge, violating the bipartite invariant even
though the previous graph was empty. -/
theorem C4_counterexample :
    ("p", "o/r", some "owner") ∈ (processPageG none {} [wP4, wQ4]).1.edges
    ∧ ((processPageG none {} [wP4, wQ4]).1.lookupN "p").map NodeAttrs.bipartite
        = some (some 0)
    ∧ ((processPageG none {} [wP4, wQ4]).1.lookupN "o/r").map NodeAttrs.bipartite
        = some (some 0)
    ∧ edgeOk (processPageG none {} [wP4, wQ4]).1 ("p", "o/r", some "owner") = false := by
  decide

/-- C4: every edge added by a GithubCrawler.py page connects a bipartite-0
node to a bipartite-1 node — PROVIDED the bipartite-labelled previous
graph and the page satisfy the key-disjointness the code silently assumes:
every person key (owner login, contributor login-or-email, commit-author
login-or-email) of the page's repositories and their fork parents is
either absent from the previous graph or already a bipartite-1 person
node, and equals none of the page's repository full names. Without that
proviso the invariant fails (see the counterexample). -/
theorem C4_bipartite_amended (since : Option Nat) (g : PGraph) (rs : List Repo)
    (hwf : WFBip g)
    (hkeys : ∀ k ∈ pageKeysG rs, freshOrPerson g k ∧ k ∉ pageNamesG rs) :
    ∀ e ∈ (processPageG since g rs).1.edges,
      edgeOk (processPageG since g rs).1 e = true :=
  (processPageG_wf since g rs hwf hkeys).2

/-- C4 witness: the empty previous graph and the one-repository page
`[wA4]` satisfy both hypotheses, and every edge of the resulting graph
(the single owner edge alice–a/r) joins a 0-node to a 1-node. -/
theorem C4_bipartite_amended_witness :
    (WFBip ({} : PGraph)
      ∧ ∀ k ∈ pageKeysG [wA4], freshOrPerson ({} : PGraph) k ∧ k ∉ pageNamesG [wA4])
    ∧ ∀ e ∈ (processPageG none {} [wA4]).1.edges,
        edgeOk (processPageG none {} [wA4]).1 e = true := by
  have hwfE : WFBip ({} : PGraph) :=
    ⟨fun p hp => absurd hp (by simp), fun e he => absurd he (by simp)⟩
  have hkE : ∀ k ∈ pageKeysG [wA4], freshOrPerson ({} : PGraph) k ∧ k ∉ pageNamesG [wA4] := by
    have he1 : pageKeysG [wA4] = ["alice"] := by decide
    have he2 : pageNamesG [wA4] = ["a/r"] := by decide
    intro k hk
    rw [he1] at hk
    simp only [List.mem_singleton] at hk
    subst hk
    constructor
    · unfold freshOrPerson
      left
      rfl
    · rw [he2]
      decide
  exact ⟨⟨hwfE, hkE⟩, C4_bipartite_amended none {} [wA4] hwfE hkE⟩
